import Mathlib

/-!
# BARD maths: point-based registration and pivot calibration

A shallow embedding of `Code/bardMaths.cxx` (namespace `bard`) and the properties
proved about it.

Modelling conventions.

* `double` is an arbitrary linearly ordered field `K` (exact arithmetic).  The
  definitions are computable, so they can be evaluated at `K = ℚ`; the theorems
  that need square roots or positive semidefinite matrices are stated at `K = ℝ`,
  with `sqrt` instantiated by `Real.sqrt`.
* `std::vector<T>` is `List T`; `v.size()` is `v.length`.  Sizes and loop counters
  (`int`, `unsigned int`, `unsigned long`) are natural numbers: the embedding covers
  vectors whose size fits the counter's type.
* `cv::Matx33d`, `cv::Matx44d`, `cv::Matx31d`, `cv::Matx41d` and `cv::Mat` are
  Mathlib matrices over `Fin`.
* `cv::SVD` is a library routine.  It is a parameter of the two functions calling
  it; what its result satisfies is a hypothesis of the theorems needing it.
* A function that writes to an output parameter and may throw returns the final
  content of the output parameter together with `Except Exception double`.
-/

namespace bard

open Matrix

/-! ## Data model -/

/-- The type `cv::Point3d`: three coordinates. -/
structure Point3d (K : Type) where
  x : K
  y : K
  z : K

/-- The type `cv::Matx33d`. -/
abbrev Matx33 (K : Type) := Matrix (Fin 3) (Fin 3) K

/-- The type `cv::Matx44d`. -/
abbrev Matx44 (K : Type) := Matrix (Fin 4) (Fin 4) K

/-- The type `cv::Matx31d`. -/
abbrev Matx31 (K : Type) := Matrix (Fin 3) (Fin 1) K

/-- The type `cv::Matx41d`. -/
abbrev Matx41 (K : Type) := Matrix (Fin 4) (Fin 1) K

/-- The exceptions thrown by the module, with their `what()` text. -/
inductive Exception where
  | runtime_error (what : String)
  | logic_error (what : String)
  deriving DecidableEq, Repr

/-- Assignment `m(r, c) = v` to one entry of a matrix. -/
def setEntry {m n : Type} [DecidableEq m] [DecidableEq n] {K : Type}
    (M : Matrix m n K) (r : m) (c : n) (v : K) : Matrix m n K :=
  Matrix.of fun i j => if i = r ∧ j = c then v else M i j

/-- Element access `points[i]` on a vector of points.  The source never checks the index;
an index past the end (undefined in the source) reads the origin here. -/
def pointAt {K : Type} [Zero K] (points : List (Point3d K)) (i : ℕ) : Point3d K :=
  points.getD i ⟨0, 0, 0⟩

/-! ## Point-set helpers -/

/-- Function `CalculateCentroid`: accumulate the coordinates, then divide by the size when it is not
zero. -/
def CalculateCentroid {K : Type} [Field K] (points : List (Point3d K)) : Point3d K :=
  let centroid : Point3d K :=
    points.foldl (fun c pt => ⟨c.x + pt.x, c.y + pt.y, c.z + pt.z⟩) ⟨0, 0, 0⟩
  if points.length > 0 then
    let size : K := (points.length : K)
    ⟨centroid.x / size, centroid.y / size, centroid.z / size⟩
  else
    centroid

/-- Function `SubtractPointFromPoints`: push back `points[i] - point` for every `i`, in order. -/
def SubtractPointFromPoints {K : Type} [Field K] (points : List (Point3d K))
    (point : Point3d K) : List (Point3d K) :=
  points.foldl (fun result tmp => result ++ [⟨tmp.x - point.x, tmp.y - point.y, tmp.z - point.z⟩])
    []

/-- Function `CalculateCrossCovarianceH`: the sum over `i < q.size()` of the matrices
`q[i] * qPrime[i]ᵀ`. -/
def CalculateCrossCovarianceH {K : Type} [Field K] (q qPrime : List (Point3d K)) : Matx33 K :=
  (List.range q.length).foldl
    (fun result i =>
      let a := pointAt q i
      let b := pointAt qPrime i
      let tmp : Matx33 K :=
        !![a.x * b.x, a.x * b.y, a.x * b.z;
           a.y * b.x, a.y * b.y, a.y * b.z;
           a.z * b.x, a.z * b.y, a.z * b.z]
      result + tmp)
    0

/-- Function `IsCloseToZero`: whether `fabs(value) < tolerance`. -/
def IsCloseToZero {K : Type} [LinearOrderedField K] (value tolerance : K) : Bool :=
  if |value| < tolerance then true else false

/-- Function `MakeIdentity`: zero the matrix, then set the four diagonal entries to one. -/
def MakeIdentity {K : Type} [Field K] (_matrix : Matx44 K) : Matx44 K :=
  (List.finRange 4).foldl (fun m i => setEntry m i i 1) 0

/-! ## Fiducial registration error -/

/-- The text of the exception thrown for point sets of different sizes. -/
def sizeMismatchMessage (nFixed nMoving : ℕ) : String :=
  "The number of 'fixed' points is " ++ toString nFixed
    ++ " whereas the number of 'moving' points is " ++ toString nMoving
    ++ " and they should correspond."

/-- Function `CalculateFiducialRegistrationError`: throws when the sizes differ; otherwise the
root of the mean (over the points, when there are any) of the squared distances between
`fixedPoints[i]` and the first three coordinates of `matrix * (movingPoints[i], 1)`. -/
def CalculateFiducialRegistrationError {K : Type} [Field K] (sqrt : K → K)
    (fixedPoints movingPoints : List (Point3d K)) (matrix : Matx44 K) : Except Exception K :=
  if fixedPoints.length ≠ movingPoints.length then
    .error (.runtime_error (sizeMismatchMessage fixedPoints.length movingPoints.length))
  else
    let numberOfPoints : ℕ := fixedPoints.length
    let fre : K :=
      (List.range numberOfPoints).foldl
        (fun fre i =>
          let f : Matx41 K :=
            !![(pointAt fixedPoints i).x; (pointAt fixedPoints i).y; (pointAt fixedPoints i).z; 1]
          let m : Matx41 K :=
            !![(pointAt movingPoints i).x; (pointAt movingPoints i).y;
               (pointAt movingPoints i).z; 1]
          let mPrime : Matx41 K := matrix * m
          let squaredError : K :=
            (f 0 0 - mPrime 0 0) * (f 0 0 - mPrime 0 0)
              + (f 1 0 - mPrime 1 0) * (f 1 0 - mPrime 1 0)
              + (f 2 0 - mPrime 2 0) * (f 2 0 - mPrime 2 0)
          fre + squaredError)
        0
    let fre : K := if numberOfPoints > 0 then fre / (numberOfPoints : K) else fre
    .ok (sqrt fre)

/-! ## Point-based registration -/

/-- The result of `cv::SVD` on a 3×3 matrix: `u`, `vt`, and the column `w` of singular values,
given by its accessor `w.at<double>(r, c)`; the singular values are `w r 0` for `r < 3`. -/
structure SVD3 (K : Type) where
  u : Matx33 K
  w : ℕ → ℕ → K
  vt : Matx33 K

/-- Function `DoSVDPointBasedRegistration`.  `svdOf` is `cv::SVD`, `tolerance` the default
second argument of `IsCloseToZero` (declared in the header).  The `&&` of the source evaluates
its right operand only when `detX < 0`, as does `&&` on `Bool` here.  The first value given to
`fre` is overwritten before it is read and is left out.  Returns the final `outputMatrix` and the
returned value or the exception. -/
def DoSVDPointBasedRegistration {K : Type} [LinearOrderedField K]
    (svdOf : Matx33 K → SVD3 K) (sqrt : K → K) (tolerance : K)
    (fixedPoints movingPoints : List (Point3d K)) (H : Matx33 K) (p pPrime : Point3d K)
    (outputMatrix : Matx44 K) : Matx44 K × Except Exception K :=
  let svd := svdOf H
  let VU : Matx33 K := svd.vtᵀ * svd.u
  let detVU : K := VU.det
  let diag : Matx33 K := setEntry (setEntry (setEntry 0 0 0 1) 1 1 1) 2 2 detVU
  let X : Matx33 K := svd.vtᵀ * (diag * svd.uᵀ)
  let detX : K := X.det
  let fix : Bool :=
    decide (detX < 0)
      && (IsCloseToZero (svd.w 0 0) tolerance
          || IsCloseToZero (svd.w 1 1) tolerance
          || IsCloseToZero (svd.w 2 2) tolerance)
  let X : Matx33 K :=
    if fix then
      let VPrime : Matx33 K := svd.vtᵀ
      let VPrime := setEntry VPrime 0 2 (-1 * VPrime 0 2)
      let VPrime := setEntry VPrime 1 2 (-1 * VPrime 1 2)
      let VPrime := setEntry VPrime 2 2 (-1 * VPrime 2 2)
      VPrime * svd.uᵀ
    else X
  let haveTriedToFixDeterminantIssue : Bool := fix
  let outputMatrix : Matx44 K := MakeIdentity outputMatrix
  let outputMatrix : Matx44 K :=
    if decide (detX > 0) || haveTriedToFixDeterminantIssue then
      let R : Matx33 K := X
      let tmpP : Matx31 K := !![p.x; p.y; p.z]
      let tmpPPrime : Matx31 K := !![pPrime.x; pPrime.y; pPrime.z]
      let T : Matx31 K := tmpPPrime - R * tmpP
      (List.finRange 3).foldl
        (fun out r =>
          let out := (List.finRange 3).foldl
            (fun out c => setEntry out r.castSucc c.castSucc (R r c)) out
          setEntry out r.castSucc (3 : Fin 4) (T r 0))
        outputMatrix
    else outputMatrix
  (outputMatrix, CalculateFiducialRegistrationError sqrt fixedPoints movingPoints outputMatrix)

/-! ## Pivot calibration -/

/-- The result of `cv::SVD` on an `m × n` matrix held in a `cv::Mat`: `w` is a column of
`rows = w.rows` singular values, `u` is `m × rows` and `vt` is `rows × n`. -/
structure SVD (K : Type) (m n : ℕ) where
  rows : ℕ
  u : Matrix (Fin m) (Fin rows) K
  w : Fin rows → K
  vt : Matrix (Fin rows) (Fin n) K

/-- Method `cv::SVD::backSubst(rhs, dst)`, by its documentation: `dst = vtᵀ · diag(w)⁻¹ · uᵀ · rhs`,
a singular value that is zero contributing nothing (the pseudo-inverse solve). -/
def SVD.backSubst {K : Type} [Field K] [DecidableEq K] {m n : ℕ} (svd : SVD K m n)
    (rhs : Matrix (Fin m) (Fin 1) K) : Matrix (Fin n) (Fin 1) K :=
  svd.vtᵀ * (Matrix.diagonal (fun i => if svd.w i = 0 then 0 else 1 / svd.w i) * (svd.uᵀ * rhs))

/-- Call `cvCreateMat(rows, cols, CV_64FC1)`: a matrix whose entries are not initialised; `junk`
is what the memory holds. -/
def cvCreateMat {K : Type} (junk : ℕ → ℕ → K) (rows cols : ℕ) :
    Matrix (Fin rows) (Fin cols) K :=
  Matrix.of fun i j => junk i j

/-- Row `i * 3 + r` of a matrix with `3 * numberOfMatrices` rows. -/
def pivotRow {numberOfMatrices : ℕ} (i : Fin numberOfMatrices) (r : Fin 3) :
    Fin (3 * numberOfMatrices) :=
  ⟨i.val * 3 + r.val, by have := i.isLt; have := r.isLt; omega⟩

/-- The body of the "Fill matrices" loop of `DoPivotCalibration` for pose `i`, whose matrix is
`M`: the writes to `b` and `a` in the order of the source. -/
def fillPose {K : Type} [Field K] {numberOfMatrices : ℕ} (M : Matx44 K)
    (i : Fin numberOfMatrices)
    (ab : Matrix (Fin (3 * numberOfMatrices)) (Fin 6) K
      × Matrix (Fin (3 * numberOfMatrices)) (Fin 1) K) :
    Matrix (Fin (3 * numberOfMatrices)) (Fin 6) K
      × Matrix (Fin (3 * numberOfMatrices)) (Fin 1) K :=
  let a := ab.1
  let b := ab.2
  let b := setEntry b (pivotRow i 0) 0 (-1 * M 0 3)
  let b := setEntry b (pivotRow i 1) 0 (-1 * M 1 3)
  let b := setEntry b (pivotRow i 2) 0 (-1 * M 2 3)
  let a := setEntry a (pivotRow i 0) 0 (M 0 0)
  let a := setEntry a (pivotRow i 1) 0 (M 1 0)
  let a := setEntry a (pivotRow i 2) 0 (M 2 0)
  let a := setEntry a (pivotRow i 0) 1 (M 0 1)
  let a := setEntry a (pivotRow i 1) 1 (M 1 1)
  let a := setEntry a (pivotRow i 2) 1 (M 2 1)
  let a := setEntry a (pivotRow i 0) 2 (M 0 2)
  let a := setEntry a (pivotRow i 1) 2 (M 1 2)
  let a := setEntry a (pivotRow i 2) 2 (M 2 2)
  let a := setEntry a (pivotRow i 0) 3 (-1)
  let a := setEntry a (pivotRow i 1) 3 0
  let a := setEntry a (pivotRow i 2) 3 0
  let a := setEntry a (pivotRow i 0) 4 0
  let a := setEntry a (pivotRow i 1) 4 (-1)
  let a := setEntry a (pivotRow i 2) 4 0
  let a := setEntry a (pivotRow i 0) 5 0
  let a := setEntry a (pivotRow i 1) 5 0
  let a := setEntry a (pivotRow i 2) 5 (-1)
  (a, b)

/-- The "Fill matrices" loop of `DoPivotCalibration` over all poses. -/
def fillMatrices {K : Type} [Field K] (matrices : List (Matx44 K))
    (a : Matrix (Fin (3 * matrices.length)) (Fin 6) K)
    (b : Matrix (Fin (3 * matrices.length)) (Fin 1) K) :
    Matrix (Fin (3 * matrices.length)) (Fin 6) K × Matrix (Fin (3 * matrices.length)) (Fin 1) K :=
  (List.finRange matrices.length).foldl (fun ab i => fillPose (matrices.get i) i ab) (a, b)

/-- The system `(a, b)` that `DoPivotCalibration` assembles: the two matrices are created,
then filled. -/
def pivotSystem {K : Type} [Field K] (junk : ℕ → ℕ → K) (matrices : List (Matx44 K)) :
    Matrix (Fin (3 * matrices.length)) (Fin 6) K × Matrix (Fin (3 * matrices.length)) (Fin 1) K :=
  fillMatrices matrices (cvCreateMat junk (3 * matrices.length) 6)
    (cvCreateMat junk (3 * matrices.length) 1)

/-- The threshold below which `DoPivotCalibration` zeroes a singular value (`0.01`). -/
def rankThreshold {K : Type} [Field K] : K := 1 / 100

/-- The thresholding loop of `DoPivotCalibration` over the `w.rows` singular values: a value
below the threshold is set to zero, and the values that are then not zero are counted.
Returns the modified `w` and `rank`. -/
def thresholdSingularValues {K : Type} [LinearOrderedField K] {rows : ℕ} (w : Fin rows → K) :
    (Fin rows → K) × ℕ :=
  (List.finRange rows).foldl
    (fun (wr : (Fin rows → K) × ℕ) i =>
      let w := wr.1
      let rank := wr.2
      let w := if w i < rankThreshold then Function.update w i 0 else w
      let rank := if w i ≠ 0 then rank + 1 else rank
      (w, rank))
    (w, 0)

/-- The text of the exception thrown by `DoPivotCalibration` (`std::endl` is a line feed). -/
def rankFailureMessage : String := "PivotCalibration: Failed. Rank < 6" ++ "\n"

/-- What `DoPivotCalibration` leaves behind: the final `outputMatrix`, the returned value or
the exception, and the numbers written to `std::cout` (the pivot `x[3], x[4], x[5]` and the
residual), if the line was written. -/
structure PivotOutcome (K : Type) where
  outputMatrix : Matx44 K
  result : Except Exception K
  cout : Option ((K × K × K) × K)

/-- Function `DoPivotCalibration`.  `svdOf` is `cv::SVD`, `junk` the content of freshly
created matrices.  The matrix `x` is created and then wholly written by `backSubst`, so only the
written value appears. -/
def DoPivotCalibration {K : Type} [LinearOrderedField K]
    (svdOf : (m : ℕ) → Matrix (Fin m) (Fin 6) K → SVD K m 6) (sqrt : K → K) (junk : ℕ → ℕ → K)
    (matrices : List (Matx44 K)) (outputMatrix : Matx44 K) : PivotOutcome K :=
  let numberOfMatrices : ℕ := matrices.length
  let ab := pivotSystem junk matrices
  let a : Matrix (Fin (3 * numberOfMatrices)) (Fin 6) K := ab.1
  let b : Matrix (Fin (3 * numberOfMatrices)) (Fin 1) K := ab.2
  let svdOfA := svdOf (3 * numberOfMatrices) a
  let wr := thresholdSingularValues svdOfA.w
  let svdOfA : SVD K (3 * numberOfMatrices) 6 :=
    { rows := svdOfA.rows, u := svdOfA.u, w := wr.1, vt := svdOfA.vt }
  let rank : ℕ := wr.2
  if rank < 6 then
    { outputMatrix := outputMatrix
      result := .error (.logic_error rankFailureMessage)
      cout := none }
  else
    let x : Matrix (Fin 6) (Fin 1) K := svdOfA.backSubst b
    let residualMatrix : Matrix (Fin (3 * numberOfMatrices)) (Fin 1) K := a * x - b
    let residualError : K :=
      (List.finRange (3 * numberOfMatrices)).foldl
        (fun residualError i => residualError + residualMatrix i 0 * residualMatrix i 0) 0
    let residualError : K := residualError / ((numberOfMatrices * 3 : ℕ) : K)
    let residualError : K := sqrt residualError
    let outputMatrix : Matx44 K := MakeIdentity outputMatrix
    let outputMatrix := setEntry outputMatrix 0 3 (x 0 0)
    let outputMatrix := setEntry outputMatrix 1 3 (x 1 0)
    let outputMatrix := setEntry outputMatrix 2 3 (x 2 0)
    { outputMatrix := outputMatrix
      result := .ok residualError
      cout := some ((x 3 0, x 4 0, x 5 0), residualError) }

/-! ## Specification-side definitions -/

/-- The coordinates of a point as a vector. -/
def Point3d.toVec {K : Type} (a : Point3d K) : Fin 3 → K := ![a.x, a.y, a.z]

/-- The homogeneous 4×4 matrix with rotation block `R`, translation column `t` and bottom row
`0 0 0 1`. -/
def rigidTransform {K : Type} [Field K] (R : Matx33 K) (t : Fin 3 → K) : Matx44 K :=
  !![R 0 0, R 0 1, R 0 2, t 0;
     R 1 0, R 1 1, R 1 2, t 1;
     R 2 0, R 2 1, R 2 2, t 2;
     0, 0, 0, 1]

/-- The top-left 3×3 block of a 4×4 matrix. -/
def rotationBlock {K : Type} (M : Matx44 K) : Matx33 K :=
  Matrix.of fun i j => M i.castSucc j.castSucc

/-- The first three entries of the last column of a 4×4 matrix. -/
def translationColumn {K : Type} (M : Matx44 K) : Fin 3 → K :=
  fun i => M i.castSucc 3

/-- The candidate rotation `X = V · diag(1, 1, det(V · U)) · Uᵀ` of
`DoSVDPointBasedRegistration`, with `V = vtᵀ`. -/
def candidateRotation {K : Type} [Field K] (svd : SVD3 K) : Matx33 K :=
  svd.vtᵀ * (Matrix.diagonal ![1, 1, (svd.vtᵀ * svd.u).det] * svd.uᵀ)

/-- The point `R · a + t`. -/
def applyRigid {K : Type} [Field K] (R : Matx33 K) (t : Fin 3 → K) (a : Point3d K) : Point3d K :=
  ⟨(R.mulVec a.toVec + t) 0, (R.mulVec a.toVec + t) 1, (R.mulVec a.toVec + t) 2⟩

/-- The cross-covariance as the registration pipeline computes it: the centroids of the two
sets, the two centred sets, then `CalculateCrossCovarianceH` with the moving set first. -/
def pipelineH {K : Type} [Field K] (fixedPoints movingPoints : List (Point3d K)) : Matx33 K :=
  CalculateCrossCovarianceH
    (SubtractPointFromPoints movingPoints (CalculateCentroid movingPoints))
    (SubtractPointFromPoints fixedPoints (CalculateCentroid fixedPoints))

/-- What `cv::SVD` guarantees for a 3×3 matrix `H`: `H = u · diag(w) · vt` with `u` and `vt`
orthogonal and the singular values `w 0 0 ≥ w 1 0 ≥ w 2 0 ≥ 0`. -/
def IsSVD3 {K : Type} [LinearOrderedField K] (H : Matx33 K) (svd : SVD3 K) : Prop :=
  H = svd.u * Matrix.diagonal (fun i : Fin 3 => svd.w i.val 0) * svd.vt
    ∧ svd.uᵀ * svd.u = 1 ∧ svd.vt * svd.vtᵀ = 1
    ∧ 0 ≤ svd.w 2 0 ∧ svd.w 2 0 ≤ svd.w 1 0 ∧ svd.w 1 0 ≤ svd.w 0 0

/-- The squared distance between `f` and the first three coordinates of `M · (m, 1)`. -/
def squaredError {K : Type} [Field K] (M : Matx44 K) (f m : Point3d K) : K :=
  (f.x - (M 0 0 * m.x + M 0 1 * m.y + M 0 2 * m.z + M 0 3)) ^ 2
    + (f.y - (M 1 0 * m.x + M 1 1 * m.y + M 1 2 * m.z + M 1 3)) ^ 2
    + (f.z - (M 2 0 * m.x + M 2 1 * m.y + M 2 2 * m.z + M 2 3)) ^ 2

/-- The rotation by 90° about the z axis. -/
def rotZ90 {K : Type} [Field K] : Matx33 K := !![0, -1, 0; 1, 0, 0; 0, 0, 1]

/-- Four points in the plane `z = 0`, not on a line. -/
def planarPoints {K : Type} [Field K] : List (Point3d K) :=
  [⟨2, 0, 0⟩, ⟨-2, 0, 0⟩, ⟨0, 1, 0⟩, ⟨0, -1, 0⟩]

/-- A singular value decomposition of the cross-covariance of `planarPoints` and their image
under `rotZ90` and a translation. -/
def planarSVD {K : Type} [Field K] : SVD3 K :=
  { u := 1
    w := fun r c => if c = 0 then (if r = 0 then 8 else if r = 1 then 2 else 0) else 0
    vt := rotZ90ᵀ }

/-- The fixed points of the concrete registration scenario. -/
def scenarioFixed {K : Type} [Field K] : List (Point3d K) :=
  [⟨0, 0, 0⟩, ⟨1, 0, 0⟩, ⟨0, 1, 0⟩, ⟨0, 0, 1⟩]

/-- The moving points of the concrete registration scenario: each fixed point rotated by 90°
about the z axis, then translated by `(2, 0, 0)`. -/
def scenarioMoving {K : Type} [Field K] : List (Point3d K) :=
  scenarioFixed.map (applyRigid rotZ90 ![2, 0, 0])

/-- The symmetric orthogonal matrix (a Householder reflection) whose third column is
`(1, 1, 1) / √3`, given `s = √3`. -/
def scenarioE {K : Type} [Field K] (s : K) : Matx33 K :=
  !![(3 - s) / 6, -(3 + s) / 6, s / 3;
     -(3 + s) / 6, (3 - s) / 6, s / 3;
     s / 3, s / 3, s / 3]

/-- A singular value decomposition of the cross-covariance of the concrete scenario, given
`s = √3`: `u = rotZ90 · E`, singular values `1, 1, 1/4`, `vt = Eᵀ`. -/
def scenarioSVD {K : Type} [Field K] (s : K) : SVD3 K :=
  { u := rotZ90 * scenarioE s
    w := fun r c => if c = 0 then (if r = 0 then 1 else if r = 1 then 1 else 1 / 4) else 0
    vt := (scenarioE s)ᵀ }

/-- The three rows that one pose `M` contributes to the pivot system: columns 0–2 are the
rotation block of `M`, columns 3–5 are minus the identity. -/
def pivotBlock {K : Type} [Field K] (M : Matx44 K) : Matrix (Fin 3) (Fin 6) K :=
  !![M 0 0, M 0 1, M 0 2, -1, 0, 0;
     M 1 0, M 1 1, M 1 2, 0, -1, 0;
     M 2 0, M 2 1, M 2 2, 0, 0, -1]

/-- The three right-hand sides that one pose `M` contributes: minus its translation. -/
def pivotRhs {K : Type} [Field K] (M : Matx44 K) : Matrix (Fin 3) (Fin 1) K :=
  !![-M 0 3; -M 1 3; -M 2 3]

/-- The matrix `A` of the pivot system, block by block: row `3 i + r` is row `r` of the block
of pose `i`. -/
def pivotA {K : Type} [Field K] (matrices : List (Matx44 K)) :
    Matrix (Fin (3 * matrices.length)) (Fin 6) K :=
  Matrix.of fun row c =>
    pivotBlock (matrices.getD (row.val / 3) 0) ⟨row.val % 3, Nat.mod_lt _ (by decide)⟩ c

/-- The right-hand side `b` of the pivot system, block by block. -/
def pivotB {K : Type} [Field K] (matrices : List (Matx44 K)) :
    Matrix (Fin (3 * matrices.length)) (Fin 1) K :=
  Matrix.of fun row c =>
    pivotRhs (matrices.getD (row.val / 3) 0) ⟨row.val % 3, Nat.mod_lt _ (by decide)⟩ c

/-- The number of singular values that survive thresholding: a value strictly below the
threshold is set to zero, and the values that are then not zero are counted. -/
def survivingCount {K : Type} [LinearOrderedField K] {rows : ℕ} (w : Fin rows → K) : ℕ :=
  (Finset.univ.filter fun i => (if w i < rankThreshold then 0 else w i) ≠ 0).card

/-- What `cv::SVD` guarantees for an `m × n` matrix `a`: there are `min m n` singular values,
`a = u · diag(w) · vt`, the columns of `u` and the rows of `vt` are orthonormal, and the singular
values are non-negative and in descending order. -/
def IsSVD {K : Type} [LinearOrderedField K] {m n : ℕ} (a : Matrix (Fin m) (Fin n) K)
    (svd : SVD K m n) : Prop :=
  svd.rows = min m n
    ∧ a = svd.u * Matrix.diagonal svd.w * svd.vt
    ∧ svd.uᵀ * svd.u = 1 ∧ svd.vt * svd.vtᵀ = 1
    ∧ (∀ i, 0 ≤ svd.w i) ∧ (∀ i j, i ≤ j → svd.w j ≤ svd.w i)

/-- The unknown of the pivot system: the tip offset `c` stacked on the pivot point `q`. -/
def pivotUnknown {K : Type} (c q : Fin 3 → K) : Matrix (Fin 6) (Fin 1) K :=
  Matrix.of fun i _ => ![c 0, c 1, c 2, q 0, q 1, q 2] i

/-- Four poses pivoting about `(4, 5, 6)` with tip offset `(1, 2, 3)`: the identity and the
half turns about the three axes, each with translation `-R · (1, 2, 3) + (4, 5, 6)`. -/
def pivotPoses {K : Type} [Field K] : List (Matx44 K) :=
  [!![1, 0, 0, 3; 0, 1, 0, 3; 0, 0, 1, 3; 0, 0, 0, 1],
   !![1, 0, 0, 3; 0, -1, 0, 7; 0, 0, -1, 9; 0, 0, 0, 1],
   !![-1, 0, 0, 5; 0, 1, 0, 3; 0, 0, -1, 9; 0, 0, 0, 1],
   !![-1, 0, 0, 5; 0, -1, 0, 7; 0, 0, 1, 3; 0, 0, 0, 1]]

/-- A singular value decomposition of a matrix with six orthogonal columns of norm 2:
`u = a / 2`, all singular values `2`, `vt = 1`. -/
def halfSVD {K : Type} [Field K] (m : ℕ) (a : Matrix (Fin m) (Fin 6) K) : SVD K m 6 :=
  { rows := 6
    u := (1 / 2 : K) • a
    w := fun _ => 2
    vt := 1 }

/-- A singular value decomposition of a matrix whose rows are orthogonal and of norm `s`:
`u = 1`, all singular values `s`, `vt = a / s`. -/
def scaledRowSVD {K : Type} [Field K] (s : K) (m : ℕ) (a : Matrix (Fin m) (Fin 6) K) :
    SVD K m 6 :=
  { rows := m
    u := 1
    w := fun _ => s
    vt := (1 / s) • a }

/-- The homogeneous form of a point: fourth coordinate `1`. -/
def homogeneous {K : Type} [Field K] (m : Point3d K) : Fin 4 → K := ![m.x, m.y, m.z, 1]

/-- The first three coordinates of a homogeneous vector. -/
def first3 {K : Type} (v : Fin 4 → K) : Fin 3 → K := ![v 0, v 1, v 2]

/-- The squared Euclidean norm of a vector of three coordinates. -/
def normSq3 {K : Type} [Field K] (v : Fin 3 → K) : K := v 0 ^ 2 + v 1 ^ 2 + v 2 ^ 2

/-- The reference definition of the fiducial registration error of two point sets of the same
length `n`: `0` when `n = 0`, otherwise the square root of `1 / n` times the sum over the pairs
of `‖fixed[i] - first3 (M · (moving[i], 1))‖²`. -/
def freReference {K : Type} [Field K] (sqrt : K → K) (fixedPoints movingPoints : List (Point3d K))
    (M : Matx44 K) : K :=
  if fixedPoints.length = 0 then 0
  else
    sqrt ((1 / (fixedPoints.length : K))
      * (List.zipWith (fun f m => normSq3 (f.toVec - first3 (M.mulVec (homogeneous m))))
          fixedPoints movingPoints).sum)

/-- Two points on the x axis. -/
def pairPoints {K : Type} [Field K] : List (Point3d K) := [⟨0, 0, 0⟩, ⟨1, 0, 0⟩]

/-- The points of `pairPoints` in the other order. -/
def pairPointsSwapped {K : Type} [Field K] : List (Point3d K) := [⟨1, 0, 0⟩, ⟨0, 0, 0⟩]

/-- The matrix `V` with its third column negated (the `VPrime` of
`DoSVDPointBasedRegistration`). -/
def negateThirdColumn {K : Type} [Field K] (V : Matx33 K) : Matx33 K :=
  Matrix.of fun i j => if j = 2 then -V i j else V i j

/-- The condition under which `DoSVDPointBasedRegistration` applies the alternate correction
and sets `haveTriedToFixDeterminantIssue`: `detX < 0` and one of the entries `w.at(0,0)`,
`w.at(1,1)`, `w.at(2,2)` that the source reads is close to zero. -/
def reflectionFixTaken {K : Type} [LinearOrderedField K] (svd : SVD3 K) (tolerance : K) : Bool :=
  decide ((candidateRotation svd).det < 0)
    && (IsCloseToZero (svd.w 0 0) tolerance
        || IsCloseToZero (svd.w 1 1) tolerance
        || IsCloseToZero (svd.w 2 2) tolerance)

/-- The condition under which `DoSVDPointBasedRegistration` leaves the identity in
`outputMatrix`: neither `detX > 0` nor `haveTriedToFixDeterminantIssue`. -/
def identityFallbackTaken {K : Type} [LinearOrderedField K] (svd : SVD3 K) (tolerance : K) :
    Bool :=
  !(decide ((candidateRotation svd).det > 0) || reflectionFixTaken svd tolerance)

/-- A valid homogeneous transform: the top-left 3×3 block is orthonormal with determinant 1 and
the bottom row is `0 0 0 1`. -/
def IsValidTransform {K : Type} [Field K] (M : Matx44 K) : Prop :=
  (rotationBlock M)ᵀ * rotationBlock M = 1 ∧ (rotationBlock M).det = 1
    ∧ M 3 0 = 0 ∧ M 3 1 = 0 ∧ M 3 2 = 0 ∧ M 3 3 = 1

/-- An output of `cv::SVD` that is not a decomposition: `u` and `vt` are zero. -/
def zeroSVD {K : Type} [Field K] : SVD3 K :=
  { u := 0
    w := fun _ _ => 1
    vt := 0 }

/-- The vector `x` that `DoPivotCalibration` solves for: `backSubst` of the right-hand side
through the SVD of the assembled `A`, with the thresholded singular values. -/
def pivotSolution {K : Type} [LinearOrderedField K]
    (svdOf : (m : ℕ) → Matrix (Fin m) (Fin 6) K → SVD K m 6) (junk : ℕ → ℕ → K)
    (matrices : List (Matx44 K)) : Matrix (Fin 6) (Fin 1) K :=
  SVD.backSubst
    { rows := (svdOf _ (pivotSystem junk matrices).1).rows
      u := (svdOf _ (pivotSystem junk matrices).1).u
      w := (thresholdSingularValues (svdOf _ (pivotSystem junk matrices).1).w).1
      vt := (svdOf _ (pivotSystem junk matrices).1).vt }
    (pivotSystem junk matrices).2

/-- The decimal text of the number `n` occurs in the message `msg`. -/
def messageContainsNumber (msg : String) (n : ℕ) : Prop :=
  (Nat.repr n).data <:+: msg.data

instance decidableMessageContainsNumber (msg : String) (n : ℕ) :
    Decidable (messageContainsNumber msg n) :=
  inferInstanceAs (Decidable ((Nat.repr n).data <:+: msg.data))

/-- A singular value decomposition of the pivot system of two identity poses, in which rows
`r` and `r + 3` agree: the singular values are `2, 2, 2, 0, 0, 0`, and `s` is the square root
of 2. -/
def pairSVD {K : Type} [Field K] (s : K) (m : ℕ) (_a : Matrix (Fin m) (Fin 6) K) : SVD K m 6 :=
  { rows := 6
    u := Matrix.of fun i j =>
      if i.val % 3 = j.val % 3 then (if 3 ≤ i.val ∧ 3 ≤ j.val then -(1 / s) else 1 / s) else 0
    w := fun i => if i.val < 3 then 2 else 0
    vt := Matrix.of fun i j =>
      if i.val % 3 = j.val % 3 then (if i.val < 3 ∧ 3 ≤ j.val then -(1 / s) else 1 / s) else 0 }

/-! ## Lemmas -/

theorem foldl_range_add {K : Type} [AddCommMonoid K] (f : ℕ → K) (n : ℕ) (a : K) :
    (List.range n).foldl (fun acc i => acc + f i) a = a + ∑ i in Finset.range n, f i := by
  induction n with
  | zero => simp
  | succ n ih => rw [List.range_succ, List.foldl_append, ih, Finset.sum_range_succ]; simp [add_assoc]

theorem fre_eq {K : Type} [Field K] (sqrt : K → K) (fixed moving : List (Point3d K))
    (M : Matx44 K) (h : fixed.length = moving.length) :
    CalculateFiducialRegistrationError sqrt fixed moving M
      = .ok (sqrt (if fixed.length > 0 then
          (∑ i in Finset.range fixed.length, squaredError M (pointAt fixed i) (pointAt moving i))
            / (fixed.length : K)
          else ∑ i in Finset.range fixed.length,
            squaredError M (pointAt fixed i) (pointAt moving i))) := by
  unfold CalculateFiducialRegistrationError
  rw [if_neg (by simpa using h)]
  simp only [foldl_range_add, zero_add]
  have hsum : ∀ n : ℕ, (∑ i in Finset.range n,
      ((!![(pointAt fixed i).x; (pointAt fixed i).y; (pointAt fixed i).z; 1] 0 0 -
              (M * !![(pointAt moving i).x; (pointAt moving i).y; (pointAt moving i).z; 1]) 0 0) *
            (!![(pointAt fixed i).x; (pointAt fixed i).y; (pointAt fixed i).z; 1] 0 0 -
              (M * !![(pointAt moving i).x; (pointAt moving i).y; (pointAt moving i).z; 1]) 0 0) +
          (!![(pointAt fixed i).x; (pointAt fixed i).y; (pointAt fixed i).z; 1] 1 0 -
              (M * !![(pointAt moving i).x; (pointAt moving i).y; (pointAt moving i).z; 1]) 1 0) *
            (!![(pointAt fixed i).x; (pointAt fixed i).y; (pointAt fixed i).z; 1] 1 0 -
              (M * !![(pointAt moving i).x; (pointAt moving i).y; (pointAt moving i).z; 1]) 1 0) +
        (!![(pointAt fixed i).x; (pointAt fixed i).y; (pointAt fixed i).z; 1] 2 0 -
            (M * !![(pointAt moving i).x; (pointAt moving i).y; (pointAt moving i).z; 1]) 2 0) *
          (!![(pointAt fixed i).x; (pointAt fixed i).y; (pointAt fixed i).z; 1] 2 0 -
            (M * !![(pointAt moving i).x; (pointAt moving i).y; (pointAt moving i).z; 1]) 2 0)))
      = ∑ i in Finset.range n, squaredError M (pointAt fixed i) (pointAt moving i) := by
    intro n
    refine Finset.sum_congr rfl fun i _ => ?_
    simp [squaredError, Matrix.mul_apply, Fin.sum_univ_four]
    ring
  rw [hsum]

theorem conj_eq_diagonal (U Vt R S : Matx33 ℝ) (w : Fin 3 → ℝ)
    (hU : Uᵀ * U = 1) (hV : Vt * Vtᵀ = 1) (hR : Rᵀ * R = 1) (hw : ∀ i, 0 ≤ w i)
    (hS : S.PosSemidef) (hH : S * Rᵀ = U * diagonal w * Vt) :
    Uᵀ * S * U = diagonal w ∧ diagonal w * (Vt * R * U) = diagonal w := by
  have hU' : U * Uᵀ = 1 := mul_eq_one_comm.mp hU
  have hR' : R * Rᵀ = 1 := mul_eq_one_comm.mp hR
  have hSeq : S = U * diagonal w * Vt * R := by
    rw [← hH, Matrix.mul_assoc, hR, Matrix.mul_one]
  have hconj : Uᵀ * S * U = diagonal w * (Vt * R * U) := by
    rw [hSeq]
    simp only [← Matrix.mul_assoc, hU, Matrix.one_mul]
  have hpsd : (Uᵀ * S * U).PosSemidef := by
    have := hS.conjTranspose_mul_mul_same U
    rwa [conjTranspose_eq_transpose_of_trivial] at this
  have hW : (Vt * R * U) * (Vt * R * U)ᵀ = 1 := by
    simp only [Matrix.transpose_mul]
    calc Vt * R * U * (Uᵀ * (Rᵀ * Vtᵀ)) = Vt * (R * (U * Uᵀ) * Rᵀ) * Vtᵀ := by
          simp only [Matrix.mul_assoc]
      _ = 1 := by rw [hU', Matrix.mul_one, hR', Matrix.mul_one, hV]
  have hsym : (diagonal w * (Vt * R * U))ᵀ = diagonal w * (Vt * R * U) := by
    rw [← hconj]
    have := hpsd.1
    rwa [IsHermitian, conjTranspose_eq_transpose_of_trivial] at this
  have hsq : (Uᵀ * S * U) ^ 2 = (diagonal w) ^ 2 := by
    rw [hconj, pow_two, pow_two]
    nth_rewrite 2 [← hsym]
    rw [Matrix.transpose_mul, diagonal_transpose]
    calc diagonal w * (Vt * R * U) * ((Vt * R * U)ᵀ * diagonal w)
        = diagonal w * ((Vt * R * U) * (Vt * R * U)ᵀ) * diagonal w := by
          simp only [Matrix.mul_assoc]
      _ = diagonal w * diagonal w := by rw [hW, Matrix.mul_one]
  have hd : (diagonal w : Matx33 ℝ).PosSemidef := PosSemidef.diagonal hw
  have := hpsd.eq_of_sq_eq_sq hd hsq
  exact ⟨this, by rw [← hconj, this]⟩

theorem diagMatrix_eq {K : Type} [Field K] (d : K) :
    setEntry (setEntry (setEntry (0 : Matx33 K) 0 0 1) 1 1 1) 2 2 d = diagonal ![1, 1, d] := by
  ext i j
  fin_cases i <;> fin_cases j <;> simp [setEntry]

theorem orthogonal_of_two_rows (W : Matx33 ℝ) (w : Fin 3 → ℝ) (hW : Wᵀ * W = 1)
    (h1 : 0 < w 1) (h0 : w 1 ≤ w 0) (hD : diagonal w * W = diagonal w) :
    W = diagonal ![1, 1, W.det] := by
  have hW' : W * Wᵀ = 1 := mul_eq_one_comm.mp hW
  have e : ∀ i j, w i * W i j = if i = j then w i else 0 := by
    intro i j
    have := congrFun (congrFun hD i) j
    simpa [Matrix.diagonal_mul, Matrix.diagonal_apply] using this
  have w0 : w 0 ≠ 0 := by linarith
  have w1 : w 1 ≠ 0 := by linarith
  have e00 : W 0 0 = 1 := by have := e 0 0; simpa [w0] using this
  have e01 : W 0 1 = 0 := by have := e 0 1; simpa [w0] using this
  have e02 : W 0 2 = 0 := by have := e 0 2; simpa [w0] using this
  have e10 : W 1 0 = 0 := by have := e 1 0; simpa [w1] using this
  have e11 : W 1 1 = 1 := by have := e 1 1; simpa [w1] using this
  have e12 : W 1 2 = 0 := by have := e 1 2; simpa [w1] using this
  have c0 := congrFun (congrFun hW 0) 0
  have c1 := congrFun (congrFun hW 1) 1
  have r2 := congrFun (congrFun hW' 2) 2
  simp [Matrix.mul_apply, Fin.sum_univ_three, e00, e01, e02, e10, e11, e12] at c0 c1 r2
  have hdet : W.det = W 2 2 := by
    rw [Matrix.det_fin_three]
    simp [e00, e01, e02, e10, e11, e12]
  ext i j
  fin_cases i <;> fin_cases j <;> simp [e00, e01, e02, e10, e11, e12, c0, c1, hdet]

theorem candidate_eq_rotation (U Vt R S : Matx33 ℝ) (w : Fin 3 → ℝ)
    (hU : Uᵀ * U = 1) (hV : Vt * Vtᵀ = 1) (hR : Rᵀ * R = 1) (hdet : R.det = 1)
    (h2 : 0 ≤ w 2) (h10 : w 1 ≤ w 0) (h1 : 0 < w 1)
    (hS : S.PosSemidef) (hH : S * Rᵀ = U * diagonal w * Vt) :
    Vtᵀ * (diagonal ![1, 1, (Vtᵀ * U).det] * Uᵀ) = R := by
  have hw : ∀ i, 0 ≤ w i := by
    intro i; fin_cases i <;> simp <;> linarith
  obtain ⟨-, hD⟩ := conj_eq_diagonal U Vt R S w hU hV hR hw hS hH
  have hU' : U * Uᵀ = 1 := mul_eq_one_comm.mp hU
  have hV' : Vtᵀ * Vt = 1 := mul_eq_one_comm.mp hV
  have hR' : R * Rᵀ = 1 := mul_eq_one_comm.mp hR
  have hWo : (Vt * R * U)ᵀ * (Vt * R * U) = 1 := by
    simp only [Matrix.transpose_mul]
    calc Uᵀ * (Rᵀ * Vtᵀ) * (Vt * R * U) = Uᵀ * (Rᵀ * (Vtᵀ * Vt) * R) * U := by
          simp only [Matrix.mul_assoc]
      _ = 1 := by rw [hV', Matrix.mul_one, hR, Matrix.mul_one, hU]
  have hW := orthogonal_of_two_rows (Vt * R * U) w hWo h1 h10 hD
  have hdW : (Vt * R * U).det = (Vtᵀ * U).det := by
    simp [Matrix.det_mul, hdet, Matrix.det_transpose]
  rw [← hdW, ← hW]
  calc Vtᵀ * (Vt * R * U * Uᵀ) = (Vtᵀ * Vt) * R * (U * Uᵀ) := by simp only [Matrix.mul_assoc]
    _ = R := by rw [hV', hU', Matrix.one_mul, Matrix.mul_one]

theorem MakeIdentity_eq {K : Type} [Field K] (M : Matx44 K) : MakeIdentity M = 1 := by
  ext i j
  have h4 : List.finRange 4 = [0, 1, 2, 3] := by decide
  simp only [MakeIdentity, h4, List.foldl, setEntry, Matrix.of_apply, Matrix.one_apply, Matrix.zero_apply]
  fin_cases i <;> fin_cases j <;> simp

theorem assemble_eq {K : Type} [Field K] (R : Matx33 K) (T : Matx31 K) :
    (List.finRange 3).foldl
        (fun out r =>
          let out := (List.finRange 3).foldl
            (fun out c => setEntry out r.castSucc c.castSucc (R r c)) out
          setEntry out r.castSucc (3 : Fin 4) (T r 0))
        (1 : Matx44 K) = rigidTransform R (fun i => T i 0) := by
  have h3 : List.finRange 3 = [0, 1, 2] := by decide
  ext i j
  have c0 : Fin.castSucc (0 : Fin 3) = (0 : Fin 4) := rfl
  have c1 : Fin.castSucc (1 : Fin 3) = (1 : Fin 4) := rfl
  have c2 : Fin.castSucc (2 : Fin 3) = (2 : Fin 4) := rfl
  simp only [h3, List.foldl, setEntry, Matrix.of_apply, rigidTransform, c0, c1, c2]
  have v3 : ((3 : Fin 4) : ℕ) = 3 := rfl
  fin_cases i <;> fin_cases j <;> simp [Fin.ext_iff, v3]

theorem DoSVD_of_det_pos {K : Type} [LinearOrderedField K]
    (svdOf : Matx33 K → SVD3 K) (sqrt : K → K) (tolerance : K)
    (fixedPoints movingPoints : List (Point3d K)) (H : Matx33 K) (p pPrime : Point3d K)
    (outputMatrix : Matx44 K) (hdet : 0 < (candidateRotation (svdOf H)).det) :
    DoSVDPointBasedRegistration svdOf sqrt tolerance fixedPoints movingPoints H p pPrime
        outputMatrix
      = (rigidTransform (candidateRotation (svdOf H))
            (pPrime.toVec - (candidateRotation (svdOf H)).mulVec p.toVec),
         CalculateFiducialRegistrationError sqrt fixedPoints movingPoints
          (rigidTransform (candidateRotation (svdOf H))
            (pPrime.toVec - (candidateRotation (svdOf H)).mulVec p.toVec))) := by
  have hneg : ¬ (candidateRotation (svdOf H)).det < 0 := not_lt.mpr hdet.le
  unfold candidateRotation at hdet hneg
  have hT : (fun i : Fin 3 => (!![pPrime.x; pPrime.y; pPrime.z]
      - candidateRotation (svdOf H) * !![p.x; p.y; p.z]) i 0)
      = pPrime.toVec - (candidateRotation (svdOf H)).mulVec p.toVec := by
    funext i
    fin_cases i <;>
      simp [Point3d.toVec, Matrix.mul_apply, Matrix.mulVec, Matrix.dotProduct, Fin.sum_univ_three]
  unfold DoSVDPointBasedRegistration
  simp only [diagMatrix_eq, MakeIdentity_eq, hneg, hdet, decide_False, decide_True, Bool.false_and,
    Bool.or_false, if_true, if_false, Bool.false_eq_true, gt_iff_lt]
  rw [assemble_eq, ← hT]
  rfl

theorem sum_map_eq_sum_range {K M : Type} [Zero K] [AddCommMonoid M] (f : Point3d K → M)
    (P : List (Point3d K)) :
    (P.map f).sum = ∑ i in Finset.range P.length, f (pointAt P i) := by
  induction P with
  | nil => simp
  | cons a P ih =>
    rw [List.map_cons, List.sum_cons, List.length_cons, Finset.sum_range_succ', ih, add_comm]
    rfl

theorem pointAt_map {K : Type} [Zero K] (g : Point3d K → Point3d K) (P : List (Point3d K))
    (i : ℕ) (hi : i < P.length) : pointAt (P.map g) i = g (pointAt P i) := by
  unfold pointAt
  rw [List.getD_eq_getElem _ _ (by simpa using hi), List.getD_eq_getElem _ _ hi]
  simp

theorem centroid_foldl {K : Type} [Field K] (P : List (Point3d K)) (c : Point3d K) :
    P.foldl (fun c pt => (⟨c.x + pt.x, c.y + pt.y, c.z + pt.z⟩ : Point3d K)) c
      = ⟨c.x + (P.map Point3d.x).sum, c.y + (P.map Point3d.y).sum, c.z + (P.map Point3d.z).sum⟩ := by
  induction P generalizing c with
  | nil => simp
  | cons a P ih => simp [List.foldl_cons, ih, add_assoc]

theorem CalculateCentroid_eq {K : Type} [Field K] (P : List (Point3d K)) :
    CalculateCentroid P
      = if P.length = 0 then (⟨0, 0, 0⟩ : Point3d K)
        else ⟨(P.map Point3d.x).sum / (P.length : K), (P.map Point3d.y).sum / (P.length : K),
              (P.map Point3d.z).sum / (P.length : K)⟩ := by
  unfold CalculateCentroid
  rw [centroid_foldl]
  cases P with
  | nil => simp
  | cons a P => simp

theorem CalculateCentroid_toVec {K : Type} [Field K] (P : List (Point3d K)) :
    (CalculateCentroid P).toVec
      = (P.length : K)⁻¹ • ∑ i in Finset.range P.length, (pointAt P i).toVec := by
  rw [CalculateCentroid_eq, ← sum_map_eq_sum_range]
  cases P with
  | nil => simp [Point3d.toVec]
  | cons a P =>
    rw [if_neg (by simp)]
    have hx : ∀ (Q : List (Point3d K)) (k : Fin 3), (Q.map Point3d.toVec).sum k
        = ![(Q.map Point3d.x).sum, (Q.map Point3d.y).sum, (Q.map Point3d.z).sum] k := by
      intro Q
      induction Q with
      | nil => intro k; fin_cases k <;> simp
      | cons b Q ih => intro k; fin_cases k <;> simp [ih, Point3d.toVec]
    funext k
    rw [Pi.smul_apply, hx]
    fin_cases k <;> simp [Point3d.toVec, div_eq_inv_mul]

theorem SubtractPointFromPoints_eq {K : Type} [Field K] (P : List (Point3d K)) (c : Point3d K) :
    SubtractPointFromPoints P c
      = P.map (fun tmp => ⟨tmp.x - c.x, tmp.y - c.y, tmp.z - c.z⟩) := by
  unfold SubtractPointFromPoints
  have : ∀ (init : List (Point3d K)),
      P.foldl (fun result tmp => result ++ [(⟨tmp.x - c.x, tmp.y - c.y, tmp.z - c.z⟩ : Point3d K)])
        init = init ++ P.map (fun tmp => ⟨tmp.x - c.x, tmp.y - c.y, tmp.z - c.z⟩) := by
    induction P with
    | nil => simp
    | cons a P ih => intro init; simp [List.foldl_cons, ih]
  simpa using this []

theorem CalculateCrossCovarianceH_eq {K : Type} [Field K] (q qPrime : List (Point3d K)) :
    CalculateCrossCovarianceH q qPrime
      = ∑ i in Finset.range q.length,
          vecMulVec (pointAt q i).toVec (pointAt qPrime i).toVec := by
  unfold CalculateCrossCovarianceH
  simp only [foldl_range_add, zero_add]
  refine Finset.sum_congr rfl fun i _ => ?_
  ext r c
  fin_cases r <;> fin_cases c <;> simp [vecMulVec_apply, Point3d.toVec]

theorem posSemidef_vecMulVec_self (q : Fin 3 → ℝ) : (vecMulVec q q).PosSemidef := by
  have h : vecMulVec q q = (col (Fin 1) q) * (col (Fin 1) q)ᴴ := by
    ext i j
    simp [vecMulVec_apply, Matrix.mul_apply]
  rw [h]
  exact posSemidef_self_mul_conjTranspose _

theorem posSemidef_sum_vecMulVec (q : ℕ → Fin 3 → ℝ) (n : ℕ) :
    (∑ i in Finset.range n, vecMulVec (q i) (q i)).PosSemidef := by
  induction n with
  | zero => simpa using PosSemidef.zero
  | succ n ih =>
    rw [Finset.sum_range_succ]
    exact ih.add (posSemidef_vecMulVec_self _)

theorem vecMulVec_mulVec (R : Matx33 ℝ) (a b : Fin 3 → ℝ) :
    vecMulVec a (R.mulVec b) = vecMulVec a b * Rᵀ := by
  ext i j
  simp [vecMulVec_apply, Matrix.mul_apply, Matrix.mulVec, Matrix.dotProduct, Fin.sum_univ_three]
  ring

theorem conj_vecMulVec_diag (U : Matx33 ℝ) (q : Fin 3 → ℝ) (k : Fin 3) :
    (Uᵀ * vecMulVec q q * U) k k = (Uᵀ.mulVec q k) ^ 2 := by
  simp [vecMulVec_apply, Matrix.mul_apply, Matrix.mulVec, Matrix.dotProduct, Fin.sum_univ_three]
  ring

theorem middle_singular_value_pos (U S : Matx33 ℝ) (w : Fin 3 → ℝ) (q : ℕ → Fin 3 → ℝ) (n : ℕ)
    (hU : Uᵀ * U = 1) (hconj : Uᵀ * S * U = diagonal w)
    (hS : S = ∑ i in Finset.range n, vecMulVec (q i) (q i))
    (h2 : 0 ≤ w 2) (h21 : w 2 ≤ w 1)
    (a b c : ℕ) (ha : a < n) (hb : b < n) (hc : c < n)
    (hne : (q b - q a) ×₃ (q c - q a) ≠ 0) : 0 < w 1 := by
  by_contra hcon
  have hw1 : w 1 = 0 := by linarith
  have hw2 : w 2 = 0 := by linarith
  have hU' : U * Uᵀ = 1 := mul_eq_one_comm.mp hU
  have hsum : ∀ k : Fin 3, ∑ i in Finset.range n, (Uᵀ.mulVec (q i) k) ^ 2 = w k := by
    intro k
    have := congrFun (congrFun hconj k) k
    rw [hS, Matrix.mul_sum, Matrix.sum_mul, Matrix.sum_apply] at this
    simp only [Matrix.diagonal_apply_eq] at this
    rw [← this]
    refine Finset.sum_congr rfl fun i _ => ?_
    rw [← conj_vecMulVec_diag, Matrix.mul_assoc]
  have hzero : ∀ k : Fin 3, w k = 0 → ∀ i, i < n → Uᵀ.mulVec (q i) k = 0 := by
    intro k hk i hi
    have h := hsum k
    rw [hk] at h
    have := (Finset.sum_eq_zero_iff_of_nonneg (fun i _ => sq_nonneg _)).mp h i
      (Finset.mem_range.mpr hi)
    simpa using this
  have hq : ∀ i, i < n → q i = (Uᵀ.mulVec (q i) 0) • U.mulVec ![1, 0, 0] := by
    intro i hi
    have e1 := hzero 1 hw1 i hi
    have e2 := hzero 2 hw2 i hi
    have hg : Uᵀ.mulVec (q i) = (Uᵀ.mulVec (q i) 0) • ![1, 0, 0] := by
      funext k
      fin_cases k <;> simp [e1, e2]
    calc q i = (U * Uᵀ).mulVec (q i) := by rw [hU', Matrix.one_mulVec]
      _ = U.mulVec (Uᵀ.mulVec (q i)) := by rw [Matrix.mulVec_mulVec]
      _ = _ := by rw [hg, Matrix.mulVec_smul]; simp
  apply hne
  rw [hq a ha, hq b hb, hq c hc, ← sub_smul, ← sub_smul]
  simp [cross_self]

theorem applyRigid_toVec {K : Type} [Field K] (R : Matx33 K) (t : Fin 3 → K) (a : Point3d K) :
    (applyRigid R t a).toVec = R.mulVec a.toVec + t := by
  funext k
  fin_cases k <;> rfl

theorem sub_toVec {K : Type} [Field K] (a c : Point3d K) :
    (⟨a.x - c.x, a.y - c.y, a.z - c.z⟩ : Point3d K).toVec = a.toVec - c.toVec := by
  funext k
  fin_cases k <;> rfl

theorem rotationBlock_rigidTransform {K : Type} [Field K] (R : Matx33 K) (t : Fin 3 → K) :
    rotationBlock (rigidTransform R t) = R := by
  ext i j
  fin_cases i <;> fin_cases j <;> rfl

theorem translationColumn_rigidTransform {K : Type} [Field K] (R : Matx33 K) (t : Fin 3 → K) :
    translationColumn (rigidTransform R t) = t := by
  funext i
  fin_cases i <;> rfl

theorem squaredError_rigidTransform {K : Type} [Field K] (R : Matx33 K) (t : Fin 3 → K)
    (f m : Point3d K) :
    squaredError (rigidTransform R t) f m
      = ∑ k : Fin 3, (f.toVec k - (R.mulVec m.toVec + t) k) ^ 2 := by
  simp [squaredError, rigidTransform, Fin.sum_univ_three, Matrix.mulVec, Matrix.dotProduct,
    Point3d.toVec]

theorem mulVec_sum_range {K : Type} [Field K] (R : Matx33 K) (f : ℕ → Fin 3 → K) (n : ℕ) :
    R.mulVec (∑ i in Finset.range n, f i) = ∑ i in Finset.range n, R.mulVec (f i) := by
  induction n with
  | zero => simp
  | succ n ih => rw [Finset.sum_range_succ, Finset.sum_range_succ, Matrix.mulVec_add, ih]

theorem centroid_applyRigid (R : Matx33 ℝ) (t : Fin 3 → ℝ) (P : List (Point3d ℝ))
    (hP : 0 < P.length) :
    (CalculateCentroid (P.map (applyRigid R t))).toVec
      = R.mulVec (CalculateCentroid P).toVec + t := by
  have hn : (P.length : ℝ) ≠ 0 := by exact_mod_cast hP.ne'
  rw [CalculateCentroid_toVec, CalculateCentroid_toVec, List.length_map]
  have : ∑ i in Finset.range P.length, (pointAt (P.map (applyRigid R t)) i).toVec
      = ∑ i in Finset.range P.length, (R.mulVec (pointAt P i).toVec + t) := by
    refine Finset.sum_congr rfl fun i hi => ?_
    rw [pointAt_map _ _ _ (Finset.mem_range.mp hi), applyRigid_toVec]
  rw [this, Finset.sum_add_distrib, Finset.sum_const, Finset.card_range, smul_add,
    Matrix.mulVec_smul, mulVec_sum_range]
  congr 1
  rw [← Nat.cast_smul_eq_nsmul ℝ, smul_smul, inv_mul_cancel₀ hn, one_smul]

theorem pipelineH_applyRigid (R : Matx33 ℝ) (t : Fin 3 → ℝ) (P : List (Point3d ℝ))
    (hP : 0 < P.length) :
    pipelineH (P.map (applyRigid R t)) P
      = (∑ i in Finset.range P.length,
          vecMulVec ((pointAt P i).toVec - (CalculateCentroid P).toVec)
            ((pointAt P i).toVec - (CalculateCentroid P).toVec)) * Rᵀ := by
  unfold pipelineH
  rw [CalculateCrossCovarianceH_eq, SubtractPointFromPoints_eq, SubtractPointFromPoints_eq,
    List.length_map, Finset.sum_mul]
  refine Finset.sum_congr rfl fun i hi => ?_
  have hi' := Finset.mem_range.mp hi
  rw [pointAt_map _ _ _ hi', pointAt_map _ _ _ (by simpa using hi'), pointAt_map _ _ _ hi',
    sub_toVec, sub_toVec, applyRigid_toVec, centroid_applyRigid R t P hP, ← vecMulVec_mulVec,
    Matrix.mulVec_sub]
  abel_nf

theorem exists_index_of_mem {K : Type} [Zero K] (P : List (Point3d K)) (a : Point3d K)
    (h : a ∈ P) : ∃ i, i < P.length ∧ pointAt P i = a := by
  obtain ⟨i, hi, rfl⟩ := List.mem_iff_getElem.mp h
  exact ⟨i, hi, by unfold pointAt; rw [List.getD_eq_getElem _ _ hi]⟩

theorem candidateRotation_det {K : Type} [LinearOrderedField K] (svd : SVD3 K)
    (hU : svd.uᵀ * svd.u = 1) (hV : svd.vt * svd.vtᵀ = 1) :
    (candidateRotation svd).det = 1 := by
  have hu : svd.u.det * svd.u.det = 1 := by
    have := congrArg Matrix.det hU
    simpa [Matrix.det_mul, Matrix.det_transpose] using this
  have hv : svd.vt.det * svd.vt.det = 1 := by
    have := congrArg Matrix.det hV
    simpa [Matrix.det_mul, Matrix.det_transpose] using this
  unfold candidateRotation
  simp only [Matrix.det_mul, Matrix.det_transpose, Matrix.det_diagonal, Fin.prod_univ_three]
  simp
  calc svd.vt.det * (svd.vt.det * svd.u.det * svd.u.det)
      = (svd.vt.det * svd.vt.det) * (svd.u.det * svd.u.det) := by ring
    _ = 1 := by rw [hu, hv, one_mul]

/-- What the registration leaves behind when the fixed set is a rigid motion of the moving set. -/
theorem registration_of_rigid_motion (svdOf : Matx33 ℝ → SVD3 ℝ) (tolerance : ℝ)
    (R : Matx33 ℝ) (T : Fin 3 → ℝ) (P : List (Point3d ℝ)) (outputMatrix : Matx44 ℝ)
    (hR : Rᵀ * R = 1) (hdet : R.det = 1)
    (hP : ∃ a ∈ P, ∃ b ∈ P, ∃ c ∈ P, (b.toVec - a.toVec) ×₃ (c.toVec - a.toVec) ≠ 0)
    (hsvd : IsSVD3 (pipelineH (P.map (applyRigid R T)) P)
      (svdOf (pipelineH (P.map (applyRigid R T)) P))) :
    DoSVDPointBasedRegistration svdOf Real.sqrt tolerance (P.map (applyRigid R T)) P
        (pipelineH (P.map (applyRigid R T)) P) (CalculateCentroid P)
        (CalculateCentroid (P.map (applyRigid R T))) outputMatrix
      = (rigidTransform R T, .ok 0) := by
  obtain ⟨a, ha, b, hb, c, hc, hne⟩ := hP
  have hlen : 0 < P.length := List.length_pos_of_mem ha
  obtain ⟨ia, hia, rfl⟩ := exists_index_of_mem P a ha
  obtain ⟨ib, hib, rfl⟩ := exists_index_of_mem P b hb
  obtain ⟨ic, hic, rfl⟩ := exists_index_of_mem P c hc
  obtain ⟨hH, hU, hV, h2, h21, h10⟩ := hsvd
  set s := svdOf (pipelineH (P.map (applyRigid R T)) P) with hs
  set q : ℕ → Fin 3 → ℝ := fun i => (pointAt P i).toVec - (CalculateCentroid P).toVec with hq
  have hHS := pipelineH_applyRigid R T P hlen
  rw [hH] at hHS
  have hw : ∀ i : Fin 3, 0 ≤ (fun i : Fin 3 => s.w i.val 0) i := by
    intro i; fin_cases i <;> simp <;> linarith
  have hpsd := posSemidef_sum_vecMulVec q P.length
  obtain ⟨hconj, -⟩ := conj_eq_diagonal s.u s.vt R _ _ hU hV hR hw hpsd hHS.symm
  have h1 : 0 < s.w 1 0 :=
    middle_singular_value_pos s.u _ (fun i : Fin 3 => s.w i.val 0) q P.length hU hconj rfl
      h2 h21 ia ib ic hia hib hic (by simpa [hq] using hne)
  have hX : candidateRotation s = R :=
    candidate_eq_rotation s.u s.vt R _ (fun i : Fin 3 => s.w i.val 0) hU hV hR hdet h2 h10 h1
      hpsd hHS.symm
  have hpos : 0 < (candidateRotation s).det := by rw [hX, hdet]; exact one_pos
  rw [DoSVD_of_det_pos svdOf Real.sqrt tolerance _ _ _ _ _ _ hpos, hX,
    centroid_applyRigid R T P hlen]
  have ht : R.mulVec (CalculateCentroid P).toVec + T - R.mulVec (CalculateCentroid P).toVec = T := by
    abel
  rw [ht, fre_eq _ _ _ _ (by simp)]
  have hzero : ∑ i in Finset.range (P.map (applyRigid R T)).length,
      squaredError (rigidTransform R T) (pointAt (P.map (applyRigid R T)) i) (pointAt P i) = 0 := by
    refine Finset.sum_eq_zero fun i hi => ?_
    rw [List.length_map] at hi
    rw [pointAt_map _ _ _ (Finset.mem_range.mp hi), squaredError_rigidTransform, applyRigid_toVec]
    simp
  rw [hzero]
  simp

theorem adjugate_of_orthogonal (Z : Matx33 ℝ) (hZ : Zᵀ * Z = 1) :
    adjugate Z = Z.det • Zᵀ := by
  calc adjugate Z = (Zᵀ * Z) * adjugate Z := by rw [hZ, Matrix.one_mul]
    _ = Zᵀ * (Z * adjugate Z) := by rw [Matrix.mul_assoc]
    _ = Z.det • Zᵀ := by rw [Matrix.mul_adjugate, Matrix.mul_smul, Matrix.mul_one]

theorem orthogonal_entry_le_one (Z : Matx33 ℝ) (hZ : Zᵀ * Z = 1) (i : Fin 3) : Z i i ≤ 1 := by
  have hZ' : Z * Zᵀ = 1 := mul_eq_one_comm.mp hZ
  have h := congrFun (congrFun hZ' i) i
  simp [Matrix.mul_apply, Fin.sum_univ_three] at h
  fin_cases i <;> simp at h ⊢ <;> nlinarith [sq_nonneg (Z 0 0), sq_nonneg (Z 0 1), sq_nonneg (Z 0 2),
    sq_nonneg (Z 1 0), sq_nonneg (Z 1 1), sq_nonneg (Z 1 2), sq_nonneg (Z 2 0), sq_nonneg (Z 2 1),
    sq_nonneg (Z 2 2)]

theorem neg_one_le_orthogonal_entry (Z : Matx33 ℝ) (hZ : Zᵀ * Z = 1) (i : Fin 3) :
    -1 ≤ Z i i := by
  have hZ' : Z * Zᵀ = 1 := mul_eq_one_comm.mp hZ
  have h := congrFun (congrFun hZ' i) i
  simp [Matrix.mul_apply, Fin.sum_univ_three] at h
  fin_cases i <;> simp at h ⊢ <;> nlinarith [sq_nonneg (Z 0 0), sq_nonneg (Z 0 1), sq_nonneg (Z 0 2),
    sq_nonneg (Z 1 0), sq_nonneg (Z 1 1), sq_nonneg (Z 1 2), sq_nonneg (Z 2 0), sq_nonneg (Z 2 1),
    sq_nonneg (Z 2 2)]

theorem trace_le_one_of_det_neg_one (Z : Matx33 ℝ) (hZ : Zᵀ * Z = 1) (hd : Z.det = -1) :
    Z 0 0 + Z 1 1 + Z 2 2 ≤ 1 := by
  have hZ' : Z * Zᵀ = 1 := mul_eq_one_comm.mp hZ
  have hadj := adjugate_of_orthogonal Z hZ
  rw [hd, Matrix.adjugate_fin_three] at hadj
  have a00 := congrFun (congrFun hadj 0) 0
  have a11 := congrFun (congrFun hadj 1) 1
  have a22 := congrFun (congrFun hadj 2) 2
  have r0 := congrFun (congrFun hZ' 0) 0
  have r1 := congrFun (congrFun hZ' 1) 1
  have r2 := congrFun (congrFun hZ' 2) 2
  simp [Matrix.mul_apply, Fin.sum_univ_three] at a00 a11 a22 r0 r1 r2
  have key : 4 * (1 - (Z 0 0 + Z 1 1 + Z 2 2))
      = (1 - (Z 0 0 + Z 1 1 + Z 2 2)) ^ 2 + (Z 0 1 - Z 1 0) ^ 2 + (Z 0 2 - Z 2 0) ^ 2
        + (Z 1 2 - Z 2 1) ^ 2 := by
    linear_combination (-1 : ℝ) * r0 - r1 - r2 - 2 * a00 - 2 * a11 - 2 * a22
  nlinarith [sq_nonneg (1 - (Z 0 0 + Z 1 1 + Z 2 2)), sq_nonneg (Z 0 1 - Z 1 0),
    sq_nonneg (Z 0 2 - Z 2 0), sq_nonneg (Z 1 2 - Z 2 1)]

theorem weighted_trace_le (Z : Matx33 ℝ) (w : Fin 3 → ℝ) (hZ : Zᵀ * Z = 1)
    (hd : Z.det = 1 ∨ Z.det = -1) (h2 : 0 ≤ w 2) (h21 : w 2 ≤ w 1) (h10 : w 1 ≤ w 0) :
    Z 0 0 * w 0 + Z 1 1 * w 1 + Z 2 2 * w 2 ≤ w 0 + w 1 + Z.det * w 2 := by
  have b0 := orthogonal_entry_le_one Z hZ 0
  have b1 := orthogonal_entry_le_one Z hZ 1
  have b2 := orthogonal_entry_le_one Z hZ 2
  have c2 := neg_one_le_orthogonal_entry Z hZ 2
  rcases hd with hd | hd
  · rw [hd]
    nlinarith [mul_nonneg (sub_nonneg.mpr b0) (h2.trans (h21.trans h10)),
      mul_nonneg (sub_nonneg.mpr b1) (h2.trans h21), mul_nonneg (sub_nonneg.mpr b2) h2]
  · have t := trace_le_one_of_det_neg_one Z hZ hd
    rw [hd]
    nlinarith [mul_nonneg (sub_nonneg.mpr b0) (sub_nonneg.mpr h10),
      mul_nonneg (sub_nonneg.mpr b0) (sub_nonneg.mpr h21),
      mul_nonneg (sub_nonneg.mpr b1) (sub_nonneg.mpr h21),
      mul_nonneg (sub_nonneg.mpr t) h2]

theorem trace_candidate_optimal (U Vt R' : Matx33 ℝ) (w : Fin 3 → ℝ)
    (hU : Uᵀ * U = 1) (hV : Vt * Vtᵀ = 1) (hR' : R'ᵀ * R' = 1) (hdet' : R'.det = 1)
    (h2 : 0 ≤ w 2) (h21 : w 2 ≤ w 1) (h10 : w 1 ≤ w 0) :
    trace (R' * (U * diagonal w * Vt))
      ≤ trace (Vtᵀ * (diagonal ![1, 1, (Vtᵀ * U).det] * Uᵀ) * (U * diagonal w * Vt)) := by
  have hU' : U * Uᵀ = 1 := mul_eq_one_comm.mp hU
  have hV' : Vtᵀ * Vt = 1 := mul_eq_one_comm.mp hV
  have hR'' : R' * R'ᵀ = 1 := mul_eq_one_comm.mp hR'
  have hZo : (Vt * R' * U)ᵀ * (Vt * R' * U) = 1 := by
    simp only [Matrix.transpose_mul]
    calc Uᵀ * (R'ᵀ * Vtᵀ) * (Vt * R' * U) = Uᵀ * (R'ᵀ * (Vtᵀ * Vt) * R') * U := by
          simp only [Matrix.mul_assoc]
      _ = 1 := by rw [hV', Matrix.mul_one, hR', Matrix.mul_one, hU]
  have hdZ : (Vt * R' * U).det = (Vtᵀ * U).det := by
    simp [Matrix.det_mul, hdet', Matrix.det_transpose]
  have hu : U.det * U.det = 1 := by
    have := congrArg Matrix.det hU
    simpa [Matrix.det_mul, Matrix.det_transpose] using this
  have hv : Vt.det * Vt.det = 1 := by
    have := congrArg Matrix.det hV
    simpa [Matrix.det_mul, Matrix.det_transpose] using this
  have hd : (Vt * R' * U).det = 1 ∨ (Vt * R' * U).det = -1 := by
    have hsq : (Vt * R' * U).det * (Vt * R' * U).det = 1 := by
      rw [hdZ]
      simp only [Matrix.det_mul, Matrix.det_transpose]
      calc Vt.det * U.det * (Vt.det * U.det) = (Vt.det * Vt.det) * (U.det * U.det) := by ring
        _ = 1 := by rw [hu, hv, one_mul]
    exact mul_self_eq_one_iff.mp hsq
  have hL : trace (R' * (U * diagonal w * Vt))
      = (Vt * R' * U) 0 0 * w 0 + (Vt * R' * U) 1 1 * w 1 + (Vt * R' * U) 2 2 * w 2 := by
    calc trace (R' * (U * diagonal w * Vt)) = trace ((R' * U * diagonal w) * Vt) := by
          simp only [Matrix.mul_assoc]
      _ = trace (Vt * (R' * U * diagonal w)) := Matrix.trace_mul_comm _ _
      _ = trace ((Vt * R' * U) * diagonal w) := by simp only [Matrix.mul_assoc]
      _ = _ := by simp [Matrix.trace, Fin.sum_univ_three, Matrix.mul_diagonal]
  have hRhs : trace (Vtᵀ * (diagonal ![1, 1, (Vtᵀ * U).det] * Uᵀ) * (U * diagonal w * Vt))
      = w 0 + w 1 + (Vtᵀ * U).det * w 2 := by
    calc trace (Vtᵀ * (diagonal ![1, 1, (Vtᵀ * U).det] * Uᵀ) * (U * diagonal w * Vt))
        = trace (Vtᵀ * (diagonal ![1, 1, (Vtᵀ * U).det] * (Uᵀ * U) * diagonal w * Vt)) := by
          simp only [Matrix.mul_assoc]
      _ = trace ((diagonal ![1, 1, (Vtᵀ * U).det] * diagonal w * Vt) * Vtᵀ) := by
          rw [hU, Matrix.mul_one, Matrix.trace_mul_comm]
      _ = trace (diagonal ![1, 1, (Vtᵀ * U).det] * diagonal w) := by
          rw [Matrix.mul_assoc, hV, Matrix.mul_one]
      _ = _ := by simp [Matrix.trace, Fin.sum_univ_three, Matrix.mul_diagonal]
  rw [hL, hRhs, ← hdZ]
  exact weighted_trace_le _ w hZo hd h2 h21 h10

theorem dotProduct_mulVec_self (R : Matx33 ℝ) (hR : Rᵀ * R = 1) (q : Fin 3 → ℝ) :
    (R.mulVec q) ⬝ᵥ (R.mulVec q) = q ⬝ᵥ q := by
  calc (R.mulVec q) ⬝ᵥ (R.mulVec q) = (Matrix.vecMul q Rᵀ) ⬝ᵥ (R.mulVec q) := by
        rw [Matrix.vecMul_transpose]
    _ = q ⬝ᵥ (Rᵀ.mulVec (R.mulVec q)) := (Matrix.dotProduct_mulVec _ _ _).symm
    _ = q ⬝ᵥ q := by rw [Matrix.mulVec_mulVec, hR, Matrix.one_mulVec]

theorem trace_mul_vecMulVec (R : Matx33 ℝ) (q q' : Fin 3 → ℝ) :
    trace (R * vecMulVec q q') = q' ⬝ᵥ R.mulVec q := by
  simp [Matrix.trace, Matrix.mul_apply, vecMulVec_apply, Matrix.dotProduct, Matrix.mulVec,
    Fin.sum_univ_three]
  ring

theorem sum_range_dotProduct (g : ℕ → Fin 3 → ℝ) (c : Fin 3 → ℝ) (n : ℕ) :
    ∑ i in Finset.range n, g i ⬝ᵥ c = (∑ i in Finset.range n, g i) ⬝ᵥ c := by
  induction n with
  | zero => simp
  | succ n ih => rw [Finset.sum_range_succ, Finset.sum_range_succ, Matrix.add_dotProduct, ih]

theorem sum_sub_mean (g : ℕ → Fin 3 → ℝ) (n : ℕ) (hn : 0 < n) :
    ∑ i in Finset.range n, (g i - (n : ℝ)⁻¹ • ∑ j in Finset.range n, g j) = 0 := by
  have hn' : (n : ℝ) ≠ 0 := by exact_mod_cast hn.ne'
  rw [Finset.sum_sub_distrib, Finset.sum_const, Finset.card_range, ← Nat.cast_smul_eq_nsmul ℝ,
    smul_smul, mul_inv_cancel₀ hn', one_smul, sub_self]

/-- The sum of squared residuals of a rigid transform, split at the centroids. -/
theorem sum_residual_eq (f m : ℕ → Fin 3 → ℝ) (n : ℕ) (hn : 0 < n) (R : Matx33 ℝ)
    (T : Fin 3 → ℝ) (hR : Rᵀ * R = 1) :
    let p := (n : ℝ)⁻¹ • ∑ j in Finset.range n, m j
    let p' := (n : ℝ)⁻¹ • ∑ j in Finset.range n, f j
    ∑ i in Finset.range n, (f i - (R.mulVec (m i) + T)) ⬝ᵥ (f i - (R.mulVec (m i) + T))
      = (∑ i in Finset.range n, ((f i - p') ⬝ᵥ (f i - p') + (m i - p) ⬝ᵥ (m i - p)))
        - 2 * trace (R * ∑ i in Finset.range n, vecMulVec (m i - p) (f i - p'))
        + n * ((p' - R.mulVec p - T) ⬝ᵥ (p' - R.mulVec p - T)) := by
  intro p p'
  have hq : ∑ i in Finset.range n, (m i - p) = 0 := sum_sub_mean m n hn
  have hq' : ∑ i in Finset.range n, (f i - p') = 0 := sum_sub_mean f n hn
  have ha : ∑ i in Finset.range n, ((f i - p') - R.mulVec (m i - p)) = 0 := by
    rw [Finset.sum_sub_distrib, hq', ← mulVec_sum_range, hq, Matrix.mulVec_zero, sub_zero]
  have hterm : ∀ i, (f i - (R.mulVec (m i) + T)) ⬝ᵥ (f i - (R.mulVec (m i) + T))
      = ((f i - p') ⬝ᵥ (f i - p') + (m i - p) ⬝ᵥ (m i - p))
        - 2 * trace (R * vecMulVec (m i - p) (f i - p'))
        + 2 * (((f i - p') - R.mulVec (m i - p)) ⬝ᵥ (p' - R.mulVec p - T))
        + (p' - R.mulVec p - T) ⬝ᵥ (p' - R.mulVec p - T) := by
    intro i
    have e : f i - (R.mulVec (m i) + T)
        = ((f i - p') - R.mulVec (m i - p)) + (p' - R.mulVec p - T) := by
      rw [Matrix.mulVec_sub]; abel
    rw [e, trace_mul_vecMulVec, ← dotProduct_mulVec_self R hR (m i - p)]
    simp only [Matrix.add_dotProduct, Matrix.dotProduct_add, Matrix.sub_dotProduct,
      Matrix.dotProduct_sub]
    have c1 := Matrix.dotProduct_comm (R.mulVec (m i - p)) (f i - p')
    have c2 := Matrix.dotProduct_comm (p' - R.mulVec p - T) (f i - p')
    have c3 := Matrix.dotProduct_comm (p' - R.mulVec p - T) (R.mulVec (m i - p))
    simp only [Matrix.sub_dotProduct, Matrix.dotProduct_sub] at c1 c2 c3 ⊢
    linarith
  simp only [hterm]
  rw [Finset.sum_add_distrib, Finset.sum_add_distrib, Finset.sum_sub_distrib, Finset.sum_const,
    Finset.card_range, ← Finset.mul_sum, ← Finset.mul_sum, sum_range_dotProduct, ha,
    Matrix.zero_dotProduct, Matrix.mul_sum, Matrix.trace_sum]
  simp

theorem pipelineH_eq {K : Type} [Field K] (fixed moving : List (Point3d K))
    (hlen : fixed.length = moving.length) :
    pipelineH fixed moving
      = ∑ i in Finset.range moving.length,
          vecMulVec ((pointAt moving i).toVec - (CalculateCentroid moving).toVec)
            ((pointAt fixed i).toVec - (CalculateCentroid fixed).toVec) := by
  unfold pipelineH
  rw [CalculateCrossCovarianceH_eq, SubtractPointFromPoints_eq, SubtractPointFromPoints_eq,
    List.length_map]
  refine Finset.sum_congr rfl fun i hi => ?_
  have hi' := Finset.mem_range.mp hi
  rw [pointAt_map _ _ _ hi', pointAt_map _ _ _ (hlen ▸ hi'), sub_toVec, sub_toVec]

theorem squaredError_eq_dotProduct {K : Type} [Field K] (M : Matx44 K) (f m : Point3d K) :
    squaredError M f m
      = (f.toVec - ((rotationBlock M).mulVec m.toVec + translationColumn M))
          ⬝ᵥ (f.toVec - ((rotationBlock M).mulVec m.toVec + translationColumn M)) := by
  have c0 : Fin.castSucc (0 : Fin 3) = (0 : Fin 4) := rfl
  have c1 : Fin.castSucc (1 : Fin 3) = (1 : Fin 4) := rfl
  have c2 : Fin.castSucc (2 : Fin 3) = (2 : Fin 4) := rfl
  simp only [squaredError, rotationBlock, translationColumn, Fin.sum_univ_three, Matrix.mulVec,
    Matrix.dotProduct, Point3d.toVec, c0, c1, c2, Pi.sub_apply, Pi.add_apply, Matrix.of_apply,
    Matrix.cons_val_zero, Matrix.cons_val_one, Matrix.head_cons, Matrix.cons_val_two,
    Matrix.tail_cons]
  ring

theorem candidateRotation_orthogonal {K : Type} [LinearOrderedField K] (svd : SVD3 K)
    (hU : svd.uᵀ * svd.u = 1) (hV : svd.vt * svd.vtᵀ = 1) :
    (candidateRotation svd)ᵀ * candidateRotation svd = 1 := by
  have hU' : svd.u * svd.uᵀ = 1 := mul_eq_one_comm.mp hU
  have hu : svd.u.det * svd.u.det = 1 := by
    have := congrArg Matrix.det hU
    simpa [Matrix.det_mul, Matrix.det_transpose] using this
  have hv : svd.vt.det * svd.vt.det = 1 := by
    have := congrArg Matrix.det hV
    simpa [Matrix.det_mul, Matrix.det_transpose] using this
  have hd : (svd.vtᵀ * svd.u).det * (svd.vtᵀ * svd.u).det = 1 := by
    simp only [Matrix.det_mul, Matrix.det_transpose]
    calc svd.vt.det * svd.u.det * (svd.vt.det * svd.u.det)
        = (svd.vt.det * svd.vt.det) * (svd.u.det * svd.u.det) := by ring
      _ = 1 := by rw [hu, hv, one_mul]
  have hD : (diagonal ![1, 1, (svd.vtᵀ * svd.u).det] : Matx33 K)
      * diagonal ![1, 1, (svd.vtᵀ * svd.u).det] = 1 := by
    have hd' : svd.vt.det * svd.u.det * (svd.vt.det * svd.u.det) = 1 := by
      simpa only [Matrix.det_mul, Matrix.det_transpose] using hd
    rw [Matrix.diagonal_mul_diagonal]
    ext i j
    fin_cases i <;> fin_cases j <;> simp [Matrix.diagonal_apply, hd']
  unfold candidateRotation
  simp only [Matrix.transpose_mul, Matrix.transpose_transpose, Matrix.diagonal_transpose]
  calc svd.u * diagonal ![1, 1, (svd.vtᵀ * svd.u).det] * svd.vt
        * (svd.vtᵀ * (diagonal ![1, 1, (svd.vtᵀ * svd.u).det] * svd.uᵀ))
      = svd.u * (diagonal ![1, 1, (svd.vtᵀ * svd.u).det] * (svd.vt * svd.vtᵀ)
          * diagonal ![1, 1, (svd.vtᵀ * svd.u).det]) * svd.uᵀ := by
        simp only [Matrix.mul_assoc]
    _ = 1 := by rw [hV, Matrix.mul_one, hD, Matrix.mul_one, hU']

/-- The sum of squared residuals of the registration output is minimal among rigid
transforms. -/
theorem sum_squaredError_minimal (svd : SVD3 ℝ) (fixed moving : List (Point3d ℝ))
    (hlen : fixed.length = moving.length) (hpos : 0 < moving.length)
    (hsvd : IsSVD3 (pipelineH fixed moving) svd)
    (M' : Matx44 ℝ) (hR' : (rotationBlock M')ᵀ * rotationBlock M' = 1)
    (hdet' : (rotationBlock M').det = 1) :
    ∑ i in Finset.range moving.length,
        squaredError (rigidTransform (candidateRotation svd)
          ((CalculateCentroid fixed).toVec
            - (candidateRotation svd).mulVec (CalculateCentroid moving).toVec))
          (pointAt fixed i) (pointAt moving i)
      ≤ ∑ i in Finset.range moving.length, squaredError M' (pointAt fixed i) (pointAt moving i) := by
  obtain ⟨hH, hU, hV, h2, h21, h10⟩ := hsvd
  have hX := candidateRotation_orthogonal svd hU hV
  simp only [squaredError_eq_dotProduct, rotationBlock_rigidTransform,
    translationColumn_rigidTransform]
  have e1 := sum_residual_eq (fun i => (pointAt fixed i).toVec) (fun i => (pointAt moving i).toVec)
    moving.length hpos (candidateRotation svd)
    ((CalculateCentroid fixed).toVec
      - (candidateRotation svd).mulVec (CalculateCentroid moving).toVec) hX
  have e2 := sum_residual_eq (fun i => (pointAt fixed i).toVec) (fun i => (pointAt moving i).toVec)
    moving.length hpos (rotationBlock M') (translationColumn M') hR'
  simp only at e1 e2
  have cm := CalculateCentroid_toVec moving
  have cf := CalculateCentroid_toVec fixed
  rw [hlen] at cf
  rw [← cm, ← cf, ← pipelineH_eq fixed moving hlen] at e1 e2
  rw [e1, e2, sub_self]
  have htr := trace_candidate_optimal svd.u svd.vt (rotationBlock M')
    (fun i : Fin 3 => svd.w i.val 0) hU hV hR' hdet' h2 h21 h10
  rw [← hH] at htr
  have hnn : 0 ≤ (moving.length : ℝ)
      * (((CalculateCentroid fixed).toVec
          - (rotationBlock M').mulVec (CalculateCentroid moving).toVec - translationColumn M')
        ⬝ᵥ ((CalculateCentroid fixed).toVec
          - (rotationBlock M').mulVec (CalculateCentroid moving).toVec - translationColumn M')) := by
    apply mul_nonneg (Nat.cast_nonneg _)
    simp only [Matrix.dotProduct]
    exact Finset.sum_nonneg fun i _ => mul_self_nonneg _
  simp only [Matrix.zero_dotProduct, mul_zero, add_zero]
  change _ ≤ _ at htr
  unfold candidateRotation
  linarith

theorem rotZ90_orthogonal {K : Type} [Field K] : (rotZ90 : Matx33 K)ᵀ * rotZ90 = 1 := by
  ext i j
  simp only [Matrix.mul_apply, Fin.sum_univ_three, Matrix.transpose_apply]
  fin_cases i <;> fin_cases j <;> simp [rotZ90, Matrix.vecHead, Matrix.vecTail]

theorem rotZ90_det {K : Type} [Field K] : (rotZ90 : Matx33 K).det = 1 := by
  simp [rotZ90, Matrix.det_fin_three]

theorem scenarioE_mul_self (s : ℝ) (hs : s * s = 3) : scenarioE s * scenarioE s = 1 := by
  ext i j
  simp only [Matrix.mul_apply, Fin.sum_univ_three]
  fin_cases i <;> fin_cases j <;> simp [scenarioE, Matrix.vecHead, Matrix.vecTail] <;>
    linarith

theorem scenarioE_transpose (s : ℝ) : (scenarioE s)ᵀ = scenarioE s := by
  ext i j
  fin_cases i <;> fin_cases j <;> simp [scenarioE, Matrix.transpose_apply]

theorem scenarioFixed_eq :
    (scenarioFixed : List (Point3d ℝ))
      = scenarioMoving.map (applyRigid rotZ90ᵀ ![0, 2, 0]) := by
  simp [scenarioMoving, scenarioFixed, applyRigid, rotZ90, Point3d.toVec, Matrix.mulVec,
    Matrix.dotProduct, Fin.sum_univ_three, Matrix.vecHead, Matrix.vecTail]

theorem scenario_pipelineH :
    pipelineH (scenarioFixed : List (Point3d ℝ)) scenarioMoving
      = !![1 / 4, -3 / 4, 1 / 4; 3 / 4, -1 / 4, -1 / 4; -1 / 4, -1 / 4, 3 / 4] := by
  rw [pipelineH_eq _ _ (by simp [scenarioMoving])]
  have hm : (CalculateCentroid (scenarioMoving : List (Point3d ℝ))).toVec
      = ![7 / 4, 1 / 4, 1 / 4] := by
    funext k
    fin_cases k <;>
      (simp [CalculateCentroid, scenarioMoving, scenarioFixed, applyRigid, rotZ90, Point3d.toVec,
        Matrix.mulVec, Matrix.dotProduct, Fin.sum_univ_three, Matrix.vecHead, Matrix.vecTail]
       try norm_num)
  have hf : (CalculateCentroid (scenarioFixed : List (Point3d ℝ))).toVec
      = ![1 / 4, 1 / 4, 1 / 4] := by
    funext k
    fin_cases k <;> simp [CalculateCentroid, scenarioFixed, Point3d.toVec]
  rw [hm, hf]
  ext i j
  fin_cases i <;> fin_cases j <;>
    simp [scenarioMoving, scenarioFixed, applyRigid, rotZ90, pointAt, Finset.sum_range_succ,
      vecMulVec_apply, Point3d.toVec, Matrix.mulVec, Matrix.dotProduct, Fin.sum_univ_three,
      Matrix.vecHead, Matrix.vecTail] <;> norm_num

theorem scenarioSVD_isSVD3 (s : ℝ) (hs : s * s = 3) :
    IsSVD3 (pipelineH (scenarioFixed : List (Point3d ℝ)) scenarioMoving) (scenarioSVD s) := by
  have hE := scenarioE_mul_self s hs
  have hEt := scenarioE_transpose s
  have hRz : (rotZ90 : Matx33 ℝ) * rotZ90ᵀ = 1 := mul_eq_one_comm.mp rotZ90_orthogonal
  refine ⟨?_, ?_, ?_, ?_, ?_, ?_⟩
  · rw [scenario_pipelineH]
    simp only [scenarioSVD, hEt]
    ext i j
    simp only [Matrix.mul_apply, Fin.sum_univ_three, Matrix.diagonal_apply]
    fin_cases i <;> fin_cases j <;>
      simp [scenarioE, rotZ90, Matrix.vecHead, Matrix.vecTail] <;> linarith
  · simp only [scenarioSVD, Matrix.transpose_mul, hEt]
    calc scenarioE s * rotZ90ᵀ * (rotZ90 * scenarioE s)
        = scenarioE s * (rotZ90ᵀ * rotZ90) * scenarioE s := by simp only [Matrix.mul_assoc]
      _ = 1 := by rw [rotZ90_orthogonal, Matrix.mul_one, hE]
  · simp only [scenarioSVD, hEt, hE]
  · norm_num [scenarioSVD]
  · norm_num [scenarioSVD]
  · norm_num [scenarioSVD]

theorem scenarioMoving_not_collinear :
    ∃ a ∈ (scenarioMoving : List (Point3d ℝ)), ∃ b ∈ (scenarioMoving : List (Point3d ℝ)),
      ∃ c ∈ (scenarioMoving : List (Point3d ℝ)),
        (b.toVec - a.toVec) ×₃ (c.toVec - a.toVec) ≠ 0 := by
  refine ⟨applyRigid rotZ90 ![2, 0, 0] ⟨0, 0, 0⟩, by simp [scenarioMoving, scenarioFixed],
    applyRigid rotZ90 ![2, 0, 0] ⟨1, 0, 0⟩, by simp [scenarioMoving, scenarioFixed],
    applyRigid rotZ90 ![2, 0, 0] ⟨0, 1, 0⟩, by simp [scenarioMoving, scenarioFixed], ?_⟩
  intro h
  have := congrFun h 2
  simp [cross_apply, Point3d.toVec, applyRigid, rotZ90, Matrix.mulVec, Matrix.dotProduct,
    Fin.sum_univ_three, Matrix.vecHead, Matrix.vecTail] at this

/-- What the registration leaves behind in the concrete scenario. -/
theorem scenario_registration (svdOf : Matx33 ℝ → SVD3 ℝ) (tolerance : ℝ)
    (outputMatrix : Matx44 ℝ)
    (hsvd : IsSVD3 (pipelineH (scenarioFixed : List (Point3d ℝ)) scenarioMoving)
      (svdOf (pipelineH scenarioFixed scenarioMoving))) :
    DoSVDPointBasedRegistration svdOf Real.sqrt tolerance scenarioFixed scenarioMoving
        (pipelineH scenarioFixed scenarioMoving) (CalculateCentroid scenarioMoving)
        (CalculateCentroid scenarioFixed) outputMatrix
      = (rigidTransform rotZ90ᵀ ![0, 2, 0], .ok 0) := by
  have hR : ((rotZ90 : Matx33 ℝ)ᵀ)ᵀ * rotZ90ᵀ = 1 := by
    rw [Matrix.transpose_transpose]; exact mul_eq_one_comm.mp rotZ90_orthogonal
  have hdet : ((rotZ90 : Matx33 ℝ)ᵀ).det = 1 := by rw [Matrix.det_transpose, rotZ90_det]
  have h := registration_of_rigid_motion svdOf tolerance rotZ90ᵀ ![0, 2, 0] scenarioMoving
    outputMatrix hR hdet scenarioMoving_not_collinear
  rw [← scenarioFixed_eq] at h
  exact h hsvd

theorem eq_pivotRow_iff {N : ℕ} (row : Fin (3 * N)) (i : Fin N) (r : Fin 3) :
    row = pivotRow i r ↔ row.val / 3 = i.val ∧ row.val % 3 = r.val := by
  have := r.isLt
  constructor
  · rintro rfl
    simp only [pivotRow]
    omega
  · rintro ⟨h1, h2⟩
    apply Fin.ext
    simp only [pivotRow]
    omega

theorem fillPose_fst {K : Type} [Field K] {N : ℕ} (M : Matx44 K) (i : Fin N)
    (ab : Matrix (Fin (3 * N)) (Fin 6) K × Matrix (Fin (3 * N)) (Fin 1) K)
    (row : Fin (3 * N)) (c : Fin 6) :
    (fillPose M i ab).1 row c
      = if row.val / 3 = i.val then pivotBlock M ⟨row.val % 3, Nat.mod_lt _ (by decide)⟩ c
        else ab.1 row c := by
  simp only [fillPose, setEntry, Matrix.of_apply, eq_pivotRow_iff]
  by_cases h : row.val / 3 = i.val
  · simp only [h, true_and, if_true]
    have hr : row.val % 3 < 3 := Nat.mod_lt _ (by decide)
    have hcases : row.val % 3 = 0 ∨ row.val % 3 = 1 ∨ row.val % 3 = 2 := by omega
    rcases hcases with h0 | h0 | h0 <;>
      fin_cases c <;> simp [h0, pivotBlock] <;> rfl
  · simp [h]

theorem fillPose_snd {K : Type} [Field K] {N : ℕ} (M : Matx44 K) (i : Fin N)
    (ab : Matrix (Fin (3 * N)) (Fin 6) K × Matrix (Fin (3 * N)) (Fin 1) K)
    (row : Fin (3 * N)) (c : Fin 1) :
    (fillPose M i ab).2 row c
      = if row.val / 3 = i.val then pivotRhs M ⟨row.val % 3, Nat.mod_lt _ (by decide)⟩ c
        else ab.2 row c := by
  simp only [fillPose, setEntry, Matrix.of_apply, eq_pivotRow_iff]
  by_cases h : row.val / 3 = i.val
  · simp only [h, true_and, if_true]
    have hr : row.val % 3 < 3 := Nat.mod_lt _ (by decide)
    have hcases : row.val % 3 = 0 ∨ row.val % 3 = 1 ∨ row.val % 3 = 2 := by omega
    rcases hcases with h0 | h0 | h0 <;>
      fin_cases c <;> simp [h0, pivotRhs]
  · simp [h]

theorem foldl_fillPose {K : Type} [Field K] (matrices : List (Matx44 K))
    (l : List (Fin matrices.length))
    (ab : Matrix (Fin (3 * matrices.length)) (Fin 6) K
      × Matrix (Fin (3 * matrices.length)) (Fin 1) K)
    (row : Fin (3 * matrices.length)) :
    (∀ c, (l.foldl (fun ab i => fillPose (matrices.get i) i ab) ab).1 row c
      = if ∃ i ∈ l, row.val / 3 = i.val then pivotA matrices row c else ab.1 row c)
    ∧ (∀ c, (l.foldl (fun ab i => fillPose (matrices.get i) i ab) ab).2 row c
      = if ∃ i ∈ l, row.val / 3 = i.val then pivotB matrices row c else ab.2 row c) := by
  induction l generalizing ab with
  | nil => simp
  | cons i l ih =>
    rw [List.foldl_cons]
    have hget : matrices.getD i.val 0 = matrices.get i := by
      rw [List.getD_eq_getElem _ _ i.isLt]; rfl
    constructor
    · intro c
      rw [(ih _).1 c, fillPose_fst]
      by_cases h1 : ∃ j ∈ l, row.val / 3 = j.val
      · have : ∃ j ∈ i :: l, row.val / 3 = j.val := by
          obtain ⟨j, hj, e⟩ := h1; exact ⟨j, List.mem_cons_of_mem _ hj, e⟩
        rw [if_pos h1, if_pos this]
      · rw [if_neg h1]
        by_cases h2 : row.val / 3 = i.val
        · have : ∃ j ∈ i :: l, row.val / 3 = j.val := ⟨i, List.mem_cons_self _ _, h2⟩
          rw [if_pos h2, if_pos this]
          simp only [pivotA, Matrix.of_apply, h2, hget]
        · have : ¬ ∃ j ∈ i :: l, row.val / 3 = j.val := by
            rintro ⟨j, hj, e⟩
            rcases List.mem_cons.mp hj with rfl | hj
            · exact h2 e
            · exact h1 ⟨j, hj, e⟩
          rw [if_neg h2, if_neg this]
    · intro c
      rw [(ih _).2 c, fillPose_snd]
      by_cases h1 : ∃ j ∈ l, row.val / 3 = j.val
      · have : ∃ j ∈ i :: l, row.val / 3 = j.val := by
          obtain ⟨j, hj, e⟩ := h1; exact ⟨j, List.mem_cons_of_mem _ hj, e⟩
        rw [if_pos h1, if_pos this]
      · rw [if_neg h1]
        by_cases h2 : row.val / 3 = i.val
        · have : ∃ j ∈ i :: l, row.val / 3 = j.val := ⟨i, List.mem_cons_self _ _, h2⟩
          rw [if_pos h2, if_pos this]
          simp only [pivotB, Matrix.of_apply, h2, hget]
        · have : ¬ ∃ j ∈ i :: l, row.val / 3 = j.val := by
            rintro ⟨j, hj, e⟩
            rcases List.mem_cons.mp hj with rfl | hj
            · exact h2 e
            · exact h1 ⟨j, hj, e⟩
          rw [if_neg h2, if_neg this]

theorem pivotSystem_eq {K : Type} [Field K] (junk : ℕ → ℕ → K) (matrices : List (Matx44 K)) :
    pivotSystem junk matrices = (pivotA matrices, pivotB matrices) := by
  have hex : ∀ row : Fin (3 * matrices.length),
      ∃ i ∈ List.finRange matrices.length, row.val / 3 = i.val := by
    intro row
    have h : row.val / 3 < matrices.length := by
      have := row.isLt
      omega
    exact ⟨⟨row.val / 3, h⟩, List.mem_finRange _, rfl⟩
  unfold pivotSystem fillMatrices
  apply Prod.ext
  · ext row c
    rw [(foldl_fillPose matrices _ _ row).1 c, if_pos (hex row)]
  · ext row c
    rw [(foldl_fillPose matrices _ _ row).2 c, if_pos (hex row)]

theorem rankThreshold_pos {K : Type} [LinearOrderedField K] : (0 : K) < rankThreshold := by
  unfold rankThreshold; norm_num

theorem foldl_threshold {K : Type} [LinearOrderedField K] {rows : ℕ} (l : List (Fin rows))
    (hl : l.Nodup) (w : Fin rows → K) (rank : ℕ) :
    l.foldl
        (fun (wr : (Fin rows → K) × ℕ) i =>
          let w := wr.1
          let rank := wr.2
          let w := if w i < rankThreshold then Function.update w i 0 else w
          let rank := if w i ≠ 0 then rank + 1 else rank
          (w, rank))
        (w, rank)
      = (fun i => if i ∈ l ∧ w i < rankThreshold then 0 else w i,
         rank + l.countP (fun i => decide (rankThreshold ≤ w i))) := by
  induction l generalizing w rank with
  | nil => simp
  | cons i l ih =>
    rw [List.foldl_cons]
    obtain ⟨hi, hl'⟩ := List.nodup_cons.mp hl
    simp only
    rw [ih hl']
    have hpos : (0 : K) < rankThreshold := rankThreshold_pos
    by_cases h : w i < rankThreshold
    · have hnot : ¬ rankThreshold ≤ w i := not_le.mpr h
      simp only [if_pos h, Function.update_same, ne_eq, not_true_eq_false, if_false]
      apply Prod.ext
      · funext j
        simp only
        by_cases hj : j = i
        · subst hj
          simp [hi, h, hpos]
        · simp [Function.update_noteq hj, hj]
      · simp only [List.countP_cons, hnot, decide_False, Bool.false_eq_true, if_false, add_zero]
        congr 1
        apply List.countP_congr
        intro j hjl
        have hj : j ≠ i := fun e => hi (e ▸ hjl)
        simp [Function.update_noteq hj]
    · have hle : rankThreshold ≤ w i := not_lt.mp h
      have hne : w i ≠ 0 := (hpos.trans_le hle).ne'
      simp only [if_neg h, ne_eq, hne, not_false_eq_true, if_true]
      apply Prod.ext
      · funext j
        simp only
        by_cases hj : j = i
        · subst hj
          simp [h]
        · simp [hj]
      · simp only [List.countP_cons, hle, decide_True, if_true]
        omega

theorem countP_finRange {rows : ℕ} (p : Fin rows → Prop) [DecidablePred p] :
    (List.finRange rows).countP (fun i => decide (p i)) = (Finset.univ.filter p).card := by
  rw [List.countP_eq_length_filter]
  have : (Finset.univ.filter p) = ⟨↑((List.finRange rows).filter fun i => decide (p i)),
      (List.nodup_finRange rows).filter _⟩ := by
    ext i
    simp
  rw [this]
  simp

theorem survivingCount_eq {K : Type} [LinearOrderedField K] {rows : ℕ} (w : Fin rows → K) :
    survivingCount w = (Finset.univ.filter fun i => rankThreshold ≤ w i).card := by
  unfold survivingCount
  congr 1
  ext i
  simp only [Finset.mem_filter, Finset.mem_univ, true_and]
  have hpos : (0 : K) < rankThreshold := rankThreshold_pos
  by_cases h : w i < rankThreshold
  · simp [h]
  · have hle := not_lt.mp h
    simp [h, hle, (hpos.trans_le hle).ne']

theorem thresholdSingularValues_eq {K : Type} [LinearOrderedField K] {rows : ℕ}
    (w : Fin rows → K) :
    thresholdSingularValues w
      = (fun i => if w i < rankThreshold then 0 else w i, survivingCount w) := by
  unfold thresholdSingularValues
  rw [foldl_threshold _ (List.nodup_finRange rows), survivingCount_eq, ← countP_finRange]
  simp

theorem survivingCount_le_rank {K : Type} [LinearOrderedField K] {m n : ℕ}
    (a : Matrix (Fin m) (Fin n) K) (svd : SVD K m n) (h : IsSVD a svd) :
    survivingCount svd.w ≤ a.rank := by
  obtain ⟨-, ha, hU, hV, -, -⟩ := h
  have hpos : (0 : K) < rankThreshold := rankThreshold_pos
  have h1 : survivingCount svd.w ≤ (Finset.univ.filter fun i => svd.w i ≠ 0).card := by
    rw [survivingCount_eq]
    apply Finset.card_le_card
    intro i hi
    simp only [Finset.mem_filter, Finset.mem_univ, true_and] at hi ⊢
    exact (hpos.trans_le hi).ne'
  have h2 : (Finset.univ.filter fun i => svd.w i ≠ 0).card = (diagonal svd.w).rank := by
    rw [Matrix.rank_diagonal, Fintype.card_subtype]
  have h3 : diagonal svd.w = svd.uᵀ * a * svd.vtᵀ := by
    rw [ha]
    calc diagonal svd.w = (svd.uᵀ * svd.u) * diagonal svd.w * (svd.vt * svd.vtᵀ) := by
          rw [hU, hV, Matrix.one_mul, Matrix.mul_one]
      _ = svd.uᵀ * (svd.u * diagonal svd.w * svd.vt) * svd.vtᵀ := by
          simp only [Matrix.mul_assoc]
  calc survivingCount svd.w ≤ (diagonal svd.w).rank := h2 ▸ h1
    _ = (svd.uᵀ * a * svd.vtᵀ).rank := by rw [h3]
    _ ≤ (svd.uᵀ * a).rank := Matrix.rank_mul_le_left _ _
    _ ≤ a.rank := Matrix.rank_mul_le_right _ _

theorem rank_pivotA_replicate {K : Type} [Field K] (N : ℕ) (M : Matx44 K) :
    (pivotA (List.replicate N M)).rank ≤ 3 := by
  have hA : pivotA (List.replicate N M)
      = (Matrix.of fun (row : Fin (3 * (List.replicate N M).length)) (k : Fin 3) =>
          if row.val % 3 = k.val then (1 : K) else 0) * pivotBlock M := by
    ext row c
    have hrow : row.val / 3 < N := by
      have := row.isLt
      simp only [List.length_replicate] at this
      omega
    have hget : (List.replicate N M).getD (row.val / 3) 0 = M := by
      rw [List.getD_eq_getElem _ _ (by simpa using hrow)]
      simp
    have hr : row.val % 3 < 3 := Nat.mod_lt _ (by decide)
    simp only [pivotA, Matrix.of_apply, hget, Matrix.mul_apply, Fin.sum_univ_three]
    have hcases : row.val % 3 = 0 ∨ row.val % 3 = 1 ∨ row.val % 3 = 2 := by omega
    rcases hcases with h0 | h0 | h0 <;> simp [h0]
  rw [hA]
  calc _ ≤ (pivotBlock M).rank := Matrix.rank_mul_le_right _ _
    _ ≤ 3 := by simpa using Matrix.rank_le_card_height (pivotBlock M)

theorem foldl_finRange_add {K : Type} [AddCommMonoid K] {n : ℕ} (f : Fin n → K) (a : K) :
    (List.finRange n).foldl (fun acc i => acc + f i) a = a + ∑ i, f i := by
  have h : ∀ (l : List (Fin n)) (a : K),
      l.foldl (fun acc i => acc + f i) a = a + (l.map f).sum := by
    intro l
    induction l with
    | nil => simp
    | cons i l ih => intro a; simp [List.foldl_cons, ih, add_assoc]
  rw [h, Fin.sum_univ_def]

theorem pivotRhs_eq_mul {K : Type} [Field K] (M : Matx44 K) (c q : Fin 3 → K)
    (h : translationColumn M = -(rotationBlock M).mulVec c + q) :
    pivotRhs M = pivotBlock M * pivotUnknown c q := by
  have h0 := congrFun h 0
  have h1 := congrFun h 1
  have h2 := congrFun h 2
  have c0 : Fin.castSucc (0 : Fin 3) = (0 : Fin 4) := rfl
  have c1 : Fin.castSucc (1 : Fin 3) = (1 : Fin 4) := rfl
  have c2 : Fin.castSucc (2 : Fin 3) = (2 : Fin 4) := rfl
  simp only [translationColumn, rotationBlock, Matrix.mulVec, Matrix.dotProduct,
    Fin.sum_univ_three, Pi.add_apply, Pi.neg_apply, Matrix.of_apply, c0, c1, c2] at h0 h1 h2
  ext r k
  have hk : k = 0 := Subsingleton.elim _ _
  subst hk
  simp only [Matrix.mul_apply, Fin.sum_univ_succ, Fin.sum_univ_zero]
  fin_cases r <;>
    simp [pivotRhs, pivotBlock, pivotUnknown, h0, h1, h2, Matrix.vecHead, Matrix.vecTail] <;> ring

theorem pivotB_eq_mul {K : Type} [Field K] (matrices : List (Matx44 K)) (c q : Fin 3 → K)
    (h : ∀ M ∈ matrices, translationColumn M = -(rotationBlock M).mulVec c + q) :
    pivotB matrices = pivotA matrices * pivotUnknown c q := by
  ext row k
  have hrow : row.val / 3 < matrices.length := by
    have := row.isLt
    omega
  have hmem : matrices.getD (row.val / 3) 0 ∈ matrices := by
    rw [List.getD_eq_getElem _ _ hrow]
    exact List.getElem_mem _
  have := pivotRhs_eq_mul _ c q (h _ hmem)
  simp only [pivotB, pivotA, Matrix.of_apply, this, Matrix.mul_apply]

theorem backSubst_exact {m : ℕ} (a : Matrix (Fin m) (Fin 6) ℝ) (svd : SVD ℝ m 6)
    (h : IsSVD a svd) (hrank : 6 ≤ survivingCount svd.w) (x : Matrix (Fin 6) (Fin 1) ℝ) :
    svd.vtᵀ * (Matrix.diagonal (fun i =>
        if (if svd.w i < rankThreshold then 0 else svd.w i) = 0 then 0
        else 1 / (if svd.w i < rankThreshold then 0 else svd.w i)) * (svd.uᵀ * (a * x))) = x := by
  obtain ⟨hrows, ha, hU, hV, -, -⟩ := h
  have hpos : (0 : ℝ) < rankThreshold := rankThreshold_pos
  have hcard : survivingCount svd.w ≤ svd.rows := by
    rw [survivingCount_eq]
    calc _ ≤ (Finset.univ : Finset (Fin svd.rows)).card := Finset.card_filter_le _ _
      _ = svd.rows := by simp
  have hr6 : svd.rows = 6 := by
    have : svd.rows ≤ 6 := by rw [hrows]; exact Nat.min_le_right _ _
    omega
  have hall : ∀ i, rankThreshold ≤ svd.w i := by
    have hfilter : (Finset.univ.filter fun i => rankThreshold ≤ svd.w i) = Finset.univ := by
      apply Finset.eq_of_subset_of_card_le (Finset.filter_subset _ _)
      rw [← survivingCount_eq]
      simp only [Finset.card_univ, Fintype.card_fin]
      omega
    intro i
    have : i ∈ Finset.univ.filter fun i => rankThreshold ≤ svd.w i := by
      rw [hfilter]; exact Finset.mem_univ i
    exact (Finset.mem_filter.mp this).2
  have hV' : svd.vtᵀ * svd.vt = 1 :=
    (Matrix.mul_eq_one_comm_of_equiv (finCongr hr6)).mp hV
  have hd : ∀ i, (if (if svd.w i < rankThreshold then 0 else svd.w i) = 0 then 0
        else 1 / (if svd.w i < rankThreshold then 0 else svd.w i)) * svd.w i = 1 := by
    intro i
    have h1 := hall i
    have hne : svd.w i ≠ 0 := (hpos.trans_le h1).ne'
    rw [if_neg (not_lt.mpr h1), if_neg hne, one_div, inv_mul_cancel₀ hne]
  have key : ∀ d : Fin svd.rows → ℝ, (∀ i, d i * svd.w i = 1) →
      svd.vtᵀ * (diagonal d * (svd.uᵀ * (a * x))) = x := by
    intro d hd
    have hdiag : Matrix.diagonal d * Matrix.diagonal svd.w = 1 := by
      rw [Matrix.diagonal_mul_diagonal]
      have : (fun i => d i * svd.w i) = fun _ => 1 := funext hd
      rw [this, Matrix.diagonal_one]
    rw [ha]
    calc svd.vtᵀ * (diagonal d * (svd.uᵀ * (svd.u * diagonal svd.w * svd.vt * x)))
        = svd.vtᵀ * (diagonal d * ((svd.uᵀ * svd.u) * diagonal svd.w * svd.vt * x)) := by
          simp only [Matrix.mul_assoc]
      _ = svd.vtᵀ * ((diagonal d * diagonal svd.w) * svd.vt * x) := by
          rw [hU, Matrix.one_mul]; simp only [Matrix.mul_assoc]
      _ = (svd.vtᵀ * svd.vt) * x := by rw [hdiag, Matrix.one_mul, Matrix.mul_assoc]
      _ = x := by rw [hV', Matrix.one_mul]
  exact key _ hd

/-- What `DoPivotCalibration` leaves behind when it does not throw and the poses pivot exactly
about `q` with tip offset `c`. -/
theorem pivot_of_exact_poses (svdOf : (m : ℕ) → Matrix (Fin m) (Fin 6) ℝ → SVD ℝ m 6)
    (junk : ℕ → ℕ → ℝ) (matrices : List (Matx44 ℝ)) (outputMatrix : Matx44 ℝ)
    (c q : Fin 3 → ℝ)
    (hposes : ∀ M ∈ matrices, translationColumn M = -(rotationBlock M).mulVec c + q)
    (hsvd : IsSVD (pivotSystem junk matrices).1 (svdOf _ (pivotSystem junk matrices).1))
    (hrank : 6 ≤ survivingCount (svdOf _ (pivotSystem junk matrices).1).w) :
    DoPivotCalibration svdOf Real.sqrt junk matrices outputMatrix
      = { outputMatrix := setEntry (setEntry (setEntry 1 0 3 (c 0)) 1 3 (c 1)) 2 3 (c 2)
          result := .ok 0
          cout := some ((q 0, q 1, q 2), 0) } := by
  have hx := backSubst_exact _ _ hsvd hrank (pivotUnknown c q)
  unfold DoPivotCalibration
  simp only [thresholdSingularValues_eq, SVD.backSubst]
  rw [if_neg (not_lt.mpr hrank)]
  have hb : (pivotSystem junk matrices).2 = (pivotSystem junk matrices).1 * pivotUnknown c q := by
    rw [pivotSystem_eq]
    exact pivotB_eq_mul matrices c q hposes
  simp only [hb, hx, sub_self, MakeIdentity_eq, foldl_finRange_add]
  simp [pivotUnknown]
  rfl

theorem pivotPoses_gram : (pivotA (pivotPoses : List (Matx44 ℝ)))ᵀ * pivotA pivotPoses
    = (4 : ℝ) • (1 : Matrix (Fin 6) (Fin 6) ℝ) := by
  ext c c'
  rw [Matrix.mul_apply, Finset.sum_fin_eq_sum_range]
  have hlen : 3 * (pivotPoses : List (Matx44 ℝ)).length = 12 := by simp [pivotPoses]
  have hr : Finset.range (3 * (pivotPoses : List (Matx44 ℝ)).length) = Finset.range 12 := by
    rw [hlen]
  rw [hr]
  simp only [Finset.sum_range_succ, Finset.sum_range_zero, Matrix.transpose_apply, pivotA,
    Matrix.of_apply]
  have v5 : ∀ (a b c d e f : ℝ), ![a, b, c, d, e, f] 5 = f := fun _ _ _ _ _ _ => rfl
  simp [hlen, pivotPoses, pivotBlock]
  fin_cases c <;> fin_cases c' <;> simp [Matrix.vecHead, Matrix.vecTail, v5] <;> norm_num

theorem pivot_result_error_iff {K : Type} [LinearOrderedField K]
    (svdOf : (m : ℕ) → Matrix (Fin m) (Fin 6) K → SVD K m 6) (sqrt : K → K) (junk : ℕ → ℕ → K)
    (matrices : List (Matx44 K)) (outputMatrix : Matx44 K) :
    (∃ e, (DoPivotCalibration svdOf sqrt junk matrices outputMatrix).result = .error e)
      ↔ survivingCount (svdOf _ (pivotSystem junk matrices).1).w < 6 := by
  unfold DoPivotCalibration
  simp only [thresholdSingularValues_eq]
  split_ifs with h
  · simp [h]
  · simp only [h, iff_false]
    rintro ⟨e, he⟩
    cases he

theorem pivotPoses_exact :
    ∀ M ∈ (pivotPoses : List (Matx44 ℝ)),
      translationColumn M = -(rotationBlock M).mulVec ![1, 2, 3] + ![4, 5, 6] := by
  intro M hM
  have c2 : Fin.castSucc (2 : Fin 3) = (2 : Fin 4) := rfl
  simp only [pivotPoses, List.mem_cons, List.mem_singleton, List.not_mem_nil, or_false] at hM
  rcases hM with rfl | rfl | rfl | rfl <;>
    · funext i
      fin_cases i <;>
        simp [translationColumn, rotationBlock, Matrix.mulVec, Matrix.dotProduct,
          Fin.sum_univ_three, Matrix.vecHead, Matrix.vecTail, c2] <;> norm_num

theorem halfSVD_isSVD (junk : ℕ → ℕ → ℝ) :
    IsSVD (pivotSystem junk (pivotPoses : List (Matx44 ℝ))).1
      (halfSVD _ (pivotSystem junk pivotPoses).1) := by
  rw [pivotSystem_eq]
  refine ⟨?_, ?_, ?_, ?_, ?_, ?_⟩
  · simp [halfSVD, pivotPoses]
  · simp only [halfSVD, Matrix.mul_one]
    have : (Matrix.diagonal fun _ : Fin 6 => (2 : ℝ)) = (2 : ℝ) • (1 : Matrix (Fin 6) (Fin 6) ℝ) := by
      ext i j
      by_cases h : i = j <;> simp [Matrix.diagonal_apply, Matrix.one_apply, h]
    rw [this, Matrix.mul_smul, Matrix.smul_mul, Matrix.mul_one, smul_smul]
    norm_num
  · simp only [halfSVD, Matrix.transpose_smul, Matrix.smul_mul, Matrix.mul_smul, pivotPoses_gram,
      smul_smul]
    norm_num
  · simp [halfSVD]
  · intro i; simp [halfSVD]
  · intro i j _; simp [halfSVD]

theorem halfSVD_survivingCount {m : ℕ} (a : Matrix (Fin m) (Fin 6) ℝ) :
    survivingCount (halfSVD m a).w = 6 := by
  rw [survivingCount_eq]
  have : (Finset.univ.filter fun i : Fin (halfSVD m a).rows => rankThreshold ≤ (halfSVD m a).w i)
      = Finset.univ := by
    apply Finset.filter_true_of_mem
    intro i _
    simp only [halfSVD, rankThreshold]
    norm_num
  rw [this]
  simp [halfSVD]

theorem scaledRowSVD_isSVD (junk : ℕ → ℕ → ℝ) (s : ℝ) (hs : s * s = 2) (hs0 : 0 ≤ s) :
    IsSVD (pivotSystem junk (List.replicate 1 (1 : Matx44 ℝ))).1
      (scaledRowSVD s _ (pivotSystem junk (List.replicate 1 (1 : Matx44 ℝ))).1) := by
  have hne : s ≠ 0 := by
    rintro rfl
    norm_num at hs
  rw [pivotSystem_eq]
  have hgram : pivotA (List.replicate 1 (1 : Matx44 ℝ)) * (pivotA (List.replicate 1 (1 : Matx44 ℝ)))ᵀ
      = (2 : ℝ) • 1 := by
    ext row row'
    have h1 : row.val < 3 := lt_of_lt_of_eq row.isLt (by simp)
    have h2 : row'.val < 3 := lt_of_lt_of_eq row'.isLt (by simp)
    have v5 : ∀ (a b c d e f : ℝ), ![a, b, c, d, e, f] 5 = f := fun _ _ _ _ _ _ => rfl
    have hr : row.val = 0 ∨ row.val = 1 ∨ row.val = 2 := by omega
    have hr' : row'.val = 0 ∨ row'.val = 1 ∨ row'.val = 2 := by omega
    simp only [Matrix.mul_apply, Matrix.transpose_apply, pivotA, Matrix.of_apply,
      Matrix.smul_apply, Matrix.one_apply, Fin.ext_iff]
    rcases hr with h | h | h <;> rcases hr' with h' | h' | h' <;>
      simp [h, h', Fin.sum_univ_succ, pivotBlock, Matrix.vecHead, Matrix.vecTail, v5] <;> norm_num
  refine ⟨?_, ?_, ?_, ?_, ?_, ?_⟩
  · simp [scaledRowSVD]
  · simp only [scaledRowSVD, Matrix.one_mul]
    have : (Matrix.diagonal fun _ : Fin (3 * (List.replicate 1 (1 : Matx44 ℝ)).length) => s)
        = s • (1 : Matrix _ _ ℝ) := by
      ext i j
      by_cases h : i = j <;> simp [Matrix.diagonal_apply, Matrix.one_apply, h]
    rw [this, Matrix.smul_mul, Matrix.one_mul, smul_smul, mul_one_div_cancel hne, one_smul]
  · simp [scaledRowSVD]
  · simp only [scaledRowSVD, Matrix.transpose_smul, Matrix.smul_mul, Matrix.mul_smul, hgram,
      smul_smul]
    have : 1 / s * (1 / s * 2) = 1 := by
      field_simp
      linarith
    rw [this, one_smul]
  · intro i; simpa [scaledRowSVD] using hs0
  · intro i j _; simp [scaledRowSVD]

theorem sum_range_zipWith {K M : Type} [Zero K] [AddCommMonoid M]
    (g : Point3d K → Point3d K → M) (fixed moving : List (Point3d K))
    (h : fixed.length = moving.length) :
    ∑ i in Finset.range fixed.length, g (pointAt fixed i) (pointAt moving i)
      = (List.zipWith g fixed moving).sum := by
  induction fixed generalizing moving with
  | nil => simp
  | cons a fixed ih =>
    cases moving with
    | nil => simp at h
    | cons b moving =>
      rw [List.length_cons, Finset.sum_range_succ', List.zipWith_cons_cons, List.sum_cons,
        add_comm]
      congr 1
      exact ih moving (by simpa using h)

theorem squaredError_eq_normSq3 {K : Type} [Field K] (M : Matx44 K) (f m : Point3d K) :
    squaredError M f m = normSq3 (f.toVec - first3 (M.mulVec (homogeneous m))) := by
  simp [squaredError, normSq3, first3, homogeneous, Point3d.toVec, Matrix.mulVec,
    Matrix.dotProduct, Fin.sum_univ_four]

theorem squaredError_congr {K : Type} [Field K] (M M' : Matx44 K) (f m : Point3d K)
    (h : ∀ (i : Fin 3) (j : Fin 4), M' i.castSucc j = M i.castSucc j) :
    squaredError M' f m = squaredError M f m := by
  have c0 : Fin.castSucc (0 : Fin 3) = (0 : Fin 4) := rfl
  have c1 : Fin.castSucc (1 : Fin 3) = (1 : Fin 4) := rfl
  have c2 : Fin.castSucc (2 : Fin 3) = (2 : Fin 4) := rfl
  have h0 := h 0
  have h1 := h 1
  have h2 := h 2
  rw [c0] at h0
  rw [c1] at h1
  rw [c2] at h2
  simp only [squaredError, h0, h1, h2]

theorem planarPoints_not_collinear :
    ∃ a ∈ (planarPoints : List (Point3d ℝ)), ∃ b ∈ (planarPoints : List (Point3d ℝ)),
      ∃ c ∈ (planarPoints : List (Point3d ℝ)),
        (b.toVec - a.toVec) ×₃ (c.toVec - a.toVec) ≠ 0 := by
  refine ⟨⟨2, 0, 0⟩, by simp [planarPoints], ⟨-2, 0, 0⟩, by simp [planarPoints],
    ⟨0, 1, 0⟩, by simp [planarPoints], ?_⟩
  intro h
  have := congrFun h 2
  simp [cross_apply, Point3d.toVec] at this
  norm_num at this

theorem planarSVD_isSVD3 (T : Fin 3 → ℝ) :
    IsSVD3 (pipelineH (planarPoints.map (applyRigid rotZ90 T)) planarPoints) planarSVD := by
  have hH := pipelineH_applyRigid rotZ90 T planarPoints (by simp [planarPoints])
  have hc : (CalculateCentroid (planarPoints : List (Point3d ℝ))).toVec = 0 := by
    funext k
    fin_cases k <;> simp [CalculateCentroid, planarPoints, Point3d.toVec]
  refine ⟨?_, ?_, ?_, ?_, ?_, ?_⟩
  · rw [hH, hc]
    simp only [planarSVD, Matrix.one_mul, sub_zero]
    congr 1
    ext i j
    fin_cases i <;> fin_cases j <;>
      simp [planarPoints, pointAt, Finset.sum_range_succ, vecMulVec_apply, Point3d.toVec,
        Matrix.diagonal_apply] <;> norm_num
  · simp [planarSVD]
  · simpa [planarSVD] using rotZ90_orthogonal
  · simp [planarSVD]
  · simp [planarSVD]
  · norm_num [planarSVD]

theorem rotationBlock_one {K : Type} [Field K] : rotationBlock (1 : Matx44 K) = 1 := by
  ext i j
  fin_cases i <;> fin_cases j <;> simp [rotationBlock, Matrix.one_apply, Fin.ext_iff]

theorem negateThirdColumn_eq {K : Type} [Field K] (V : Matx33 K) :
    setEntry (setEntry (setEntry V 0 2 (-1 * V 0 2)) 1 2
        (-1 * (setEntry V 0 2 (-1 * V 0 2)) 1 2)) 2 2
        (-1 * (setEntry (setEntry V 0 2 (-1 * V 0 2)) 1 2
          (-1 * (setEntry V 0 2 (-1 * V 0 2)) 1 2)) 2 2)
      = negateThirdColumn V := by
  ext i j
  fin_cases i <;> fin_cases j <;> simp [setEntry, negateThirdColumn]

theorem DoSVD_eq {K : Type} [LinearOrderedField K]
    (svdOf : Matx33 K → SVD3 K) (sqrt : K → K) (tolerance : K)
    (fixedPoints movingPoints : List (Point3d K)) (H : Matx33 K) (p pPrime : Point3d K)
    (outputMatrix : Matx44 K) :
    DoSVDPointBasedRegistration svdOf sqrt tolerance fixedPoints movingPoints H p pPrime
        outputMatrix
      = (if identityFallbackTaken (svdOf H) tolerance then 1
          else if reflectionFixTaken (svdOf H) tolerance then
            rigidTransform (negateThirdColumn (svdOf H).vtᵀ * (svdOf H).uᵀ)
              (pPrime.toVec - (negateThirdColumn (svdOf H).vtᵀ * (svdOf H).uᵀ).mulVec p.toVec)
          else
            rigidTransform (candidateRotation (svdOf H))
              (pPrime.toVec - (candidateRotation (svdOf H)).mulVec p.toVec),
         CalculateFiducialRegistrationError sqrt fixedPoints movingPoints
          (if identityFallbackTaken (svdOf H) tolerance then 1
          else if reflectionFixTaken (svdOf H) tolerance then
            rigidTransform (negateThirdColumn (svdOf H).vtᵀ * (svdOf H).uᵀ)
              (pPrime.toVec - (negateThirdColumn (svdOf H).vtᵀ * (svdOf H).uᵀ).mulVec p.toVec)
          else
            rigidTransform (candidateRotation (svdOf H))
              (pPrime.toVec - (candidateRotation (svdOf H)).mulVec p.toVec))) := by
  have hT : ∀ X : Matx33 K, (fun i : Fin 3 => (!![pPrime.x; pPrime.y; pPrime.z]
      - X * !![p.x; p.y; p.z]) i 0) = pPrime.toVec - X.mulVec p.toVec := by
    intro X
    funext i
    fin_cases i <;>
      simp [Point3d.toVec, Matrix.mul_apply, Matrix.mulVec, Matrix.dotProduct, Fin.sum_univ_three]
  have hout : DoSVDPointBasedRegistration svdOf sqrt tolerance fixedPoints movingPoints H p pPrime
        outputMatrix
      = ((DoSVDPointBasedRegistration svdOf sqrt tolerance fixedPoints movingPoints H p pPrime
          outputMatrix).1,
        CalculateFiducialRegistrationError sqrt fixedPoints movingPoints
          (DoSVDPointBasedRegistration svdOf sqrt tolerance fixedPoints movingPoints H p pPrime
          outputMatrix).1) := rfl
  have h1 : (DoSVDPointBasedRegistration svdOf sqrt tolerance fixedPoints movingPoints H p pPrime
        outputMatrix).1
      = if identityFallbackTaken (svdOf H) tolerance then 1
          else if reflectionFixTaken (svdOf H) tolerance then
            rigidTransform (negateThirdColumn (svdOf H).vtᵀ * (svdOf H).uᵀ)
              (pPrime.toVec - (negateThirdColumn (svdOf H).vtᵀ * (svdOf H).uᵀ).mulVec p.toVec)
          else
            rigidTransform (candidateRotation (svdOf H))
              (pPrime.toVec - (candidateRotation (svdOf H)).mulVec p.toVec) := by
    have hX : ∀ s : SVD3 K, s.vtᵀ * (diagonal ![1, 1, (s.vtᵀ * s.u).det] * s.uᵀ)
        = candidateRotation s := fun _ => rfl
    have hF : ∀ s : SVD3 K, (decide ((candidateRotation s).det < 0)
        && (IsCloseToZero (s.w 0 0) tolerance || IsCloseToZero (s.w 1 1) tolerance
          || IsCloseToZero (s.w 2 2) tolerance)) = reflectionFixTaken s tolerance :=
      fun _ => rfl
    unfold DoSVDPointBasedRegistration
    simp only [diagMatrix_eq, MakeIdentity_eq, negateThirdColumn_eq, hX, hF]
    unfold identityFallbackTaken
    cases hfix : reflectionFixTaken (svdOf H) tolerance <;>
      cases hpos : decide ((candidateRotation (svdOf H)).det > 0) <;>
      simp only [Bool.or_false, Bool.or_true, Bool.not_true, Bool.not_false, if_true, if_false,
        Bool.false_eq_true, Bool.or_self] <;>
      rw [assemble_eq, hT]
  rw [hout, h1]

theorem candidateRotation_det_eq {K : Type} [LinearOrderedField K] (svd : SVD3 K) :
    (candidateRotation svd).det = ((svd.vtᵀ * svd.u).det) ^ 2 := by
  unfold candidateRotation
  simp only [Matrix.det_mul, Matrix.det_transpose, Matrix.det_diagonal, Fin.prod_univ_three]
  simp
  ring

theorem reflectionFixTaken_eq_false {K : Type} [LinearOrderedField K] (svd : SVD3 K)
    (tolerance : K) : reflectionFixTaken svd tolerance = false := by
  have h : ¬ (candidateRotation svd).det < 0 := by
    rw [candidateRotation_det_eq]
    exact not_lt.mpr (sq_nonneg _)
  simp [reflectionFixTaken, h]

theorem DoPivot_of_rank {K : Type} [LinearOrderedField K]
    (svdOf : (m : ℕ) → Matrix (Fin m) (Fin 6) K → SVD K m 6) (sqrt : K → K) (junk : ℕ → ℕ → K)
    (matrices : List (Matx44 K)) (outputMatrix : Matx44 K)
    (hrank : 6 ≤ survivingCount (svdOf _ (pivotSystem junk matrices).1).w) :
    DoPivotCalibration svdOf sqrt junk matrices outputMatrix
      = { outputMatrix :=
            rigidTransform 1 ![pivotSolution svdOf junk matrices 0 0,
              pivotSolution svdOf junk matrices 1 0, pivotSolution svdOf junk matrices 2 0]
          result := .ok (sqrt ((∑ k, ((pivotSystem junk matrices).1
              * pivotSolution svdOf junk matrices - (pivotSystem junk matrices).2) k 0 ^ 2)
            / ((3 * matrices.length : ℕ) : K)))
          cout := some ((pivotSolution svdOf junk matrices 3 0,
              pivotSolution svdOf junk matrices 4 0, pivotSolution svdOf junk matrices 5 0),
            sqrt ((∑ k, ((pivotSystem junk matrices).1
              * pivotSolution svdOf junk matrices - (pivotSystem junk matrices).2) k 0 ^ 2)
            / ((3 * matrices.length : ℕ) : K))) } := by
  have hout : ∀ a b c : K, setEntry (setEntry (setEntry (1 : Matx44 K) 0 3 a) 1 3 b) 2 3 c
      = rigidTransform 1 ![a, b, c] := by
    intro a b c
    ext i j
    fin_cases i <;> fin_cases j <;>
      simp [setEntry, rigidTransform, Matrix.vecHead, Matrix.vecTail]
  unfold DoPivotCalibration
  simp only
  rw [if_neg (by rw [thresholdSingularValues_eq]; exact not_lt.mpr hrank)]
  simp only [MakeIdentity_eq, foldl_finRange_add, zero_add, hout, ← pow_two, mul_comm _ 3]
  rfl

theorem rankFailureMessage_lacks_small (n : ℕ) (hn : n < 6) :
    ¬ messageContainsNumber rankFailureMessage n := by
  unfold messageContainsNumber
  interval_cases n <;> decide

theorem scaledRowSVD_survivingCount (s : ℝ) (hs : 1 ≤ s) {m : ℕ} (a : Matrix (Fin m) (Fin 6) ℝ) :
    survivingCount (scaledRowSVD s m a).w = m := by
  rw [survivingCount_eq]
  have : (Finset.univ.filter fun i : Fin (scaledRowSVD s m a).rows =>
      rankThreshold ≤ (scaledRowSVD s m a).w i) = Finset.univ := by
    apply Finset.filter_true_of_mem
    intro i _
    simp only [scaledRowSVD, rankThreshold]
    linarith
  rw [this]
  simp [scaledRowSVD]

theorem pivotBlock_mul_kernel {K : Type} [Field K] (M : Matx44 K) (c d : Fin 3 → K)
    (h : (rotationBlock M).mulVec c = d) :
    pivotBlock M * pivotUnknown c d = 0 := by
  have h0 := congrFun h 0
  have h1 := congrFun h 1
  have h2 := congrFun h 2
  have c0 : Fin.castSucc (0 : Fin 3) = (0 : Fin 4) := rfl
  have c1 : Fin.castSucc (1 : Fin 3) = (1 : Fin 4) := rfl
  have c2 : Fin.castSucc (2 : Fin 3) = (2 : Fin 4) := rfl
  simp only [rotationBlock, Matrix.mulVec, Matrix.dotProduct,
    Fin.sum_univ_three, Matrix.of_apply, c0, c1, c2] at h0 h1 h2
  ext r k
  have hk : k = 0 := Subsingleton.elim _ _
  subst hk
  simp only [Matrix.mul_apply, Fin.sum_univ_succ, Fin.sum_univ_zero]
  fin_cases r <;>
    simp [pivotBlock, pivotUnknown, ← h0, ← h1, ← h2, Matrix.vecHead, Matrix.vecTail]

theorem pivotA_mul_kernel {K : Type} [Field K] (matrices : List (Matx44 K)) (c d : Fin 3 → K)
    (h : ∀ M ∈ matrices, (rotationBlock M).mulVec c = d) :
    pivotA matrices * pivotUnknown c d = 0 := by
  ext row k
  have hrow : row.val / 3 < matrices.length := by
    have := row.isLt
    omega
  have hmem : matrices.getD (row.val / 3) 0 ∈ matrices := by
    rw [List.getD_eq_getElem _ _ hrow]
    exact List.getElem_mem _
  have := congrFun (congrFun (pivotBlock_mul_kernel _ c d (h _ hmem))
    ⟨row.val % 3, Nat.mod_lt _ (by decide)⟩) k
  simp only [Matrix.mul_apply, Matrix.zero_apply] at this
  simp only [pivotA, Matrix.of_apply, Matrix.mul_apply, Matrix.zero_apply, this]

theorem rank_lt_of_mul_eq_zero {K : Type} [Field K] {m n : ℕ} (a : Matrix (Fin m) (Fin n) K)
    (x : Matrix (Fin n) (Fin 1) K) (hx : x ≠ 0) (h : a * x = 0) : a.rank < n := by
  have hv : a.mulVec (fun i => x i 0) = 0 := by
    funext i
    have := congrFun (congrFun h i) 0
    simpa [Matrix.mul_apply, Matrix.mulVec, Matrix.dotProduct] using this
  have hv0 : (fun i => x i 0) ≠ 0 := by
    intro h0
    apply hx
    ext i k
    have hk : k = 0 := Subsingleton.elim _ _
    subst hk
    exact congrFun h0 i
  have hker : 0 < Module.finrank K (LinearMap.ker a.mulVecLin) := by
    rw [Module.finrank_pos_iff_exists_ne_zero]
    refine ⟨⟨fun i => x i 0, ?_⟩, ?_⟩
    · rw [LinearMap.mem_ker, Matrix.mulVecLin_apply]; exact hv
    · intro h0
      exact hv0 (congrArg Subtype.val h0)
  have hsum := LinearMap.finrank_range_add_finrank_ker a.mulVecLin
  rw [Module.finrank_fin_fun] at hsum
  unfold Matrix.rank
  omega

theorem det_sub_one_of_rotation {K : Type} [LinearOrderedField K] (Q : Matx33 K)
    (hQ : Qᵀ * Q = 1) (hdet : Q.det = 1) : (Q - 1).det = 0 := by
  have h1 : (Q - 1).det = (1 - Q).det := by
    calc (Q - 1).det = Qᵀ.det * (Q - 1).det := by rw [Matrix.det_transpose, hdet, one_mul]
      _ = (Qᵀ * (Q - 1)).det := (Matrix.det_mul _ _).symm
      _ = (1 - Qᵀ).det := by rw [Matrix.mul_sub, hQ, Matrix.mul_one]
      _ = ((1 - Q)ᵀ).det := by rw [Matrix.transpose_sub, Matrix.transpose_one]
      _ = (1 - Q).det := Matrix.det_transpose _
  have h2 : (1 - Q).det = -(Q - 1).det := by
    have : (1 - Q) = -(Q - 1) := by simp
    rw [this, Matrix.det_neg]
    simp only [Fintype.card_fin]
    ring
  linarith

theorem det_sub_of_rotations {K : Type} [LinearOrderedField K] (R₁ R₂ : Matx33 K)
    (h₁ : R₁ᵀ * R₁ = 1) (d₁ : R₁.det = 1) (h₂ : R₂ᵀ * R₂ = 1) (d₂ : R₂.det = 1) :
    (R₂ - R₁).det = 0 := by
  have h₁' : R₁ * R₁ᵀ = 1 := mul_eq_one_comm.mp h₁
  have hQ : (R₁ᵀ * R₂)ᵀ * (R₁ᵀ * R₂) = 1 := by
    rw [Matrix.transpose_mul, Matrix.transpose_transpose, Matrix.mul_assoc,
      ← Matrix.mul_assoc R₁, h₁', Matrix.one_mul, h₂]
  have hd : (R₁ᵀ * R₂).det = 1 := by
    rw [Matrix.det_mul, Matrix.det_transpose, d₁, d₂, one_mul]
  have := det_sub_one_of_rotation _ hQ hd
  have hfac : R₂ - R₁ = R₁ * (R₁ᵀ * R₂ - 1) := by
    rw [Matrix.mul_sub, ← Matrix.mul_assoc, h₁', Matrix.one_mul, Matrix.mul_one]
  rw [hfac, Matrix.det_mul, this, mul_zero]

theorem pivotUnknown_ne_zero {K : Type} [Field K] (c q : Fin 3 → K) (hc : c ≠ 0) :
    pivotUnknown c q ≠ 0 := by
  intro h
  apply hc
  funext i
  fin_cases i
  · exact congrFun (congrFun h 0) 0
  · exact congrFun (congrFun h 1) 0
  · exact congrFun (congrFun h 2) 0

theorem rank_pivotA_lt_six {K : Type} [LinearOrderedField K] (matrices : List (Matx44 K))
    (hN : matrices.length < 3)
    (hrot : ∀ M ∈ matrices,
      (rotationBlock M)ᵀ * rotationBlock M = 1 ∧ (rotationBlock M).det = 1) :
    (pivotA matrices).rank ≤ 5 := by
  match matrices, hN, hrot with
  | [], _, _ => exact (Matrix.rank_le_height _).trans (by simp)
  | [_], _, _ => exact (Matrix.rank_le_height _).trans (by simp)
  | [M₁, M₂], _, hrot =>
    obtain ⟨h₁, d₁⟩ := hrot M₁ (by simp)
    obtain ⟨h₂, d₂⟩ := hrot M₂ (by simp)
    obtain ⟨c, hc, hker⟩ := Matrix.exists_mulVec_eq_zero_iff.mpr
      (det_sub_of_rotations _ _ h₁ d₁ h₂ d₂)
    have hk : pivotA [M₁, M₂] * pivotUnknown c ((rotationBlock M₁).mulVec c) = 0 := by
      apply pivotA_mul_kernel
      intro M hM
      simp only [List.mem_cons, List.mem_singleton, List.not_mem_nil, or_false] at hM
      rcases hM with rfl | rfl
      · rfl
      · have := hker
        rw [Matrix.sub_mulVec, sub_eq_zero] at this
        exact this
    have := rank_lt_of_mul_eq_zero _ _ (pivotUnknown_ne_zero c _ hc) hk
    omega
  | _ :: _ :: _ :: _, hN, _ =>
    simp only [List.length_cons] at hN
    omega
theorem nonzeroCount_le_rank {K : Type} [LinearOrderedField K] {m n : ℕ}
    (a : Matrix (Fin m) (Fin n) K) (svd : SVD K m n) (h : IsSVD a svd) :
    (Finset.univ.filter fun i => svd.w i ≠ 0).card ≤ a.rank := by
  obtain ⟨-, ha, hU, hV, -, -⟩ := h
  have h2 : (Finset.univ.filter fun i => svd.w i ≠ 0).card = (diagonal svd.w).rank := by
    rw [Matrix.rank_diagonal, Fintype.card_subtype]
  have h3 : diagonal svd.w = svd.uᵀ * a * svd.vtᵀ := by
    rw [ha]
    calc diagonal svd.w = (svd.uᵀ * svd.u) * diagonal svd.w * (svd.vt * svd.vtᵀ) := by
          rw [hU, hV, Matrix.one_mul, Matrix.mul_one]
      _ = svd.uᵀ * (svd.u * diagonal svd.w * svd.vt) * svd.vtᵀ := by
          simp only [Matrix.mul_assoc]
  calc (Finset.univ.filter fun i => svd.w i ≠ 0).card = (diagonal svd.w).rank := h2
    _ = (svd.uᵀ * a * svd.vtᵀ).rank := by rw [h3]
    _ ≤ (svd.uᵀ * a).rank := Matrix.rank_mul_le_left _ _
    _ ≤ a.rank := Matrix.rank_mul_le_right _ _

theorem pivotBlock_mulVec {K : Type} [Field K] (M : Matx44 K) (x : Fin 6 → K) (r : Fin 3) :
    (pivotBlock M).mulVec x r
      = (rotationBlock M).mulVec ![x 0, x 1, x 2] r - ![x 3, x 4, x 5] r := by
  have c0 : Fin.castSucc (0 : Fin 3) = (0 : Fin 4) := rfl
  have c1 : Fin.castSucc (1 : Fin 3) = (1 : Fin 4) := rfl
  have c2 : Fin.castSucc (2 : Fin 3) = (2 : Fin 4) := rfl
  have s3 : Fin.succ (2 : Fin 5) = (3 : Fin 6) := rfl
  have s4 : Fin.succ (Fin.succ (2 : Fin 4)) = (4 : Fin 6) := rfl
  have s5 : Fin.succ (Fin.succ (Fin.succ (2 : Fin 3))) = (5 : Fin 6) := rfl
  have v5 : ∀ a b c d e f : K, ![a, b, c, d, e, f] 5 = f := fun _ _ _ _ _ _ => rfl
  simp only [Matrix.mulVec, Matrix.dotProduct, Fin.sum_univ_succ, Fin.sum_univ_zero]
  fin_cases r <;>
    · simp [pivotBlock, rotationBlock, c0, c1, c2, s3, s4, s5, v5, Matrix.vecHead, Matrix.vecTail]
      ring

theorem pivotA_mulVec_eq_zero_iff {K : Type} [Field K] (matrices : List (Matx44 K))
    (x : Fin 6 → K) :
    (pivotA matrices).mulVec x = 0 ↔ ∀ M ∈ matrices, (pivotBlock M).mulVec x = 0 := by
  constructor
  · intro h M hM
    obtain ⟨i, hi⟩ := List.mem_iff_get.mp hM
    funext r
    have hrow := congrFun h (pivotRow i r)
    have hdiv : (pivotRow i r).val / 3 = i.val := ((eq_pivotRow_iff _ i r).mp rfl).1
    have hmod : (pivotRow i r).val % 3 = r.val := ((eq_pivotRow_iff _ i r).mp rfl).2
    have hget : matrices.getD ((pivotRow i r).val / 3) 0 = M := by
      rw [hdiv, List.getD_eq_getElem _ _ i.isLt]
      exact hi
    have hr : (⟨(pivotRow i r).val % 3, Nat.mod_lt _ (by decide)⟩ : Fin 3) = r := Fin.ext hmod
    simp only [pivotA, Matrix.mulVec, Matrix.dotProduct, Matrix.of_apply, hget, hr] at hrow
    simpa [Matrix.mulVec, Matrix.dotProduct] using hrow
  · intro h
    funext row
    have hrow : row.val / 3 < matrices.length := by
      have := row.isLt
      omega
    have hmem : matrices.getD (row.val / 3) 0 ∈ matrices := by
      rw [List.getD_eq_getElem _ _ hrow]
      exact List.getElem_mem _
    have := congrFun (h _ hmem) ⟨row.val % 3, Nat.mod_lt _ (by decide)⟩
    simpa [pivotA, Matrix.mulVec, Matrix.dotProduct] using this

theorem rank_pivotA_pair {K : Type} [Field K] (M₁ M₂ : Matx44 K) :
    (pivotA [M₁, M₂]).rank = 3 + (rotationBlock M₂ - rotationBlock M₁).rank := by
  have hmem : ∀ x : Fin 6 → K, x ∈ LinearMap.ker (pivotA [M₁, M₂]).mulVecLin
      ↔ (rotationBlock M₁).mulVec ![x 0, x 1, x 2] = ![x 3, x 4, x 5]
        ∧ (rotationBlock M₂).mulVec ![x 0, x 1, x 2] = ![x 3, x 4, x 5] := by
    intro x
    rw [LinearMap.mem_ker, Matrix.mulVecLin_apply, pivotA_mulVec_eq_zero_iff]
    have hb : ∀ M : Matx44 K, (pivotBlock M).mulVec x = 0
        ↔ (rotationBlock M).mulVec ![x 0, x 1, x 2] = ![x 3, x 4, x 5] := by
      intro M
      constructor
      · intro h
        funext r
        have := congrFun h r
        rw [pivotBlock_mulVec] at this
        exact sub_eq_zero.mp this
      · intro h
        funext r
        rw [pivotBlock_mulVec, h]
        simp
    simp only [List.mem_cons, List.mem_singleton, List.not_mem_nil, or_false, forall_eq_or_imp,
      forall_eq, hb]
  have hA := LinearMap.finrank_range_add_finrank_ker (pivotA [M₁, M₂]).mulVecLin
  have hD := LinearMap.finrank_range_add_finrank_ker
    (rotationBlock M₂ - rotationBlock M₁).mulVecLin
  rw [Module.finrank_fin_fun] at hA hD
  have hker : Module.finrank K (LinearMap.ker (pivotA [M₁, M₂]).mulVecLin)
      = Module.finrank K (LinearMap.ker (rotationBlock M₂ - rotationBlock M₁).mulVecLin) := by
    have hinj : Function.Injective
        ((LinearMap.funLeft K K ![(0 : Fin 6), 1, 2]).comp
          (LinearMap.ker (pivotA [M₁, M₂]).mulVecLin).subtype) := by
      rintro ⟨x, hx⟩ ⟨y, hy⟩ hxy
      have h0 : x 0 = y 0 := congrFun hxy 0
      have h1 : x 1 = y 1 := congrFun hxy 1
      have h2 : x 2 = y 2 := congrFun hxy 2
      have hx1 := ((hmem x).mp hx).1
      have hy1 := ((hmem y).mp hy).1
      rw [h0, h1, h2, hy1] at hx1
      have h3 : x 3 = y 3 := (congrFun hx1 0).symm
      have h4 : x 4 = y 4 := (congrFun hx1 1).symm
      have h5 : x 5 = y 5 := (congrFun hx1 2).symm
      apply Subtype.ext
      funext i
      fin_cases i
      · exact h0
      · exact h1
      · exact h2
      · exact h3
      · exact h4
      · exact h5
    have hrange : LinearMap.range ((LinearMap.funLeft K K ![(0 : Fin 6), 1, 2]).comp
          (LinearMap.ker (pivotA [M₁, M₂]).mulVecLin).subtype)
        = LinearMap.ker (rotationBlock M₂ - rotationBlock M₁).mulVecLin := by
      ext c
      have hc : ∀ x : Fin 6 → K, LinearMap.funLeft K K ![(0 : Fin 6), 1, 2] x
          = ![x 0, x 1, x 2] := by
        intro x
        funext k
        fin_cases k <;> rfl
      simp only [LinearMap.mem_range, LinearMap.coe_comp, Function.comp_apply,
        Submodule.coe_subtype, Subtype.exists, exists_prop, LinearMap.mem_ker,
        Matrix.mulVecLin_apply, Matrix.sub_mulVec, sub_eq_zero, hc]
      constructor
      · rintro ⟨x, hx, rfl⟩
        obtain ⟨h1, h2⟩ := (hmem x).mp hx
        rw [h1, h2]
      · intro h
        refine ⟨![c 0, c 1, c 2, (rotationBlock M₁).mulVec c 0, (rotationBlock M₁).mulVec c 1,
          (rotationBlock M₁).mulVec c 2], (hmem _).mpr ?_, ?_⟩
        · have e1 : ![c 0, c 1, c 2] = c := by
            funext k
            fin_cases k <;> rfl
          have e2 : ∀ v : Fin 3 → K, ![v 0, v 1, v 2] = v := by
            intro v
            funext k
            fin_cases k <;> rfl
          refine ⟨?_, ?_⟩
          · show (rotationBlock M₁).mulVec ![c 0, c 1, c 2]
              = ![(rotationBlock M₁).mulVec c 0, (rotationBlock M₁).mulVec c 1,
                  (rotationBlock M₁).mulVec c 2]
            rw [e1]
            exact (e2 _).symm
          · show (rotationBlock M₂).mulVec ![c 0, c 1, c 2]
              = ![(rotationBlock M₁).mulVec c 0, (rotationBlock M₁).mulVec c 1,
                  (rotationBlock M₁).mulVec c 2]
            rw [e1, h]
            exact (e2 _).symm
        · funext k
          fin_cases k <;> rfl
    rw [← hrange, LinearMap.finrank_range_of_inj hinj]
  unfold Matrix.rank
  omega

theorem rotation_transpose_mul {K : Type} [LinearOrderedField K] (R₁ R₂ : Matx33 K)
    (h₁ : R₁ᵀ * R₁ = 1) (d₁ : R₁.det = 1) (h₂ : R₂ᵀ * R₂ = 1) (d₂ : R₂.det = 1) :
    (R₁ᵀ * R₂)ᵀ * (R₁ᵀ * R₂) = 1 ∧ (R₁ᵀ * R₂).det = 1
      ∧ ∃ c : Fin 3 → K, c ≠ 0 ∧ (R₁ᵀ * R₂).mulVec c = c := by
  have h₁' : R₁ * R₁ᵀ = 1 := mul_eq_one_comm.mp h₁
  have hQ : (R₁ᵀ * R₂)ᵀ * (R₁ᵀ * R₂) = 1 := by
    rw [Matrix.transpose_mul, Matrix.transpose_transpose, Matrix.mul_assoc,
      ← Matrix.mul_assoc R₁, h₁', Matrix.one_mul, h₂]
  have hd : (R₁ᵀ * R₂).det = 1 := by
    rw [Matrix.det_mul, Matrix.det_transpose, d₁, d₂, one_mul]
  obtain ⟨c, hc, hker⟩ := Matrix.exists_mulVec_eq_zero_iff.mpr
    (det_sub_one_of_rotation _ hQ hd)
  refine ⟨hQ, hd, c, hc, ?_⟩
  rw [Matrix.sub_mulVec, Matrix.one_mulVec, sub_eq_zero] at hker
  exact hker
theorem pairSVD_mul (s : ℝ) (hs : s * s = 2) (a : Matrix (Fin 6) (Fin 6) ℝ) :
    pivotA [(1 : Matx44 ℝ), 1]
      = (pairSVD s 6 a).u * Matrix.diagonal (pairSVD s 6 a).w * (pairSVD s 6 a).vt := by
  have hne : s ≠ 0 := by
    rintro rfl
    norm_num at hs
  have v5 : ∀ (a b c d e f : ℝ), ![a, b, c, d, e, f] 5 = f := fun _ _ _ _ _ _ => rfl
  have n3 : ((3 : Fin 6) : ℕ) = 3 := rfl
  have n4 : ((4 : Fin 6) : ℕ) = 4 := rfl
  have n5 : ((5 : Fin 6) : ℕ) = 5 := rfl
  have hone : s⁻¹ * 2 * s⁻¹ = 1 := by
    field_simp
    linarith
  ext row col
  have h1 : row.val < 6 := row.isLt
  have hr : row.val = 0 ∨ row.val = 1 ∨ row.val = 2 ∨ row.val = 3 ∨ row.val = 4
      ∨ row.val = 5 := by omega
  rw [Matrix.mul_apply]
  simp only [Matrix.mul_diagonal]
  show _ = ∑ k : Fin 6, _
  rw [Fin.sum_univ_six]
  simp only [pairSVD, pivotA, Matrix.of_apply]
  rcases hr with h | h | h | h | h | h <;> fin_cases col <;>
    simp [h, pivotBlock, Matrix.vecHead, Matrix.vecTail, v5, n3, n4, n5, hone]

theorem pairSVD_u_orthonormal (s : ℝ) (hs : s * s = 2) (a : Matrix (Fin 6) (Fin 6) ℝ) :
    (pairSVD s 6 a).uᵀ * (pairSVD s 6 a).u
      = (1 : Matrix (Fin (pairSVD s 6 a).rows) (Fin (pairSVD s 6 a).rows) ℝ) := by
  have hne : s ≠ 0 := by
    rintro rfl
    norm_num at hs
  have n3 : ((3 : Fin 6) : ℕ) = 3 := rfl
  have n4 : ((4 : Fin 6) : ℕ) = 4 := rfl
  have n5 : ((5 : Fin 6) : ℕ) = 5 := rfl
  have hsq : s⁻¹ * s⁻¹ + s⁻¹ * s⁻¹ = 1 := by
    field_simp
    linarith
  have hU : ∀ i j : Fin 6,
      (∑ k : Fin 6, (pairSVD s 6 a).u k i * (pairSVD s 6 a).u k j)
        = (1 : Matrix (Fin 6) (Fin 6) ℝ) i j := by
    intro i j
    rw [Fin.sum_univ_six]
    simp only [pairSVD, Matrix.of_apply]
    fin_cases i <;> fin_cases j <;> simp [n3, n4, n5, hsq]
  exact Matrix.ext hU

theorem pairSVD_vt_orthonormal (s : ℝ) (hs : s * s = 2) (a : Matrix (Fin 6) (Fin 6) ℝ) :
    (pairSVD s 6 a).vt * (pairSVD s 6 a).vtᵀ
      = (1 : Matrix (Fin (pairSVD s 6 a).rows) (Fin (pairSVD s 6 a).rows) ℝ) := by
  have hne : s ≠ 0 := by
    rintro rfl
    norm_num at hs
  have n3 : ((3 : Fin 6) : ℕ) = 3 := rfl
  have n4 : ((4 : Fin 6) : ℕ) = 4 := rfl
  have n5 : ((5 : Fin 6) : ℕ) = 5 := rfl
  have hsq : s⁻¹ * s⁻¹ + s⁻¹ * s⁻¹ = 1 := by
    field_simp
    linarith
  have hV : ∀ i j : Fin 6,
      (∑ k : Fin 6, (pairSVD s 6 a).vt i k * (pairSVD s 6 a).vt j k)
        = (1 : Matrix (Fin 6) (Fin 6) ℝ) i j := by
    intro i j
    rw [Fin.sum_univ_six]
    simp only [pairSVD, Matrix.of_apply]
    fin_cases i <;> fin_cases j <;> simp [n3, n4, n5, hsq]
  exact Matrix.ext hV

theorem pairSVD_isSVD (junk : ℕ → ℕ → ℝ) (s : ℝ) (hs : s * s = 2) :
    IsSVD (pivotSystem junk [(1 : Matx44 ℝ), 1]).1
      (pairSVD s _ (pivotSystem junk [(1 : Matx44 ℝ), 1]).1) := by
  rw [pivotSystem_eq]
  refine ⟨rfl, pairSVD_mul s hs _, pairSVD_u_orthonormal s hs _, pairSVD_vt_orthonormal s hs _,
    ?_, ?_⟩
  · intro i
    simp only [pairSVD]
    split_ifs <;> norm_num
  · intro i j hij
    simp only [pairSVD]
    have : i.val ≤ j.val := hij
    split_ifs <;> first | omega | norm_num

/-! ## The claims -/

/-- C1 (exact recovery by registration). In real arithmetic, for a rotation `R` (orthogonal,
determinant 1), a translation `T` and a point set `P` with three points not on a line, let
`moving = P` and `fixed[i] = R · P[i] + T`, with `p`, `pPrime` the centroids and `H` the
cross-covariance of the centred sets (moving first).  If the SVD of `H` meets its specification,
`DoSVDPointBasedRegistration` leaves a matrix whose rotation block is `R` and whose translation
column is `T`, and returns the residual `0`. -/
theorem registration_exact_recovery (svdOf : Matx33 ℝ → SVD3 ℝ) (tolerance : ℝ)
    (R : Matx33 ℝ) (T : Fin 3 → ℝ) (P : List (Point3d ℝ)) (outputMatrix : Matx44 ℝ)
    (hR : Rᵀ * R = 1) (hdet : R.det = 1)
    (hP : ∃ a ∈ P, ∃ b ∈ P, ∃ c ∈ P, (b.toVec - a.toVec) ×₃ (c.toVec - a.toVec) ≠ 0)
    (hsvd : IsSVD3 (pipelineH (P.map (applyRigid R T)) P)
      (svdOf (pipelineH (P.map (applyRigid R T)) P))) :
    rotationBlock (DoSVDPointBasedRegistration svdOf Real.sqrt tolerance
        (P.map (applyRigid R T)) P (pipelineH (P.map (applyRigid R T)) P) (CalculateCentroid P)
        (CalculateCentroid (P.map (applyRigid R T))) outputMatrix).1 = R
      ∧ translationColumn (DoSVDPointBasedRegistration svdOf Real.sqrt tolerance
        (P.map (applyRigid R T)) P (pipelineH (P.map (applyRigid R T)) P) (CalculateCentroid P)
        (CalculateCentroid (P.map (applyRigid R T))) outputMatrix).1 = T
      ∧ (DoSVDPointBasedRegistration svdOf Real.sqrt tolerance
        (P.map (applyRigid R T)) P (pipelineH (P.map (applyRigid R T)) P) (CalculateCentroid P)
        (CalculateCentroid (P.map (applyRigid R T))) outputMatrix).2 = .ok 0 := by
  rw [registration_of_rigid_motion svdOf tolerance R T P outputMatrix hR hdet hP hsvd]
  exact ⟨rotationBlock_rigidTransform R T, translationColumn_rigidTransform R T, rfl⟩

theorem registration_exact_recovery_witness :
    (rotZ90 : Matx33 ℝ)ᵀ * rotZ90 = 1 ∧ (rotZ90 : Matx33 ℝ).det = 1
      ∧ rotationBlock (DoSVDPointBasedRegistration (fun _ => planarSVD) Real.sqrt (1 / 10000)
          (planarPoints.map (applyRigid rotZ90 ![2, 0, 0])) planarPoints
          (pipelineH (planarPoints.map (applyRigid rotZ90 ![2, 0, 0])) planarPoints)
          (CalculateCentroid planarPoints)
          (CalculateCentroid (planarPoints.map (applyRigid rotZ90 ![2, 0, 0]))) 0).1 = rotZ90
      ∧ translationColumn (DoSVDPointBasedRegistration (fun _ => planarSVD) Real.sqrt (1 / 10000)
          (planarPoints.map (applyRigid rotZ90 ![2, 0, 0])) planarPoints
          (pipelineH (planarPoints.map (applyRigid rotZ90 ![2, 0, 0])) planarPoints)
          (CalculateCentroid planarPoints)
          (CalculateCentroid (planarPoints.map (applyRigid rotZ90 ![2, 0, 0]))) 0).1 = ![2, 0, 0]
      ∧ (DoSVDPointBasedRegistration (fun _ => planarSVD) Real.sqrt (1 / 10000)
          (planarPoints.map (applyRigid rotZ90 ![2, 0, 0])) planarPoints
          (pipelineH (planarPoints.map (applyRigid rotZ90 ![2, 0, 0])) planarPoints)
          (CalculateCentroid planarPoints)
          (CalculateCentroid (planarPoints.map (applyRigid rotZ90 ![2, 0, 0]))) 0).2 = .ok 0 :=
  ⟨rotZ90_orthogonal, rotZ90_det,
    registration_exact_recovery (fun _ => planarSVD) (1 / 10000) rotZ90 ![2, 0, 0] planarPoints 0
      rotZ90_orthogonal rotZ90_det planarPoints_not_collinear (planarSVD_isSVD3 _)⟩

/-- C2 (least-squares optimality). For point sets of equal length, with `p`, `pPrime` and `H`
computed from them and the SVD of `H` meeting its specification, the fiducial registration error
of the matrix left by `DoSVDPointBasedRegistration` is at most that of every matrix `M'` whose
rotation block is orthogonal with determinant 1 (whatever its translation column; its bottom row
plays no part). -/
theorem registration_least_squares (svdOf : Matx33 ℝ → SVD3 ℝ) (tolerance : ℝ)
    (fixed moving : List (Point3d ℝ)) (outputMatrix M' : Matx44 ℝ)
    (hlen : fixed.length = moving.length)
    (hsvd : IsSVD3 (pipelineH fixed moving) (svdOf (pipelineH fixed moving)))
    (hR' : (rotationBlock M')ᵀ * rotationBlock M' = 1) (hdet' : (rotationBlock M').det = 1) :
    ∃ e e' : ℝ,
      CalculateFiducialRegistrationError Real.sqrt fixed moving
          (DoSVDPointBasedRegistration svdOf Real.sqrt tolerance fixed moving
            (pipelineH fixed moving) (CalculateCentroid moving) (CalculateCentroid fixed)
            outputMatrix).1 = .ok e
        ∧ CalculateFiducialRegistrationError Real.sqrt fixed moving M' = .ok e'
        ∧ e ≤ e' := by
  have hdet : 0 < (candidateRotation (svdOf (pipelineH fixed moving))).det := by
    rw [candidateRotation_det _ hsvd.2.1 hsvd.2.2.1]; exact one_pos
  rw [DoSVD_of_det_pos svdOf Real.sqrt tolerance _ _ _ _ _ _ hdet]
  refine ⟨_, _, fre_eq _ _ _ _ hlen, fre_eq _ _ _ _ hlen, ?_⟩
  rw [hlen]
  by_cases hpos : 0 < moving.length
  · rw [if_pos hpos, if_pos hpos]
    apply Real.sqrt_le_sqrt
    have := sum_squaredError_minimal (svdOf (pipelineH fixed moving)) fixed moving hlen hpos hsvd
      M' hR' hdet'
    exact div_le_div_of_nonneg_right this (Nat.cast_nonneg _)
  · have h0 : moving.length = 0 := by omega
    simp [h0]

theorem registration_least_squares_witness :
    ∃ e e' : ℝ,
      CalculateFiducialRegistrationError Real.sqrt
          (planarPoints.map (applyRigid rotZ90 ![2, 0, 0])) planarPoints
          (DoSVDPointBasedRegistration (fun _ => planarSVD) Real.sqrt (1 / 10000)
            (planarPoints.map (applyRigid rotZ90 ![2, 0, 0])) planarPoints
            (pipelineH (planarPoints.map (applyRigid rotZ90 ![2, 0, 0])) planarPoints)
            (CalculateCentroid planarPoints)
            (CalculateCentroid (planarPoints.map (applyRigid rotZ90 ![2, 0, 0]))) 0).1 = .ok e
        ∧ CalculateFiducialRegistrationError Real.sqrt
          (planarPoints.map (applyRigid rotZ90 ![2, 0, 0])) planarPoints 1 = .ok e'
        ∧ e ≤ e' :=
  registration_least_squares (fun _ => planarSVD) (1 / 10000)
    (planarPoints.map (applyRigid rotZ90 ![2, 0, 0])) planarPoints 0 1 (by simp)
    (planarSVD_isSVD3 _) (by rw [rotationBlock_one]; simp) (by rw [rotationBlock_one]; simp)

/-- C3 (size-mismatch failure). `CalculateFiducialRegistrationError` throws the size-mismatch
`runtime_error` exactly when the two point sets differ in length, it throws nothing else, and
`DoSVDPointBasedRegistration` throws that same error whenever the lengths differ, whatever `H`,
`p` and `pPrime` are. -/
theorem size_mismatch_failure {K : Type} [LinearOrderedField K]
    (svdOf : Matx33 K → SVD3 K) (sqrt : K → K) (tolerance : K)
    (fixed moving : List (Point3d K)) (matrix : Matx44 K) (H : Matx33 K) (p pPrime : Point3d K)
    (outputMatrix : Matx44 K) :
    (CalculateFiducialRegistrationError sqrt fixed moving matrix
          = .error (.runtime_error (sizeMismatchMessage fixed.length moving.length))
        ↔ fixed.length ≠ moving.length)
      ∧ ((∃ e, CalculateFiducialRegistrationError sqrt fixed moving matrix = .error e)
        ↔ fixed.length ≠ moving.length)
      ∧ (fixed.length ≠ moving.length →
          (DoSVDPointBasedRegistration svdOf sqrt tolerance fixed moving H p pPrime
              outputMatrix).2
            = .error (.runtime_error (sizeMismatchMessage fixed.length moving.length))) := by
  refine ⟨?_, ?_, ?_⟩
  · unfold CalculateFiducialRegistrationError
    split_ifs with h
    · simp [h]
    · simp [h]
  · unfold CalculateFiducialRegistrationError
    split_ifs with h
    · simp [h]
    · simp only [h, iff_false]
      rintro ⟨e, he⟩
      cases he
  · intro h
    show CalculateFiducialRegistrationError sqrt fixed moving _ = _
    unfold CalculateFiducialRegistrationError
    rw [if_pos h]

theorem size_mismatch_failure_witness :
    (DoSVDPointBasedRegistration (fun _ => (planarSVD : SVD3 ℝ)) Real.sqrt (1 / 10000)
        [⟨0, 0, 0⟩, ⟨1, 0, 0⟩, ⟨0, 1, 0⟩] planarPoints 0 ⟨0, 0, 0⟩ ⟨0, 0, 0⟩ 0).2
      = .error (.runtime_error (sizeMismatchMessage 3 4)) :=
  (size_mismatch_failure (fun _ => (planarSVD : SVD3 ℝ)) Real.sqrt (1 / 10000)
    [⟨0, 0, 0⟩, ⟨1, 0, 0⟩, ⟨0, 1, 0⟩] planarPoints 0 0 ⟨0, 0, 0⟩ ⟨0, 0, 0⟩ 0).2.2
    (by simp [planarPoints])

/-- C4 (the fiducial registration error is its reference definition). For point sets of the same
length `n` and every 4×4 matrix `M`, `CalculateFiducialRegistrationError` returns
`freReference`: `0` when `n = 0`, otherwise the square root of the mean of `‖fixed[i] - first3
(M · (moving[i], 1))‖²`; and a matrix with the same first three rows gives the same result, so
the fourth row of `M` never matters. -/
theorem fre_eq_reference (fixed moving : List (Point3d ℝ)) (M : Matx44 ℝ)
    (hlen : fixed.length = moving.length) :
    CalculateFiducialRegistrationError Real.sqrt fixed moving M
        = .ok (freReference Real.sqrt fixed moving M)
      ∧ ∀ M' : Matx44 ℝ, (∀ (i : Fin 3) (j : Fin 4), M' i.castSucc j = M i.castSucc j) →
          CalculateFiducialRegistrationError Real.sqrt fixed moving M'
            = CalculateFiducialRegistrationError Real.sqrt fixed moving M := by
  constructor
  · rw [fre_eq _ _ _ _ hlen, freReference]
    congr 1
    by_cases h0 : fixed.length = 0
    · simp [h0]
    · rw [if_neg h0, if_pos (Nat.pos_of_ne_zero h0),
        sum_range_zipWith (squaredError M) fixed moving hlen]
      have hfun : squaredError M
          = fun f m => normSq3 (f.toVec - first3 (M.mulVec (homogeneous m))) :=
        funext fun f => funext fun m => squaredError_eq_normSq3 M f m
      rw [hfun, div_eq_mul_inv, mul_comm, one_div]
  · intro M' hM'
    rw [fre_eq _ _ _ _ hlen, fre_eq _ _ _ _ hlen]
    simp only [squaredError_congr M M' _ _ hM']

theorem fre_eq_reference_witness :
    CalculateFiducialRegistrationError Real.sqrt [⟨1, 0, 0⟩] [⟨0, 0, 0⟩] 1
        = .ok (freReference Real.sqrt [⟨1, 0, 0⟩] [⟨0, 0, 0⟩] 1)
      ∧ ∀ M' : Matx44 ℝ, (∀ (i : Fin 3) (j : Fin 4), M' i.castSucc j = (1 : Matx44 ℝ) i.castSucc j) →
          CalculateFiducialRegistrationError Real.sqrt [⟨1, 0, 0⟩] [⟨0, 0, 0⟩] M'
            = CalculateFiducialRegistrationError Real.sqrt [⟨1, 0, 0⟩] [⟨0, 0, 0⟩] 1 :=
  fre_eq_reference [⟨1, 0, 0⟩] [⟨0, 0, 0⟩] 1 rfl

/-- C5. For every non-empty point set `P`, the fiducial registration error of `P` against itself
under the matrix produced by `MakeIdentity` is `0`. -/
theorem fre_identity_self (P : List (Point3d ℝ)) (matrix : Matx44 ℝ) (_hP : P ≠ []) :
    CalculateFiducialRegistrationError Real.sqrt P P (MakeIdentity matrix) = .ok 0 := by
  rw [MakeIdentity_eq, fre_eq _ _ _ _ rfl]
  have hzero : ∑ i in Finset.range P.length, squaredError 1 (pointAt P i) (pointAt P i) = 0 := by
    refine Finset.sum_eq_zero fun i _ => ?_
    simp [squaredError, Matrix.one_apply]
  rw [hzero]
  simp

theorem fre_identity_self_witness :
    CalculateFiducialRegistrationError Real.sqrt [⟨1, 2, 3⟩] [⟨1, 2, 3⟩] (MakeIdentity 0) = .ok 0 :=
  fre_identity_self [⟨1, 2, 3⟩] 0 (by simp)

/-- C6, refuted as stated. With `fixedPoints = [(0,0,0), (1,0,0), (0,1,0), (0,0,1)]` and
`movingPoints[i] = Rz(90°) · fixedPoints[i] + (2,0,0)`, it is not the case that for every SVD of
`H` meeting its specification the output has rotation block `Rz(90°)` and translation `(2,0,0)`
with a residual below `1e-6`: for an explicit SVD the rotation block is the transpose of
`Rz(90°)`. -/
theorem scenario_not_rotZ90 :
    ¬ ∀ (svdOf : Matx33 ℝ → SVD3 ℝ) (tolerance : ℝ) (outputMatrix : Matx44 ℝ),
        IsSVD3 (pipelineH (scenarioFixed : List (Point3d ℝ)) scenarioMoving)
            (svdOf (pipelineH scenarioFixed scenarioMoving)) →
          rotationBlock (DoSVDPointBasedRegistration svdOf Real.sqrt tolerance scenarioFixed
              scenarioMoving (pipelineH scenarioFixed scenarioMoving)
              (CalculateCentroid scenarioMoving) (CalculateCentroid scenarioFixed)
              outputMatrix).1 = rotZ90
            ∧ translationColumn (DoSVDPointBasedRegistration svdOf Real.sqrt tolerance
              scenarioFixed scenarioMoving (pipelineH scenarioFixed scenarioMoving)
              (CalculateCentroid scenarioMoving) (CalculateCentroid scenarioFixed)
              outputMatrix).1 = ![2, 0, 0]
            ∧ ∃ e, (DoSVDPointBasedRegistration svdOf Real.sqrt tolerance scenarioFixed
              scenarioMoving (pipelineH scenarioFixed scenarioMoving)
              (CalculateCentroid scenarioMoving) (CalculateCentroid scenarioFixed)
              outputMatrix).2 = .ok e ∧ e < 1 / 1000000 := by
  intro h
  have hsvd := scenarioSVD_isSVD3 (Real.sqrt 3) (Real.mul_self_sqrt (by norm_num))
  obtain ⟨hrot, -, -⟩ := h (fun _ => scenarioSVD (Real.sqrt 3)) (1 / 10000) 0 hsvd
  rw [scenario_registration (fun _ => scenarioSVD (Real.sqrt 3)) (1 / 10000) 0 hsvd,
    rotationBlock_rigidTransform] at hrot
  have := congrFun (congrFun hrot 0) 1
  simp [rotZ90, Matrix.transpose_apply] at this
  norm_num at this

/-- C6, amended. In the concrete scenario, for every SVD of `H` meeting its specification,
`DoSVDPointBasedRegistration` leaves the transform that maps the moving points onto the fixed
ones: rotation block `Rz(90°)ᵀ = Rz(-90°)`, translation `(0, 2, 0)`, and it returns the residual
`0`, which is below `1e-6`. -/
theorem scenario_registration_inverse (svdOf : Matx33 ℝ → SVD3 ℝ) (tolerance : ℝ)
    (outputMatrix : Matx44 ℝ)
    (hsvd : IsSVD3 (pipelineH (scenarioFixed : List (Point3d ℝ)) scenarioMoving)
      (svdOf (pipelineH scenarioFixed scenarioMoving))) :
    rotationBlock (DoSVDPointBasedRegistration svdOf Real.sqrt tolerance scenarioFixed
        scenarioMoving (pipelineH scenarioFixed scenarioMoving)
        (CalculateCentroid scenarioMoving) (CalculateCentroid scenarioFixed)
        outputMatrix).1 = rotZ90ᵀ
      ∧ translationColumn (DoSVDPointBasedRegistration svdOf Real.sqrt tolerance
        scenarioFixed scenarioMoving (pipelineH scenarioFixed scenarioMoving)
        (CalculateCentroid scenarioMoving) (CalculateCentroid scenarioFixed)
        outputMatrix).1 = ![0, 2, 0]
      ∧ (DoSVDPointBasedRegistration svdOf Real.sqrt tolerance scenarioFixed
        scenarioMoving (pipelineH scenarioFixed scenarioMoving)
        (CalculateCentroid scenarioMoving) (CalculateCentroid scenarioFixed)
        outputMatrix).2 = .ok 0
      ∧ (0 : ℝ) < 1 / 1000000 := by
  rw [scenario_registration svdOf tolerance outputMatrix hsvd]
  exact ⟨rotationBlock_rigidTransform _ _, translationColumn_rigidTransform _ _, rfl,
    by norm_num⟩

theorem scenario_registration_inverse_witness :
    rotationBlock (DoSVDPointBasedRegistration (fun _ => scenarioSVD (Real.sqrt 3)) Real.sqrt
        (1 / 10000) scenarioFixed scenarioMoving (pipelineH scenarioFixed scenarioMoving)
        (CalculateCentroid scenarioMoving) (CalculateCentroid scenarioFixed) 0).1 = rotZ90ᵀ
      ∧ translationColumn (DoSVDPointBasedRegistration (fun _ => scenarioSVD (Real.sqrt 3))
        Real.sqrt (1 / 10000) scenarioFixed scenarioMoving
        (pipelineH scenarioFixed scenarioMoving)
        (CalculateCentroid scenarioMoving) (CalculateCentroid scenarioFixed) 0).1 = ![0, 2, 0]
      ∧ (DoSVDPointBasedRegistration (fun _ => scenarioSVD (Real.sqrt 3)) Real.sqrt
        (1 / 10000) scenarioFixed scenarioMoving (pipelineH scenarioFixed scenarioMoving)
        (CalculateCentroid scenarioMoving) (CalculateCentroid scenarioFixed) 0).2 = .ok 0
      ∧ (0 : ℝ) < 1 / 1000000 :=
  scenario_registration_inverse (fun _ => scenarioSVD (Real.sqrt 3)) (1 / 10000) 0
    (scenarioSVD_isSVD3 (Real.sqrt 3) (Real.mul_self_sqrt (by norm_num)))

/-- C7 (exact recovery by pivot calibration). In real arithmetic, for a tip offset `c`, a pivot
point `q` and poses whose translation is `-Rᵢ · c + q`, with the SVD of the assembled `A`
meeting its specification and `backSubst` the pseudo-inverse solve: whenever
`DoPivotCalibration` does not throw, the translation column of the output matrix is `c`, the
pivot written out (`x[3..5]`) is `q`, and the returned residual is `0`. -/
theorem pivot_exact_recovery (svdOf : (m : ℕ) → Matrix (Fin m) (Fin 6) ℝ → SVD ℝ m 6)
    (junk : ℕ → ℕ → ℝ) (matrices : List (Matx44 ℝ)) (outputMatrix : Matx44 ℝ)
    (c q : Fin 3 → ℝ)
    (hposes : ∀ M ∈ matrices, translationColumn M = -(rotationBlock M).mulVec c + q)
    (hsvd : IsSVD (pivotSystem junk matrices).1 (svdOf _ (pivotSystem junk matrices).1))
    (hok : ∀ e, (DoPivotCalibration svdOf Real.sqrt junk matrices outputMatrix).result
      ≠ .error e) :
    translationColumn (DoPivotCalibration svdOf Real.sqrt junk matrices outputMatrix).outputMatrix
        = c
      ∧ (DoPivotCalibration svdOf Real.sqrt junk matrices outputMatrix).cout
        = some ((q 0, q 1, q 2), 0)
      ∧ (DoPivotCalibration svdOf Real.sqrt junk matrices outputMatrix).result = .ok 0 := by
  have hrank : 6 ≤ survivingCount (svdOf _ (pivotSystem junk matrices).1).w := by
    by_contra hlt
    obtain ⟨e, he⟩ := (pivot_result_error_iff svdOf Real.sqrt junk matrices outputMatrix).mpr
      (not_le.mp hlt)
    exact hok e he
  rw [pivot_of_exact_poses svdOf junk matrices outputMatrix c q hposes hsvd hrank]
  refine ⟨?_, rfl, rfl⟩
  have c2 : Fin.castSucc (2 : Fin 3) = (2 : Fin 4) := rfl
  funext i
  fin_cases i <;> simp [translationColumn, setEntry, c2]

theorem pivot_exact_recovery_witness :
    translationColumn (DoPivotCalibration halfSVD Real.sqrt (fun _ _ => 0) pivotPoses 0).outputMatrix
        = ![1, 2, 3]
      ∧ (DoPivotCalibration halfSVD Real.sqrt (fun _ _ => 0) pivotPoses 0).cout
        = some (((![4, 5, 6] : Fin 3 → ℝ) 0, (![4, 5, 6] : Fin 3 → ℝ) 1,
            (![4, 5, 6] : Fin 3 → ℝ) 2), 0)
      ∧ (DoPivotCalibration halfSVD Real.sqrt (fun _ _ => 0) pivotPoses 0).result = .ok 0 :=
  pivot_exact_recovery halfSVD (fun _ _ => 0) pivotPoses 0 ![1, 2, 3] ![4, 5, 6]
    pivotPoses_exact (halfSVD_isSVD _)
    (fun e he => by
      have h := (pivot_result_error_iff halfSVD Real.sqrt (fun _ _ => 0) pivotPoses 0).mp ⟨e, he⟩
      rw [halfSVD_survivingCount] at h
      exact absurd h (by decide))

/-- C8 (rank-deficiency failure). `DoPivotCalibration` throws the rank `logic_error` exactly when
fewer than 6 singular values of the assembled `A` survive thresholding, and returns a value
exactly when at least 6 survive; a singular value survives when it is not strictly below `0.01`,
so the surviving ones are those with `0.01 ≤ w i`. -/
theorem pivot_fails_iff_rank_deficient {K : Type} [LinearOrderedField K]
    (svdOf : (m : ℕ) → Matrix (Fin m) (Fin 6) K → SVD K m 6) (sqrt : K → K) (junk : ℕ → ℕ → K)
    (matrices : List (Matx44 K)) (outputMatrix : Matx44 K) :
    ((DoPivotCalibration svdOf sqrt junk matrices outputMatrix).result
          = .error (.logic_error rankFailureMessage)
        ↔ survivingCount (svdOf _ (pivotSystem junk matrices).1).w < 6)
      ∧ ((∃ v, (DoPivotCalibration svdOf sqrt junk matrices outputMatrix).result = .ok v)
        ↔ 6 ≤ survivingCount (svdOf _ (pivotSystem junk matrices).1).w)
      ∧ survivingCount (svdOf _ (pivotSystem junk matrices).1).w
        = (Finset.univ.filter
            fun i => (1 / 100 : K) ≤ (svdOf _ (pivotSystem junk matrices).1).w i).card := by
  refine ⟨?_, ?_, survivingCount_eq _⟩
  · unfold DoPivotCalibration
    simp only [thresholdSingularValues_eq]
    split_ifs with h
    · simp [h]
    · simp [h]
  · unfold DoPivotCalibration
    simp only [thresholdSingularValues_eq]
    split_ifs with h
    · simp only [not_le.mpr h, iff_false]
      rintro ⟨v, hv⟩
      cases hv
    · simp only [not_lt.mp h, iff_true]
      exact ⟨_, rfl⟩

/-- C9. For `N ≥ 1` copies of one 4×4 matrix `M`, if the SVD of the assembled `A` meets its
specification then `DoPivotCalibration` throws the rank `logic_error`: `A` has rank at most 3,
so at most 3 singular values are not zero. -/
theorem pivot_identical_poses_fail {K : Type} [LinearOrderedField K]
    (svdOf : (m : ℕ) → Matrix (Fin m) (Fin 6) K → SVD K m 6) (sqrt : K → K) (junk : ℕ → ℕ → K)
    (N : ℕ) (M outputMatrix : Matx44 K) (_hN : 1 ≤ N)
    (hsvd : IsSVD (pivotSystem junk (List.replicate N M)).1
      (svdOf _ (pivotSystem junk (List.replicate N M)).1)) :
    (DoPivotCalibration svdOf sqrt junk (List.replicate N M) outputMatrix).result
      = .error (.logic_error rankFailureMessage) := by
  have h1 := survivingCount_le_rank _ _ hsvd
  have h2 : (pivotSystem junk (List.replicate N M)).1.rank ≤ 3 := by
    rw [pivotSystem_eq]; exact rank_pivotA_replicate N M
  have h3 : survivingCount (svdOf _ (pivotSystem junk (List.replicate N M)).1).w < 6 := by omega
  unfold DoPivotCalibration
  simp only [thresholdSingularValues_eq]
  rw [if_pos h3]

theorem pivot_identical_poses_fail_witness :
    1 ≤ 1
      ∧ (DoPivotCalibration (scaledRowSVD (Real.sqrt 2)) Real.sqrt (fun _ _ => 0)
          (List.replicate 1 (1 : Matx44 ℝ)) 0).result
        = .error (.logic_error rankFailureMessage) :=
  ⟨le_refl 1,
    pivot_identical_poses_fail (scaledRowSVD (Real.sqrt 2)) Real.sqrt (fun _ _ => 0) 1 1 0
      (le_refl 1)
      (scaledRowSVD_isSVD _ _ (Real.mul_self_sqrt (by norm_num)) (Real.sqrt_nonneg 2))⟩

/-- C10. The function `CalculateCentroid` is total; it returns `(0,0,0)` on the empty set and
otherwise the coordinate-wise mean `((Σx)/n, (Σy)/n, (Σz)/n)` of the `n` points. -/
theorem centroid_is_mean {K : Type} [LinearOrderedField K] (points : List (Point3d K)) :
    CalculateCentroid points
      = if points.length = 0 then (⟨0, 0, 0⟩ : Point3d K)
        else ⟨(points.map Point3d.x).sum / (points.length : K),
              (points.map Point3d.y).sum / (points.length : K),
              (points.map Point3d.z).sum / (points.length : K)⟩ :=
  CalculateCentroid_eq points

/-- C11. For every point set `points` and every point `offset`, the result of
`SubtractPointFromPoints` has the length of `points`, and its element at every index `i` is
`points[i] - offset`, coordinate by coordinate, in the order of the input. -/
theorem subtract_point_pointwise {K : Type} [LinearOrderedField K] (points : List (Point3d K))
    (offset : Point3d K) :
    (SubtractPointFromPoints points offset).length = points.length
      ∧ ∀ i : Fin points.length,
          (SubtractPointFromPoints points offset)[i.val]?
            = some ⟨(points.get i).x - offset.x, (points.get i).y - offset.y,
                (points.get i).z - offset.z⟩ := by
  rw [SubtractPointFromPoints_eq]
  refine ⟨List.length_map _ _, fun i => ?_⟩
  simp [List.getElem?_map, List.getElem?_eq_getElem i.isLt]

/-- C12. For point sets `q` and `qPrime` of equal length, entry `(r, c)` of
`CalculateCrossCovarianceH q qPrime` is the sum over `i` of `q[i][r] * qPrime[i][c]`, the whole
matrix is the sum of the outer products `q[i] · qPrime[i]ᵀ` (first argument as column, second as
row), and for empty inputs it is the zero matrix. -/
theorem cross_covariance_entries {K : Type} [LinearOrderedField K] (q qPrime : List (Point3d K))
    (hlen : q.length = qPrime.length) :
    (∀ r c : Fin 3, CalculateCrossCovarianceH q qPrime r c
        = (List.zipWith (fun (a b : Point3d K) => a.toVec r * b.toVec c) q qPrime).sum)
      ∧ CalculateCrossCovarianceH q qPrime
        = (List.zipWith (fun (a b : Point3d K) => vecMulVec a.toVec b.toVec) q qPrime).sum
      ∧ CalculateCrossCovarianceH ([] : List (Point3d K)) [] = 0 := by
  refine ⟨fun r c => ?_, ?_, ?_⟩
  · rw [CalculateCrossCovarianceH_eq, Matrix.sum_apply,
      ← sum_range_zipWith (fun (a b : Point3d K) => a.toVec r * b.toVec c) q qPrime hlen]
    rfl
  · rw [CalculateCrossCovarianceH_eq,
      ← sum_range_zipWith (fun (a b : Point3d K) => vecMulVec a.toVec b.toVec) q qPrime hlen]
  · simp [CalculateCrossCovarianceH]

theorem cross_covariance_entries_witness :
    (∀ r c : Fin 3, CalculateCrossCovarianceH [(⟨1, 2, 3⟩ : Point3d ℚ)] [⟨4, 5, 6⟩] r c
        = (List.zipWith (fun (a b : Point3d ℚ) => a.toVec r * b.toVec c) [(⟨1, 2, 3⟩ : Point3d ℚ)]
            [⟨4, 5, 6⟩]).sum)
      ∧ CalculateCrossCovarianceH [(⟨1, 2, 3⟩ : Point3d ℚ)] [⟨4, 5, 6⟩]
        = (List.zipWith (fun (a b : Point3d ℚ) => vecMulVec a.toVec b.toVec) [(⟨1, 2, 3⟩ : Point3d ℚ)]
            [⟨4, 5, 6⟩]).sum
      ∧ CalculateCrossCovarianceH ([] : List (Point3d ℚ)) [] = 0 :=
  cross_covariance_entries [⟨1, 2, 3⟩] [⟨4, 5, 6⟩] rfl

/-- C13 (valid-transform invariant). For every `H`, `p`, `pPrime`, if the SVD factors `u` and `vt`
are orthogonal then the matrix that `DoSVDPointBasedRegistration` leaves in the output parameter
is a valid homogeneous transform, and so is the matrix left by a `DoPivotCalibration` that does
not throw: the top-left 3×3 block is orthonormal with determinant `1` and the bottom row is
`[0, 0, 0, 1]`. -/
theorem outputs_are_valid_transforms {K : Type} [LinearOrderedField K]
    (svdOf : Matx33 K → SVD3 K) (svdOfA : (m : ℕ) → Matrix (Fin m) (Fin 6) K → SVD K m 6)
    (sqrt : K → K) (tolerance : K) (junk : ℕ → ℕ → K)
    (fixedPoints movingPoints : List (Point3d K)) (H : Matx33 K) (p pPrime : Point3d K)
    (matrices : List (Matx44 K)) (outputMatrix : Matx44 K) :
    ((svdOf H).uᵀ * (svdOf H).u = 1 → (svdOf H).vt * (svdOf H).vtᵀ = 1 →
        IsValidTransform (DoSVDPointBasedRegistration svdOf sqrt tolerance fixedPoints
          movingPoints H p pPrime outputMatrix).1)
      ∧ ((∀ e, (DoPivotCalibration svdOfA sqrt junk matrices outputMatrix).result ≠ .error e) →
        IsValidTransform (DoPivotCalibration svdOfA sqrt junk matrices outputMatrix).outputMatrix) := by
  have hrow : ∀ (R : Matx33 K) (t : Fin 3 → K),
      rigidTransform R t 3 0 = 0 ∧ rigidTransform R t 3 1 = 0 ∧ rigidTransform R t 3 2 = 0
        ∧ rigidTransform R t 3 3 = 1 := by
    intro R t
    simp [rigidTransform]
  constructor
  · intro hU hV
    have hdet := candidateRotation_det (svdOf H) hU hV
    have hpos : 0 < (candidateRotation (svdOf H)).det := by rw [hdet]; exact one_pos
    rw [DoSVD_of_det_pos svdOf sqrt tolerance _ _ _ _ _ _ hpos]
    exact ⟨by rw [rotationBlock_rigidTransform]; exact candidateRotation_orthogonal _ hU hV,
      by rw [rotationBlock_rigidTransform]; exact hdet, hrow _ _⟩
  · intro hok
    have hrank : 6 ≤ survivingCount (svdOfA _ (pivotSystem junk matrices).1).w := by
      by_contra hlt
      obtain ⟨e, he⟩ := (pivot_result_error_iff svdOfA sqrt junk matrices outputMatrix).mpr
        (not_le.mp hlt)
      exact hok e he
    rw [DoPivot_of_rank svdOfA sqrt junk matrices outputMatrix hrank]
    exact ⟨by rw [rotationBlock_rigidTransform]; simp,
      by rw [rotationBlock_rigidTransform]; simp, hrow _ _⟩

theorem outputs_are_valid_transforms_witness :
    IsValidTransform (DoSVDPointBasedRegistration (fun _ => (planarSVD : SVD3 ℝ)) Real.sqrt
        (1 / 10000) [] [] 0 ⟨1, 2, 3⟩ ⟨4, 5, 6⟩ 0).1
      ∧ IsValidTransform
          (DoPivotCalibration halfSVD Real.sqrt (fun _ _ => 0) pivotPoses 0).outputMatrix :=
  ⟨(outputs_are_valid_transforms (fun _ => (planarSVD : SVD3 ℝ)) halfSVD Real.sqrt (1 / 10000)
      (fun _ _ => 0) [] [] 0 ⟨1, 2, 3⟩ ⟨4, 5, 6⟩ pivotPoses 0).1
      (by simp [planarSVD]) (by simpa [planarSVD] using rotZ90_orthogonal),
    (outputs_are_valid_transforms (fun _ => (planarSVD : SVD3 ℝ)) halfSVD Real.sqrt (1 / 10000)
      (fun _ _ => 0) [] [] 0 ⟨1, 2, 3⟩ ⟨4, 5, 6⟩ pivotPoses 0).2
      (fun e he => by
        have h := (pivot_result_error_iff halfSVD Real.sqrt (fun _ _ => 0) pivotPoses 0).mp
          ⟨e, he⟩
        rw [halfSVD_survivingCount] at h
        exact absurd h (by decide))⟩

/-- C14, refuted as stated. For one identity pose and an SVD of the assembled `A` meeting its
specification, the computed rank is `3`, `DoPivotCalibration` throws, and the decimal text of the
computed rank does not occur in the message of the exception. -/
theorem pivot_message_lacks_rank :
    IsSVD (pivotSystem (fun _ _ => 0) (List.replicate 1 (1 : Matx44 ℝ))).1
        (scaledRowSVD (Real.sqrt 2) _ (pivotSystem (fun _ _ => 0) (List.replicate 1 1)).1)
      ∧ (thresholdSingularValues (scaledRowSVD (Real.sqrt 2) _
          (pivotSystem (fun _ _ => 0) (List.replicate 1 (1 : Matx44 ℝ))).1).w).2 = 3
      ∧ (∃ msg, (DoPivotCalibration (scaledRowSVD (Real.sqrt 2)) Real.sqrt (fun _ _ => 0)
            (List.replicate 1 (1 : Matx44 ℝ)) 0).result = .error (.logic_error msg)
          ∧ ¬ messageContainsNumber msg 3) := by
  have h1 : (1 : ℝ) ≤ Real.sqrt 2 := by
    rw [Real.one_le_sqrt]; norm_num
  have hc : survivingCount (scaledRowSVD (Real.sqrt 2) _
      (pivotSystem (fun _ _ => (0 : ℝ)) (List.replicate 1 (1 : Matx44 ℝ))).1).w = 3 := by
    rw [scaledRowSVD_survivingCount _ h1]
    rfl
  refine ⟨scaledRowSVD_isSVD _ _ (Real.mul_self_sqrt (by norm_num)) (Real.sqrt_nonneg 2), ?_,
    rankFailureMessage, ?_, rankFailureMessage_lacks_small 3 (by decide)⟩
  · rw [thresholdSingularValues_eq]
    exact hc
  · unfold DoPivotCalibration
    simp only [thresholdSingularValues_eq]
    rw [if_pos (by rw [hc]; decide)]

/-- C14, amended. Whenever the rank computed by `DoPivotCalibration` is below 6, the exception
is a `logic_error` whose message is the fixed text `PivotCalibration: Failed. Rank < 6` followed
by a line feed: the message does not contain the computed rank, only the bound `6`. -/
theorem pivot_rank_failure_message {K : Type} [LinearOrderedField K]
    (svdOf : (m : ℕ) → Matrix (Fin m) (Fin 6) K → SVD K m 6) (sqrt : K → K) (junk : ℕ → ℕ → K)
    (matrices : List (Matx44 K)) (outputMatrix : Matx44 K)
    (hfail : (thresholdSingularValues (svdOf _ (pivotSystem junk matrices).1).w).2 < 6) :
    (DoPivotCalibration svdOf sqrt junk matrices outputMatrix).result
        = .error (.logic_error "PivotCalibration: Failed. Rank < 6\n")
      ∧ ¬ messageContainsNumber "PivotCalibration: Failed. Rank < 6\n"
          (thresholdSingularValues (svdOf _ (pivotSystem junk matrices).1).w).2
      ∧ messageContainsNumber "PivotCalibration: Failed. Rank < 6\n" 6 := by
  refine ⟨?_, rankFailureMessage_lacks_small _ hfail, ?_⟩
  · unfold DoPivotCalibration
    simp only
    rw [if_pos hfail]
    rfl
  · unfold messageContainsNumber
    decide

theorem pivot_rank_failure_message_witness :
    (DoPivotCalibration (fun m a => scaledRowSVD (1 : ℚ) m a) id (fun _ _ => 0)
        [(1 : Matx44 ℚ)] 0).result
        = .error (.logic_error "PivotCalibration: Failed. Rank < 6\n")
      ∧ ¬ messageContainsNumber "PivotCalibration: Failed. Rank < 6\n"
          (thresholdSingularValues (scaledRowSVD (1 : ℚ) _
            (pivotSystem (fun _ _ => 0) [(1 : Matx44 ℚ)]).1).w).2
      ∧ messageContainsNumber "PivotCalibration: Failed. Rank < 6\n" 6 :=
  pivot_rank_failure_message (fun m a => scaledRowSVD (1 : ℚ) m a) id (fun _ _ => 0)
    [(1 : Matx44 ℚ)] 0
    (by
      rw [thresholdSingularValues_eq, survivingCount_eq]
      exact lt_of_le_of_lt (Finset.card_le_univ _) (by simp [scaledRowSVD]))

/-- C15 (correspondence-order sensitivity). There are point sets `fixed` and `moving` of equal
length, a transform `M` and a permutation `moving'` of `moving` for which
`CalculateFiducialRegistrationError` returns different values on `(fixed, moving', M)` and on
`(fixed, moving, M)`: here `[(0,0,0), (1,0,0)]` against itself and against its reversal, under
the identity. -/
theorem fre_order_sensitive :
    ∃ (fixed moving moving' : List (Point3d ℝ)) (M : Matx44 ℝ),
      moving'.Perm moving ∧ fixed.length = moving.length
        ∧ CalculateFiducialRegistrationError Real.sqrt fixed moving' M
          ≠ CalculateFiducialRegistrationError Real.sqrt fixed moving M := by
  refine ⟨pairPoints, pairPoints, pairPointsSwapped, 1, List.Perm.swap _ _ _, rfl, ?_⟩
  rw [fre_eq Real.sqrt pairPoints pairPointsSwapped 1 rfl,
    fre_eq Real.sqrt pairPoints pairPoints 1 rfl]
  have h1 : (∑ i in Finset.range (pairPoints : List (Point3d ℝ)).length,
      squaredError (1 : Matx44 ℝ) (pointAt pairPoints i) (pointAt pairPointsSwapped i)) = 2 := by
    simp [pairPoints, pairPointsSwapped, Finset.sum_range_succ, squaredError, pointAt,
      Matrix.one_apply]
    norm_num
  have h2 : (∑ i in Finset.range (pairPoints : List (Point3d ℝ)).length,
      squaredError (1 : Matx44 ℝ) (pointAt pairPoints i) (pointAt pairPoints i)) = 0 := by
    simp [pairPoints, Finset.sum_range_succ, squaredError, pointAt, Matrix.one_apply]
  rw [h1, h2]
  simp [pairPoints]

/-- C16 (registration decision table). With `X = V · diag(1, 1, det(V · U)) · Uᵀ` built from the
SVD of `H`, the matrix output by `DoSVDPointBasedRegistration` is: (a) if `det X > 0`, rotation
block `X` and translation `pPrime - X · p`; (b) if `det X < 0` and one of the singular values
`w 0`, `w 1`, `w 2` is within `tolerance` of zero, rotation block `V' · Uᵀ`, with `V'` the matrix
`V` whose third column is negated, and translation `pPrime - (V' · Uᵀ) · p`; (c) in every other
case the 4×4 identity.  In all cases the returned value is that of
`CalculateFiducialRegistrationError` on the output matrix.  Case (b) holds because its premise
never does: `det X = det(V · U)²` is not negative. -/
theorem registration_decision_table {K : Type} [LinearOrderedField K]
    (svdOf : Matx33 K → SVD3 K) (sqrt : K → K) (tolerance : K)
    (fixedPoints movingPoints : List (Point3d K)) (H : Matx33 K) (p pPrime : Point3d K)
    (outputMatrix : Matx44 K) :
    (0 < (candidateRotation (svdOf H)).det →
        (DoSVDPointBasedRegistration svdOf sqrt tolerance fixedPoints movingPoints H p pPrime
            outputMatrix).1
          = rigidTransform (candidateRotation (svdOf H))
              (pPrime.toVec - (candidateRotation (svdOf H)).mulVec p.toVec))
      ∧ ((candidateRotation (svdOf H)).det < 0
          ∧ (|(svdOf H).w 0 0| < tolerance ∨ |(svdOf H).w 1 0| < tolerance
            ∨ |(svdOf H).w 2 0| < tolerance) →
        (DoSVDPointBasedRegistration svdOf sqrt tolerance fixedPoints movingPoints H p pPrime
            outputMatrix).1
          = rigidTransform (negateThirdColumn (svdOf H).vtᵀ * (svdOf H).uᵀ)
              (pPrime.toVec
                - (negateThirdColumn (svdOf H).vtᵀ * (svdOf H).uᵀ).mulVec p.toVec))
      ∧ (¬ 0 < (candidateRotation (svdOf H)).det
          ∧ ¬ ((candidateRotation (svdOf H)).det < 0
            ∧ (|(svdOf H).w 0 0| < tolerance ∨ |(svdOf H).w 1 0| < tolerance
              ∨ |(svdOf H).w 2 0| < tolerance)) →
        (DoSVDPointBasedRegistration svdOf sqrt tolerance fixedPoints movingPoints H p pPrime
            outputMatrix).1 = 1)
      ∧ (DoSVDPointBasedRegistration svdOf sqrt tolerance fixedPoints movingPoints H p pPrime
            outputMatrix).2
        = CalculateFiducialRegistrationError sqrt fixedPoints movingPoints
            (DoSVDPointBasedRegistration svdOf sqrt tolerance fixedPoints movingPoints H p pPrime
              outputMatrix).1 := by
  have hnn : ¬ (candidateRotation (svdOf H)).det < 0 := by
    rw [candidateRotation_det_eq]
    exact not_lt.mpr (sq_nonneg _)
  refine ⟨fun hpos => ?_, fun h => absurd h.1 hnn, fun h => ?_, rfl⟩
  · rw [DoSVD_of_det_pos svdOf sqrt tolerance _ _ _ _ _ _ hpos]
  · rw [DoSVD_eq]
    have : identityFallbackTaken (svdOf H) tolerance = true := by
      simp [identityFallbackTaken, reflectionFixTaken_eq_false, h.1]
    simp only [this, if_true]

theorem registration_decision_table_witness :
    (DoSVDPointBasedRegistration (fun _ => (planarSVD : SVD3 ℚ)) id (1 / 10000) [] [] 0
        ⟨1, 2, 3⟩ ⟨4, 5, 6⟩ 0).1
      = rigidTransform (candidateRotation planarSVD)
          ((⟨4, 5, 6⟩ : Point3d ℚ).toVec
            - (candidateRotation planarSVD).mulVec (⟨1, 2, 3⟩ : Point3d ℚ).toVec)
      ∧ (DoSVDPointBasedRegistration (fun _ => (zeroSVD : SVD3 ℚ)) id (1 / 10000) [] [] 0
        ⟨1, 2, 3⟩ ⟨4, 5, 6⟩ 0).1 = 1 :=
  ⟨(registration_decision_table (fun _ => (planarSVD : SVD3 ℚ)) id (1 / 10000) [] [] 0
      ⟨1, 2, 3⟩ ⟨4, 5, 6⟩ 0).1
      (by
        rw [candidateRotation_det planarSVD (by simp [planarSVD])
          (by simpa [planarSVD] using rotZ90_orthogonal)]
        exact one_pos),
    (registration_decision_table (fun _ => (zeroSVD : SVD3 ℚ)) id (1 / 10000) [] [] 0
      ⟨1, 2, 3⟩ ⟨4, 5, 6⟩ 0).2.2.1
      (by simp [candidateRotation, zeroSVD])⟩

/-- C17 (pivot system assembly). For a sequence of `N` poses the system `(A, b)` assembled by
`DoPivotCalibration` is `3N × 6` and `3N × 1`, and for every `i < N` and `r, c < 3`:
`A[3i+r][c] = poses[i](r, c)`, `A[3i+r][3+c]` is `-1` if `r = c` and `0` otherwise, and
`b[3i+r] = -poses[i](r, 3)`.  Every entry is assigned: every row is some `3i+r`, every column is
some `c` or `3+c`, and the system does not depend on what the fresh matrices held. -/
theorem pivot_system_assembly {K : Type} [Field K] (junk junk' : ℕ → ℕ → K)
    (matrices : List (Matx44 K)) :
    (∀ (i : Fin matrices.length) (r c : Fin 3),
        (pivotSystem junk matrices).1 (pivotRow i r) (Fin.castLE (by decide) c)
            = (matrices.get i) (Fin.castSucc r) (Fin.castSucc c)
          ∧ (pivotSystem junk matrices).1 (pivotRow i r) (Fin.natAdd 3 c)
            = (if r = c then -1 else 0)
          ∧ (pivotSystem junk matrices).2 (pivotRow i r) 0 = -(matrices.get i) (Fin.castSucc r) 3)
      ∧ (∀ row : Fin (3 * matrices.length), ∃ (i : Fin matrices.length) (r : Fin 3),
          row = pivotRow i r)
      ∧ (∀ col : Fin 6, ∃ c : Fin 3, col = Fin.castLE (by decide) c ∨ col = Fin.natAdd 3 c)
      ∧ pivotSystem junk matrices = pivotSystem junk' matrices := by
  refine ⟨fun i r c => ?_, fun row => ?_, by decide, by rw [pivotSystem_eq, pivotSystem_eq]⟩
  · have hdiv : (pivotRow i r).val / 3 = i.val := ((eq_pivotRow_iff _ i r).mp rfl).1
    have hmod : (pivotRow i r).val % 3 = r.val := ((eq_pivotRow_iff _ i r).mp rfl).2
    have hget : matrices.getD ((pivotRow i r).val / 3) 0 = matrices.get i := by
      rw [hdiv, List.getD_eq_getElem _ _ i.isLt]
      rfl
    have hr : (⟨(pivotRow i r).val % 3, Nat.mod_lt _ (by decide)⟩ : Fin 3) = r := Fin.ext hmod
    rw [pivotSystem_eq]
    simp only [pivotA, pivotB, Matrix.of_apply, hget, hr]
    refine ⟨?_, ?_, ?_⟩
    · fin_cases r <;> fin_cases c <;> rfl
    · fin_cases r <;> fin_cases c <;> simp [pivotBlock] <;> rfl
    · fin_cases r <;> (simp [pivotRhs]; try rfl)
  · have h : row.val / 3 < matrices.length := by
      have := row.isLt
      omega
    exact ⟨⟨row.val / 3, h⟩, ⟨row.val % 3, Nat.mod_lt _ (by decide)⟩,
      (eq_pivotRow_iff _ _ _).mpr ⟨rfl, rfl⟩⟩

/-- C18 (pivot calibration result shape). Whenever `DoPivotCalibration` does not throw, with `x`
the vector that `backSubst` solves from `A · x = b`: the output matrix is the 4×4 identity except
that rows 0–2 of column 3 are `x[0], x[1], x[2]`, and the returned residual is
`sqrt((Σ_k ((A · x - b)[k])²) / (3N))`; the divisor `3N` is not zero there, given that the SVD
returns `min(3N, 6)` singular values. -/
theorem pivot_result_shape {K : Type} [LinearOrderedField K]
    (svdOf : (m : ℕ) → Matrix (Fin m) (Fin 6) K → SVD K m 6) (sqrt : K → K) (junk : ℕ → ℕ → K)
    (matrices : List (Matx44 K)) (outputMatrix : Matx44 K)
    (hok : ∀ e, (DoPivotCalibration svdOf sqrt junk matrices outputMatrix).result ≠ .error e) :
    (∀ i j : Fin 4,
        (DoPivotCalibration svdOf sqrt junk matrices outputMatrix).outputMatrix i j
          = if j = 3 ∧ i ≠ 3 then pivotSolution svdOf junk matrices (Fin.castLE (by decide) i) 0
            else (1 : Matx44 K) i j)
      ∧ (DoPivotCalibration svdOf sqrt junk matrices outputMatrix).result
        = .ok (sqrt ((∑ k, ((pivotSystem junk matrices).1 * pivotSolution svdOf junk matrices
            - (pivotSystem junk matrices).2) k 0 ^ 2) / ((3 * matrices.length : ℕ) : K)))
      ∧ ((svdOf _ (pivotSystem junk matrices).1).rows = min (3 * matrices.length) 6 →
          ((3 * matrices.length : ℕ) : K) ≠ 0) := by
  have hrank : 6 ≤ survivingCount (svdOf _ (pivotSystem junk matrices).1).w := by
    by_contra hlt
    obtain ⟨e, he⟩ := (pivot_result_error_iff svdOf sqrt junk matrices outputMatrix).mpr
      (not_le.mp hlt)
    exact hok e he
  rw [DoPivot_of_rank svdOf sqrt junk matrices outputMatrix hrank]
  refine ⟨fun i j => ?_, rfl, fun hrows => ?_⟩
  · fin_cases i <;> fin_cases j <;> simp [rigidTransform, Matrix.vecHead, Matrix.vecTail] <;> rfl
  · have hcard : survivingCount (svdOf _ (pivotSystem junk matrices).1).w
        ≤ (svdOf _ (pivotSystem junk matrices).1).rows := by
      rw [survivingCount_eq]
      exact (Finset.card_le_univ _).trans (by simp)
    have hN : 3 * matrices.length ≠ 0 := by
      have : 6 ≤ min (3 * matrices.length) 6 := hrows ▸ hrank.trans hcard
      omega
    exact_mod_cast hN

theorem pivot_result_shape_witness :
    (∀ i j : Fin 4,
        (DoPivotCalibration halfSVD Real.sqrt (fun _ _ => 0) pivotPoses 0).outputMatrix i j
          = if j = 3 ∧ i ≠ 3
            then pivotSolution halfSVD (fun _ _ => (0 : ℝ)) pivotPoses (Fin.castLE (by decide) i) 0
            else (1 : Matx44 ℝ) i j)
      ∧ (DoPivotCalibration halfSVD Real.sqrt (fun _ _ => 0) pivotPoses 0).result
        = .ok (Real.sqrt ((∑ k, ((pivotSystem (fun _ _ => (0 : ℝ)) pivotPoses).1
              * pivotSolution halfSVD (fun _ _ => (0 : ℝ)) pivotPoses
            - (pivotSystem (fun _ _ => (0 : ℝ)) pivotPoses).2) k 0 ^ 2)
            / ((3 * (pivotPoses : List (Matx44 ℝ)).length : ℕ) : ℝ)))
      ∧ ((halfSVD _ (pivotSystem (fun _ _ => (0 : ℝ)) pivotPoses).1).rows
            = min (3 * (pivotPoses : List (Matx44 ℝ)).length) 6 →
          ((3 * (pivotPoses : List (Matx44 ℝ)).length : ℕ) : ℝ) ≠ 0) :=
  pivot_result_shape halfSVD Real.sqrt (fun _ _ => 0) pivotPoses 0
    (fun e he => by
      have h := (pivot_result_error_iff halfSVD Real.sqrt (fun _ _ => 0) pivotPoses 0).mp ⟨e, he⟩
      rw [halfSVD_survivingCount] at h
      exact absurd h (by decide))

/-- C19 (the reflection branches are unreachable). For every `H` whose SVD factors `u` and `vt`
are orthogonal, the candidate `X = V · diag(1, 1, det(V · U)) · Uᵀ` has
`det X = det(V · U)² = 1 > 0`; so `DoSVDPointBasedRegistration` takes neither the correction that
negates the third column of `V` nor the identity fallback, and the rotation block of its output
is `X`. -/
theorem reflection_branches_unreachable {K : Type} [LinearOrderedField K]
    (svdOf : Matx33 K → SVD3 K) (sqrt : K → K) (tolerance : K)
    (fixedPoints movingPoints : List (Point3d K)) (H : Matx33 K) (p pPrime : Point3d K)
    (outputMatrix : Matx44 K)
    (hU : (svdOf H).uᵀ * (svdOf H).u = 1) (hV : (svdOf H).vt * (svdOf H).vtᵀ = 1) :
    (candidateRotation (svdOf H)).det = ((svdOf H).vtᵀ * (svdOf H).u).det ^ 2
      ∧ (candidateRotation (svdOf H)).det = 1
      ∧ 0 < (candidateRotation (svdOf H)).det
      ∧ reflectionFixTaken (svdOf H) tolerance = false
      ∧ identityFallbackTaken (svdOf H) tolerance = false
      ∧ rotationBlock (DoSVDPointBasedRegistration svdOf sqrt tolerance fixedPoints
          movingPoints H p pPrime outputMatrix).1 = candidateRotation (svdOf H) := by
  have hdet := candidateRotation_det (svdOf H) hU hV
  have hpos : 0 < (candidateRotation (svdOf H)).det := by rw [hdet]; exact one_pos
  refine ⟨candidateRotation_det_eq _, hdet, hpos, reflectionFixTaken_eq_false _ _, ?_, ?_⟩
  · simp [identityFallbackTaken, hpos]
  · rw [DoSVD_of_det_pos svdOf sqrt tolerance _ _ _ _ _ _ hpos, rotationBlock_rigidTransform]

theorem reflection_branches_unreachable_witness :
    (candidateRotation (planarSVD : SVD3 ℚ)).det
        = ((planarSVD : SVD3 ℚ).vtᵀ * (planarSVD : SVD3 ℚ).u).det ^ 2
      ∧ (candidateRotation (planarSVD : SVD3 ℚ)).det = 1
      ∧ 0 < (candidateRotation (planarSVD : SVD3 ℚ)).det
      ∧ reflectionFixTaken (planarSVD : SVD3 ℚ) (1 / 10000) = false
      ∧ identityFallbackTaken (planarSVD : SVD3 ℚ) (1 / 10000) = false
      ∧ rotationBlock (DoSVDPointBasedRegistration (fun _ => (planarSVD : SVD3 ℚ)) id
          (1 / 10000) [] [] 0 ⟨1, 2, 3⟩ ⟨4, 5, 6⟩ 0).1 = candidateRotation planarSVD :=
  reflection_branches_unreachable (fun _ => (planarSVD : SVD3 ℚ)) id (1 / 10000) [] [] 0
    ⟨1, 2, 3⟩ ⟨4, 5, 6⟩ 0 (by simp [planarSVD]) (by simpa [planarSVD] using rotZ90_orthogonal)

/-- C20 (minimum pose count). For fewer than 3 poses whose rotation blocks are orthonormal with
determinant `1`, and an SVD of the assembled `A` meeting its specification, `A` has rank at most
5, fewer than 6 singular values are non-zero, and `DoPivotCalibration` throws the rank
`logic_error`.  For two poses, `rank A = 3 + rank(R₂ - R₁)` and `R₂ - R₁` is singular, `R₁ᵀ · R₂`
being a proper rotation that fixes a non-zero vector. -/
theorem pivot_needs_three_poses {K : Type} [LinearOrderedField K]
    (svdOf : (m : ℕ) → Matrix (Fin m) (Fin 6) K → SVD K m 6) (sqrt : K → K) (junk : ℕ → ℕ → K)
    (matrices : List (Matx44 K)) (outputMatrix : Matx44 K)
    (hN : matrices.length < 3)
    (hrot : ∀ M ∈ matrices,
      (rotationBlock M)ᵀ * rotationBlock M = 1 ∧ (rotationBlock M).det = 1)
    (hsvd : IsSVD (pivotSystem junk matrices).1 (svdOf _ (pivotSystem junk matrices).1)) :
    (pivotSystem junk matrices).1.rank ≤ 5
      ∧ (∀ M₁ M₂ : Matx44 K, matrices = [M₁, M₂] →
          (pivotSystem junk [M₁, M₂]).1.rank = 3 + (rotationBlock M₂ - rotationBlock M₁).rank
            ∧ (rotationBlock M₂ - rotationBlock M₁).det = 0
            ∧ ((rotationBlock M₁)ᵀ * rotationBlock M₂)ᵀ
                * ((rotationBlock M₁)ᵀ * rotationBlock M₂) = 1
            ∧ ((rotationBlock M₁)ᵀ * rotationBlock M₂).det = 1
            ∧ ∃ c : Fin 3 → K, c ≠ 0 ∧ ((rotationBlock M₁)ᵀ * rotationBlock M₂).mulVec c = c)
      ∧ (Finset.univ.filter fun i => (svdOf _ (pivotSystem junk matrices).1).w i ≠ 0).card < 6
      ∧ (thresholdSingularValues (svdOf _ (pivotSystem junk matrices).1).w).2 < 6
      ∧ DoPivotCalibration svdOf sqrt junk matrices outputMatrix
        = { outputMatrix := outputMatrix
            result := .error (.logic_error rankFailureMessage)
            cout := none } := by
  have h2 : (pivotSystem junk matrices).1.rank ≤ 5 := by
    rw [pivotSystem_eq]; exact rank_pivotA_lt_six matrices hN hrot
  have h1 := survivingCount_le_rank _ _ hsvd
  have h3 : survivingCount (svdOf _ (pivotSystem junk matrices).1).w < 6 := by omega
  refine ⟨h2, ?_, lt_of_le_of_lt (nonzeroCount_le_rank _ _ hsvd) (by omega), ?_, ?_⟩
  · rintro M₁ M₂ rfl
    obtain ⟨h₁, d₁⟩ := hrot M₁ (by simp)
    obtain ⟨h₂, d₂⟩ := hrot M₂ (by simp)
    refine ⟨?_, det_sub_of_rotations _ _ h₁ d₁ h₂ d₂, rotation_transpose_mul _ _ h₁ d₁ h₂ d₂⟩
    rw [pivotSystem_eq]
    exact rank_pivotA_pair M₁ M₂
  · rw [thresholdSingularValues_eq]; exact h3
  · unfold DoPivotCalibration
    simp only [thresholdSingularValues_eq]
    rw [if_pos h3]

theorem pivot_needs_three_poses_witness :
    (pivotSystem (fun _ _ => (0 : ℝ)) [(1 : Matx44 ℝ), 1]).1.rank
        = 3 + (rotationBlock (1 : Matx44 ℝ) - rotationBlock (1 : Matx44 ℝ)).rank
      ∧ (DoPivotCalibration (pairSVD (Real.sqrt 2)) Real.sqrt (fun _ _ => 0)
          [(1 : Matx44 ℝ), 1] 0).result = .error (.logic_error rankFailureMessage) :=
  have h := pivot_needs_three_poses (pairSVD (Real.sqrt 2)) Real.sqrt (fun _ _ => 0)
    [(1 : Matx44 ℝ), 1] 0 (by decide)
    (fun M hM => by
      have hM1 : M = 1 := by simpa using hM
      subst hM1
      rw [rotationBlock_one]
      simp)
    (pairSVD_isSVD _ _ (Real.mul_self_sqrt (by norm_num)))
  ⟨(h.2.1 1 1 rfl).1, congrArg PivotOutcome.result h.2.2.2.2⟩

end bard
